import Mathlib

/-!
Shallow embedding of the OSPF topology analyzer (ospf.py) and verification of
its specification claims.

Conventions of the embedding:
* Python dicts become association lists (lists of key/value pairs) preserving
  insertion order; dict updates replace the value in place, new keys append.
* Python strings are Lean strings; comparisons that Python performs
  lexicographically (for sorting and heap ordering) are implemented by an
  executable lexicographic comparison on the underlying character lists.
* JSON numbers are modelled as naturals (interface costs in the analyzed
  configurations are non-negative integers; claim C1 explicitly restricts to
  non-negative edge weights).  Area identifiers attached to interfaces are
  modelled as naturals; declared area names (JSON object keys) as strings.
* IPv4 address/network values are kept as their canonical dotted strings; the
  normalization performed by IPv4Address/IPv4Network is the identity on the
  canonical forms that appear in the modelled domain, and parse failures of
  non-canonical inputs are outside the model.
* Python exceptions become an Except String monad: construction either aborts
  with the raised message or returns the finished value, which matches the
  fact that an exception escaping the constructor leaves no topology object.
-/

namespace OSPFSim

/-! ## Association lists (Python dicts, insertion-ordered) -/

/-- Lookup in an insertion-ordered association list (dict access). -/
def alookup {α : Type} : List (String × α) → String → Option α
  | [], _ => none
  | (k, v) :: rest, key => if k = key then some v else alookup rest key

/-- Dict update: replace the value of an existing key in place, otherwise
append the new binding at the end (Python dict insertion order). -/
def aset {α : Type} : List (String × α) → String → α → List (String × α)
  | [], key, v => [(key, v)]
  | (k, w) :: rest, key, v =>
    if k = key then (k, v) :: rest else (k, w) :: aset rest key v

/-- Append a value to the list stored under a key, creating the key at the end
if absent (defaultdict(list) extend semantics, insertion-ordered keys). -/
def aextend {α : Type} : List (String × List α) → String → α → List (String × List α)
  | [], key, v => [(key, [v])]
  | (k, vs) :: rest, key, v =>
    if k = key then (k, vs ++ [v]) :: rest else (k, vs) :: aextend rest key v

/-! ## Lexicographic string comparison (Python string ordering, executable) -/

/-- Lexicographic strict order on character lists, as Python compares
strings. -/
def clexLt : List Char → List Char → Bool
  | [], [] => false
  | [], _ :: _ => true
  | _ :: _, [] => false
  | a :: as, b :: bs => a < b || (a == b && clexLt as bs)

/-- Lexicographic strict order on strings (executable). -/
def strLt (a b : String) : Bool := clexLt a.toList b.toList

/-- Python sorted([u, v]) as a pair: the two strings in ascending order. -/
def sortPair (u v : String) : String × String :=
  if strLt v u then (v, u) else (u, v)

/-! ## JSON-ish values for raw interface configurations

An interface configuration in the input file is a JSON object.  The code reads
it with dict lookups, so we keep it as a raw association list of JSON-ish
values: strings, naturals, or nested objects (the connected_to variant). -/

inductive JVal : Type where
  | str : String → JVal
  | num : Nat → JVal
  | obj : List (String × JVal) → JVal

/-- String content of a JSON value (the modelled domain uses string values
exactly where the code expects them). -/
def JVal.asStr : JVal → String
  | .str s => s
  | .num n => toString n
  | .obj _ => ""

/-- Numeric content of a JSON value. -/
def JVal.asNat : JVal → Nat
  | .num n => n
  | _ => 0

/-- Raw interface configuration: the JSON object as an association list. -/
abbrev IntfConfig := List (String × JVal)

/-- Raw router configuration; router_id and the interfaces mapping are
required keys of the input schema, router_type is optional. -/
structure RouterConfig : Type where
  router_id : String
  router_type : Option String
  interfaces : List (String × IntfConfig)

/-- The whole configuration file: declared area names (JSON object keys of the
areas mapping), the routers mapping, and the optional topology_metadata.type
override. -/
structure Config : Type where
  areas : List String
  routers : List (String × RouterConfig)
  metadata_type : Option String

/-! ## Loaded data model (OSPFInterface / OSPFRouter) -/

/-- Loaded OSPFInterface object state after construction and neighbor
resolution. -/
structure OSPFInterface : Type where
  name : String
  ip_address : String
  network : String
  cost : Nat
  area : Nat
  connected_router : Option String
  neighbor_ip : Option String
deriving DecidableEq

/-- Loaded OSPFRouter object state. -/
structure OSPFRouter : Type where
  router_id : String
  name : String
  router_type : String
  interfaces : List (String × OSPFInterface)
  areas : List Nat
deriving DecidableEq

/-- Python truthiness of an optional string (None and the empty string are
falsy). -/
def truthy : Option String → Bool
  | none => false
  | some s => !(s = "")

/-! ## Interface IP extraction and network derivation -/

/-- The accepted IP-address keys, in the order the code probes them. -/
def ipKeys : List String := ["ip_address", "ip", "IP", "address"]

/-- Python repr of a list of strings (single-quoted items, comma-space
separated, square brackets), used in the KeyError message. -/
def pyStrListRepr (l : List String) : String :=
  let q := String.mk [Char.ofNat 39]
  let items := l.map (fun s => q ++ s ++ q)
  "[" ++ String.intercalate ", " items ++ "]"

/-- Message of the KeyError raised when no accepted IP key is present,
built exactly as the f-string in the source. -/
def noIpMessage (availableKeys : List String) : String :=
  "No IP address found. Available keys: " ++ pyStrListRepr availableKeys ++
    ". Expected keys: " ++ pyStrListRepr ipKeys

/-- Embedding of OSPFTopology._get_interface_ip: probe the accepted keys in
order; raise (return an error) if none is present. -/
def get_interface_ip (intf_config : IntfConfig) : Except String String :=
  match (ipKeys.find? (fun k => (alookup intf_config k).isSome)) with
  | some k =>
    match alookup intf_config k with
    | some v => .ok v.asStr
    | none => .error (noIpMessage (intf_config.map Prod.fst))
  | none => .error (noIpMessage (intf_config.map Prod.fst))

/-- The dot character. -/
def dotChar : Char := '.'

/-- Characters before the last dot, as Python rsplit(dot, 1)[0]; the whole
list when no dot occurs. -/
def beforeLastDot (l : List Char) : List Char :=
  if l.contains dotChar then
    (((l.reverse).dropWhile (fun ch => !(ch == dotChar))).drop 1).reverse
  else l

/-- Characters before the first dot, as Python split(dot, 1)[0]. -/
def beforeFirstDot (l : List Char) : List Char :=
  l.takeWhile (fun ch => !(ch == dotChar))

/-- Embedding of OSPFTopology._derive_network: prefix heuristic on the
canonical dotted address string. -/
def derive_network (ip : String) : String :=
  let l := ip.toList
  if List.isPrefixOf ("192.168".toList) l then
    String.mk (beforeLastDot l) ++ ".0/24"
  else if List.isPrefixOf ("10.".toList) l then
    String.mk (beforeFirstDot l) ++ ".0.0.0/8"
  else
    String.mk (beforeLastDot l) ++ ".0/24"

/-! ## Loading the configuration -/

/-- Parse the connected_to field: a dict yields router and optional explicit
neighbor ip, a bare string yields the router name, anything else (or absence)
leaves both unset. -/
def parseConnectedTo : Option JVal → Option String × Option String
  | some (.obj fields) => ((alookup fields "router").map JVal.asStr,
                           (alookup fields "ip").map JVal.asStr)
  | some (.str s) => (some s, none)
  | _ => (none, none)

/-- Load one interface from its raw configuration (the body of the inner loop
of load_configuration). -/
def loadInterface (intf_name : String) (raw : IntfConfig) :
    Except String OSPFInterface := do
  let ip ← get_interface_ip raw
  let network := ((alookup raw "network").map JVal.asStr).getD (derive_network ip)
  let cost := ((alookup raw "cost").map JVal.asNat).getD 1
  let area := ((alookup raw "area").map JVal.asNat).getD 0
  let (cr, nip) := parseConnectedTo (alookup raw "connected_to")
  let cr := if truthy cr then cr else none
  pure { name := intf_name, ip_address := ip, network := network,
         cost := cost, area := area, connected_router := cr, neighbor_ip := nip }

/-- Insert an area into a router's area set (Python set.add; only size and
membership of this set are ever consumed). -/
def insertArea (l : List Nat) (a : Nat) : List Nat :=
  if a ∈ l then l else l ++ [a]

/-- Load one router: fold its interfaces, collecting the area set. -/
def loadRouter (router_name : String) (rc : RouterConfig) :
    Except String OSPFRouter := do
  let intfs ← rc.interfaces.foldlM
    (fun (acc : List (String × OSPFInterface) × List Nat) p => do
      let i ← loadInterface p.1 p.2
      pure (acc.1 ++ [(p.1, i)], insertArea acc.2 i.area))
    ([], [])
  pure { router_id := rc.router_id, name := router_name,
         router_type := rc.router_type.getD "internal",
         interfaces := intfs.1, areas := intfs.2 }

/-- Resolve one interface's neighbor IP against the full router map
(the body of _resolve_neighbor_ips; writes touch only the interface being
processed, so a pure map over interfaces is equivalent to the in-place loop). -/
def resolveIntf (routers : List (String × OSPFRouter)) (router_name : String)
    (i : OSPFInterface) : OSPFInterface :=
  if truthy i.connected_router && !(truthy i.neighbor_ip) then
    match alookup routers (i.connected_router.getD "") with
    | some nbr =>
      match nbr.interfaces.find?
          (fun p => p.2.connected_router == some router_name &&
                    p.2.network == i.network) with
      | some p => { i with neighbor_ip := some p.2.ip_address }
      | none => i
    | none => i
  else i

/-- Embedding of _resolve_neighbor_ips over the loaded router map. -/
def resolve_neighbor_ips (routers : List (String × OSPFRouter)) :
    List (String × OSPFRouter) :=
  routers.map (fun rp =>
    (rp.1, { rp.2 with interfaces :=
      rp.2.interfaces.map (fun ip => (ip.1, resolveIntf routers rp.1 ip.2)) }))

/-- Loaded topology state after load_configuration: the router map, the
declared area names and the optional explicit topology type. -/
structure LoadedTopo : Type where
  routers : List (String × OSPFRouter)
  areas : List String
  metadata_type : Option String
deriving DecidableEq

/-- Embedding of load_configuration (after the file has been parsed into a
Config): build every router, then resolve neighbor IPs.  An error (a raised
exception) aborts the whole construction. -/
def load_configuration (cfg : Config) : Except String LoadedTopo := do
  let routers ← cfg.routers.foldlM
    (fun (acc : List (String × OSPFRouter)) p => do
      let r ← loadRouter p.1 p.2
      pure (acc ++ [(p.1, r)]))
    []
  pure { routers := resolve_neighbor_ips routers, areas := cfg.areas,
         metadata_type := cfg.metadata_type }

/-! ## Topology type detection -/

/-- Embedding of detect_topology_type: explicit metadata type wins, otherwise
the structural heuristic over declared areas and derived router area sets. -/
def detect_topology_type (t : LoadedTopo) : String :=
  match t.metadata_type with
  | some ty => ty
  | none =>
    let total_areas := t.areas.length
    let has_area_0 := t.areas.contains "0"
    let abr_count := t.routers.countP (fun rp => 1 < rp.2.areas.length)
    if total_areas ≤ 1 then
      if t.routers.length = 4 then "single_area_ring" else "single_area"
    else if has_area_0 && 0 < abr_count then "multi_area"
    else "single_area"


/-! ## The undirected graph (networkx Graph semantics) -/

/-- Attribute record of an undirected edge. -/
structure EdgeData : Type where
  weight : Nat
  area : Nat
  network : String
deriving DecidableEq

/-- Undirected simple graph as networkx keeps it: an ordered node list and an
ordered edge list keyed by the unordered (sorted) endpoint pair.  Re-adding an
existing edge overwrites its attributes in place. -/
structure NXGraph : Type where
  nodes : List String
  edges : List ((String × String) × EdgeData)
deriving DecidableEq

/-- Lookup an edge record by its (sorted) endpoint pair. -/
def elookup : List ((String × String) × EdgeData) → (String × String) → Option EdgeData
  | [], _ => none
  | (k, d) :: rest, key => if k = key then some d else elookup rest key

/-- Insert or overwrite an edge record, preserving positions. -/
def eset : List ((String × String) × EdgeData) → (String × String) → EdgeData →
    List ((String × String) × EdgeData)
  | [], key, d => [(key, d)]
  | (k, e) :: rest, key, d =>
    if k = key then (k, d) :: rest else (k, e) :: eset rest key d

/-- Embedding of graph.add_node. -/
def addNode (g : NXGraph) (n : String) : NXGraph :=
  if n ∈ g.nodes then g else { g with nodes := g.nodes ++ [n] }

/-- Embedding of graph.add_edge: both endpoints become nodes, and the edge
record keyed by the sorted endpoint pair is created or overwritten. -/
def addEdge (g : NXGraph) (u v : String) (d : EdgeData) : NXGraph :=
  let g1 := addNode (addNode g u) v
  { g1 with edges := eset g1.edges (sortPair u v) d }

/-- Edge record between two routers (unordered lookup). -/
def edgeBetween (g : NXGraph) (u v : String) : Option EdgeData :=
  elookup g.edges (sortPair u v)

/-- Weight of the edge between two routers (graph[u][v].weight; only queried
where the edge exists). -/
def weightBetween (g : NXGraph) (u v : String) : Nat :=
  ((edgeBetween g u v).map EdgeData.weight).getD 0

/-- Neighbors of a node with the connecting edge weight, in adjacency
(edge-insertion) order, as graph.neighbors enumerates them. -/
def nbrs (g : NXGraph) (u : String) : List (String × Nat) :=
  g.edges.filterMap (fun e =>
    if e.1.1 = u then some (e.1.2, e.2.weight)
    else if e.1.2 = u then some (e.1.1, e.2.weight)
    else none)

/-- Embedding of build_topology: add one node per router, then materialize one
add_edge call per first-seen (sorted router pair, interface area) key over the
connected interfaces, in iteration order.  Node attributes (router_id, type,
area list) are carried by networkx but never consumed by the verified logic,
so the embedding keeps only the node names. -/
def build_topology (t : LoadedTopo) : NXGraph :=
  let g0 := t.routers.foldl (fun g rp => addNode g rp.1) { nodes := [], edges := [] }
  (t.routers.foldl (fun (acc : NXGraph × List ((String × String) × Nat)) rp =>
    rp.2.interfaces.foldl (fun acc ip =>
      if truthy ip.2.connected_router then
        let cr := ip.2.connected_router.getD ""
        let key := (sortPair rp.1 cr, ip.2.area)
        if key ∈ acc.2 then acc
        else (addEdge acc.1 rp.1 cr ⟨ip.2.cost, ip.2.area, ip.2.network⟩,
              key :: acc.2)
      else acc) acc)
    (g0, [])).1

/-! ## Multi-path Dijkstra (dijkstra_multi_path) -/

/-- State of the Dijkstra loop: the distances dict, the paths defaultdict and
the pending heap entries.  The binary heap is modelled as the multiset of its
entries; popping extracts the least (distance, node) pair in the lexicographic
tuple order Python uses. -/
structure DState : Type where
  dist : List (String × ℕ∞)
  paths : List (String × List (List String))
  pq : List (Nat × String)
deriving DecidableEq

/-- Distance of a node (infinity when never assigned; every node of the graph
is pre-assigned infinity at initialization). -/
def distOf (st : DState) (v : String) : ℕ∞ :=
  (alookup st.dist v).getD ⊤

/-- Path list of a node (defaultdict(list): empty when never assigned). -/
def pathsOf (st : DState) (v : String) : List (List String) :=
  (alookup st.paths v).getD []

/-- Strict order on heap entries: Python tuple comparison on
(distance, node name). -/
def pairLtB (a b : Nat × String) : Bool :=
  a.1 < b.1 || (a.1 == b.1 && clexLt a.2.toList b.2.toList)

/-- Least entry of the heap (the entry heappop would return). -/
def listMin (l : List (Nat × String)) : Option (Nat × String) :=
  l.foldl (fun acc x =>
    match acc with
    | none => some x
    | some m => if pairLtB x m then some x else some m) none

/-- Remove one occurrence of an entry from the heap multiset. -/
def removeFirst : List (Nat × String) → (Nat × String) → List (Nat × String)
  | [], _ => []
  | x :: xs, y => if x = y then xs else x :: removeFirst xs y

/-- Initial state: all graph nodes at infinity, the source at 0 with the
trivial path, and the heap seeded with (0, source). -/
def dinit (g : NXGraph) (s : String) : DState :=
  { dist := aset (g.nodes.map (fun n => (n, (⊤ : ℕ∞)))) s 0,
    paths := [(s, [[s]])],
    pq := [(0, s)] }

/-- One relaxation of a popped node u at distance d against the neighbor entry
(v, w): strictly better distances replace the neighbor's distance and path
set and push a heap entry; exactly equal distances extend the path set. -/
def relaxOne (d : Nat) (u : String) (st : DState) (vw : String × Nat) : DState :=
  let nd := d + vw.2
  if (nd : ℕ∞) < distOf st vw.1 then
    { dist := aset st.dist vw.1 (nd : ℕ∞),
      paths := aset st.paths vw.1 ((pathsOf st u).map (fun p => p ++ [vw.1])),
      pq := st.pq ++ [(nd, vw.1)] }
  else if (nd : ℕ∞) = distOf st vw.1 then
    let newPaths := pathsOf st vw.1 ++ (pathsOf st u).map (fun p => p ++ [vw.1])
    { st with paths := aset st.paths vw.1 newPaths }
  else st

/-- Relax every neighbor of the popped node in adjacency order. -/
def relaxAll (g : NXGraph) (d : Nat) (u : String) (st : DState) : DState :=
  (nbrs g u).foldl (relaxOne d u) st

/-! Termination measure for the loop: the number of infinite distances over
the graph vertices, then the sum of the finite distances, then the heap size;
every iteration strictly decreases this lexicographic triple. -/

/-- All vertices the algorithm can ever touch: declared nodes and edge
endpoints, deduplicated. -/
def verts (g : NXGraph) : List String :=
  (g.nodes ++ g.edges.flatMap (fun e => [e.1.1, e.1.2])).dedup

/-- Value of the dist dict at a vertex, from the dist field alone. -/
def distOfD (dist : List (String × ℕ∞)) (v : String) : ℕ∞ :=
  (alookup dist v).getD ⊤

/-- Number of graph vertices still at infinity. -/
def countTopD (g : NXGraph) (dist : List (String × ℕ∞)) : Nat :=
  (verts g).countP (fun v => distOfD dist v = ⊤)

/-- Sum of the finite distances over the graph vertices. -/
def sumFinD (g : NXGraph) (dist : List (String × ℕ∞)) : Nat :=
  ((verts g).map (fun v => (distOfD dist v).toNat)).sum


/-! ## Helper lemmas: association lists, heap order, measure -/

theorem alookup_aset {α : Type} (l : List (String × α)) (k : String) (v : α)
    (k' : String) :
    alookup (aset l k v) k' = if k = k' then some v else alookup l k' := by
  induction l with
  | nil =>
    by_cases h : k = k' <;> simp [aset, alookup, h]
  | cons hd tl ih =>
    obtain ⟨k1, w⟩ := hd
    by_cases h1 : k1 = k
    · subst h1
      by_cases h2 : k1 = k'
      · subst h2
        simp [aset, alookup]
      · simp [aset, alookup, h2]
    · by_cases h2 : k1 = k'
      · subst h2
        have hkk : ¬ (k = k1) := fun h => h1 h.symm
        simp [aset, h1, alookup, hkk]
      · simp [aset, h1, alookup, h2, ih]

theorem countP_lt_of_pt {α : Type} {l : List α} (hnd : l.Nodup) {x : α}
    (hx : x ∈ l) {p q : α → Bool} (hpx : p x = true) (hqx : q x = false)
    (hagree : ∀ y ∈ l, y ≠ x → q y = p y) : l.countP q < l.countP p := by
  induction l with
  | nil => cases hx
  | cons hd tl ih =>
    rcases List.mem_cons.mp hx with h | h
    · have htl : ∀ y ∈ tl, q y = p y := by
        intro y hy
        have hne : y ≠ x := by
          rintro rfl
          rw [← h] at hnd
          exact (List.nodup_cons.mp hnd).1 hy
        exact hagree y (List.mem_cons_of_mem _ hy) hne
      have hcp : tl.countP q = tl.countP p := by
        apply List.countP_congr
        intro y hy
        simp [htl y hy]
      subst h
      simp [List.countP_cons, hpx, hqx, hcp]
    · have hhd : q hd = p hd := by
        have hne : hd ≠ x := by
          rintro rfl
          exact (List.nodup_cons.mp hnd).1 h
        exact hagree hd (List.mem_cons_self _ _) hne
      have hih := ih (List.nodup_cons.mp hnd).2 h
        (fun y hy hne => hagree y (List.mem_cons_of_mem _ hy) hne)
      simp [List.countP_cons, hhd]
      omega

theorem sum_lt_of_pt {α : Type} {l : List α} (hnd : l.Nodup) {x : α}
    (hx : x ∈ l) {f g : α → Nat} (hfg : f x < g x)
    (hagree : ∀ y ∈ l, y ≠ x → f y = g y) :
    (l.map f).sum < (l.map g).sum := by
  induction l with
  | nil => cases hx
  | cons hd tl ih =>
    rcases List.mem_cons.mp hx with h | h
    · have htl : ∀ y ∈ tl, f y = g y := by
        intro y hy
        have hne : y ≠ x := by
          rintro rfl
          rw [← h] at hnd
          exact (List.nodup_cons.mp hnd).1 hy
        exact hagree y (List.mem_cons_of_mem _ hy) hne
      have hms : (tl.map f).sum = (tl.map g).sum := by
        have : tl.map f = tl.map g := List.map_congr_left htl
        rw [this]
      subst h
      simp [hms]
      omega
    · have hhd : f hd = g hd := by
        have hne : hd ≠ x := by
          rintro rfl
          exact (List.nodup_cons.mp hnd).1 h
        exact hagree hd (List.mem_cons_self _ _) hne
      have hih := ih (List.nodup_cons.mp hnd).2 h
        (fun y hy hne => hagree y (List.mem_cons_of_mem _ hy) hne)
      simp [hhd]
      omega

theorem verts_nodup (g : NXGraph) : (verts g).Nodup := List.nodup_dedup _

theorem nbrs_fst_mem_verts (g : NXGraph) (u : String) {vw : String × Nat}
    (h : vw ∈ nbrs g u) : vw.1 ∈ verts g := by
  rcases List.mem_filterMap.mp h with ⟨e, he, hef⟩
  have hor : vw.1 = e.1.1 ∨ vw.1 = e.1.2 := by
    by_cases h1 : e.1.1 = u
    · simp only [h1, if_pos, if_true] at hef
      have := Option.some.inj hef
      right
      rw [← this]
    · by_cases h2 : e.1.2 = u
      · simp only [h1, h2, if_false, if_pos, if_true] at hef
        have := Option.some.inj hef
        left
        rw [← this]
      · simp [h1, h2] at hef
  have hmem : vw.1 ∈ g.edges.flatMap (fun e => [e.1.1, e.1.2]) := by
    apply List.mem_flatMap.mpr
    exact ⟨e, he, by rcases hor with h3 | h3 <;> simp [h3]⟩
  exact List.mem_dedup.mpr (List.mem_append.mpr (Or.inr hmem))

/-- Pointwise description of the dist dict after an aset. -/
theorem distOfD_aset (dist : List (String × ℕ∞)) (k : String) (v : ℕ∞)
    (x : String) :
    distOfD (aset dist k v) x = if k = x then v else distOfD dist x := by
  unfold distOfD
  rw [alookup_aset]
  by_cases h : k = x <;> simp [h]

/-- Equation for the strict-improvement branch of a relaxation. -/
theorem relaxOne_strict (d : Nat) (u : String) (st : DState) (vw : String × Nat)
    (h : ((d + vw.2 : Nat) : ℕ∞) < distOf st vw.1) :
    relaxOne d u st vw =
      { dist := aset st.dist vw.1 ((d + vw.2 : Nat) : ℕ∞),
        paths := aset st.paths vw.1 ((pathsOf st u).map (fun p => p ++ [vw.1])),
        pq := st.pq ++ [(d + vw.2, vw.1)] } := by
  unfold relaxOne
  rw [if_pos h]

/-- Equation for the equal-distance branch of a relaxation. -/
theorem relaxOne_equal (d : Nat) (u : String) (st : DState) (vw : String × Nat)
    (h1 : ¬ ((d + vw.2 : Nat) : ℕ∞) < distOf st vw.1)
    (h2 : ((d + vw.2 : Nat) : ℕ∞) = distOf st vw.1) :
    relaxOne d u st vw =
      { dist := st.dist,
        paths := aset st.paths vw.1 (pathsOf st vw.1 ++ (pathsOf st u).map (fun p => p ++ [vw.1])),
        pq := st.pq } := by
  unfold relaxOne
  rw [if_neg h1, if_pos h2]

/-- Equation for the no-op branch of a relaxation. -/
theorem relaxOne_skip (d : Nat) (u : String) (st : DState) (vw : String × Nat)
    (h1 : ¬ ((d + vw.2 : Nat) : ℕ∞) < distOf st vw.1)
    (h2 : ¬ ((d + vw.2 : Nat) : ℕ∞) = distOf st vw.1) :
    relaxOne d u st vw = st := by
  unfold relaxOne
  rw [if_neg h1, if_neg h2]

/-- The lexicographic decrease-or-stall property of a single relaxation. -/
theorem relaxOne_measure (g : NXGraph) (d : Nat) (u : String) (st : DState)
    (vw : String × Nat) (hv : vw.1 ∈ verts g) :
    (countTopD g (relaxOne d u st vw).dist < countTopD g st.dist ∨
      (countTopD g (relaxOne d u st vw).dist = countTopD g st.dist ∧
       sumFinD g (relaxOne d u st vw).dist < sumFinD g st.dist)) ∨
    ((relaxOne d u st vw).dist = st.dist ∧ (relaxOne d u st vw).pq = st.pq) := by
  by_cases hlt : ((d + vw.2 : Nat) : ℕ∞) < distOf st vw.1
  · left
    rw [relaxOne_strict d u st vw hlt]
    have hpt : ∀ x, distOfD (aset st.dist vw.1 ((d + vw.2 : Nat) : ℕ∞)) x =
        if vw.1 = x then ((d + vw.2 : Nat) : ℕ∞) else distOfD st.dist x :=
      distOfD_aset st.dist vw.1 _
    have hsd : distOf st vw.1 = distOfD st.dist vw.1 := rfl
    have hne_nd : ((d + vw.2 : Nat) : ℕ∞) ≠ ⊤ := by
      exact fun hc => by
        rw [hc] at hlt
        exact absurd hlt (by simp)
    by_cases htop : distOf st vw.1 = ⊤
    · left
      apply countP_lt_of_pt (verts_nodup g) hv
      · rw [hsd] at htop
        simp [htop]
      · simp only [hpt vw.1, if_pos rfl]
        simp only [decide_eq_false_iff_not]
        exact hne_nd
      · intro y _ hy
        have hyy : ¬ (vw.1 = y) := fun hc => hy hc.symm
        simp only [hpt y, if_neg hyy]
    · right
      constructor
      · apply List.countP_congr
        intro y _
        by_cases hy : vw.1 = y
        · subst hy
          rw [hsd] at htop
          rw [hpt vw.1, if_pos rfl]
          simp only [decide_eq_true_eq]
          constructor
          · intro hc
            exact absurd hc hne_nd
          · intro hc
            exact absurd hc htop
        · simp only [hpt y, if_neg hy]
      · apply sum_lt_of_pt (verts_nodup g) hv
        · rw [hpt vw.1, if_pos rfl]
          rw [hsd] at htop hlt
          lift distOfD st.dist vw.1 to Nat using htop with n hn
          simp only [ENat.toNat_coe]
          exact_mod_cast hlt
        · intro y _ hy
          have hyy : ¬ (vw.1 = y) := fun hc => hy hc.symm
          rw [hpt y, if_neg hyy]
  · by_cases heq : ((d + vw.2 : Nat) : ℕ∞) = distOf st vw.1
    · right
      rw [relaxOne_equal d u st vw hlt heq]
      exact ⟨rfl, rfl⟩
    · right
      rw [relaxOne_skip d u st vw hlt heq]
      exact ⟨rfl, rfl⟩

/-- Folding relaxations over a neighbor list decreases the measure or leaves
dist and pq untouched. -/
theorem relaxFold_measure (g : NXGraph) (d : Nat) (u : String)
    (l : List (String × Nat)) (hl : ∀ vw ∈ l, vw.1 ∈ verts g) (st : DState) :
    (countTopD g (l.foldl (relaxOne d u) st).dist < countTopD g st.dist ∨
      (countTopD g (l.foldl (relaxOne d u) st).dist = countTopD g st.dist ∧
       sumFinD g (l.foldl (relaxOne d u) st).dist < sumFinD g st.dist)) ∨
    ((l.foldl (relaxOne d u) st).dist = st.dist ∧
     (l.foldl (relaxOne d u) st).pq = st.pq) := by
  induction l generalizing st with
  | nil => right; exact ⟨rfl, rfl⟩
  | cons hd tl ih =>
    simp only [List.foldl_cons]
    have h1 := relaxOne_measure g d u st hd (hl hd (List.mem_cons_self _ _))
    have h2 := ih (fun vw hvw => hl vw (List.mem_cons_of_mem _ hvw)) (relaxOne d u st hd)
    rcases h2 with h2 | h2
    · left
      rcases h1 with h1 | h1
      · rcases h1 with h1 | h1 <;> rcases h2 with h2 | h2 <;>
          first
          | (left; omega)
          | (right; constructor <;> omega)
      · rw [h1.1] at h2
        exact h2
    · rcases h1 with h1 | h1
      · left
        rw [h2.1]
        exact h1
      · right
        rw [h2.1, h2.2]
        exact h1

theorem relaxAll_measure (g : NXGraph) (d : Nat) (u : String) (st : DState) :
    (countTopD g (relaxAll g d u st).dist < countTopD g st.dist ∨
      (countTopD g (relaxAll g d u st).dist = countTopD g st.dist ∧
       sumFinD g (relaxAll g d u st).dist < sumFinD g st.dist)) ∨
    ((relaxAll g d u st).dist = st.dist ∧ (relaxAll g d u st).pq = st.pq) :=
  relaxFold_measure g d u (nbrs g u) (fun _ hvw => nbrs_fst_mem_verts g u hvw) st

/-! ## Heap order lemmas -/

theorem clexLt_irrefl (a : List Char) : clexLt a a = false := by
  induction a with
  | nil => rfl
  | cons x xs ih => simp [clexLt, ih]

theorem clexLt_trans {a b c : List Char} (h1 : clexLt a b = true)
    (h2 : clexLt b c = true) : clexLt a c = true := by
  induction a generalizing b c with
  | nil =>
    cases b with
    | nil => simp [clexLt] at h1
    | cons y bs =>
      cases c with
      | nil => simp [clexLt] at h2
      | cons z cs => simp [clexLt]
  | cons x xs ih =>
    cases b with
    | nil => simp [clexLt] at h1
    | cons y bs =>
      cases c with
      | nil => simp [clexLt] at h2
      | cons z cs =>
        simp only [clexLt, Bool.or_eq_true, Bool.and_eq_true, beq_iff_eq,
          decide_eq_true_eq] at h1 h2 ⊢
        rcases h1 with h1 | ⟨h1e, h1r⟩
        · rcases h2 with h2 | ⟨h2e, h2r⟩
          · exact Or.inl (lt_trans h1 h2)
          · subst h2e
            exact Or.inl h1
        · subst h1e
          rcases h2 with h2 | ⟨h2e, h2r⟩
          · exact Or.inl h2
          · subst h2e
            exact Or.inr ⟨rfl, ih h1r h2r⟩

theorem clexLt_conn {a b : List Char} (h1 : clexLt a b = false) (h2 : a ≠ b) :
    clexLt b a = true := by
  induction a generalizing b with
  | nil =>
    cases b with
    | nil => exact absurd rfl h2
    | cons y bs => simp [clexLt] at h1
  | cons x xs ih =>
    cases b with
    | nil => simp [clexLt]
    | cons y bs =>
      rw [clexLt, Bool.or_eq_false_iff, Bool.and_eq_false_iff] at h1
      obtain ⟨hn1, hn2⟩ := h1
      rw [decide_eq_false_iff_not] at hn1
      rcases lt_trichotomy x y with hlt | heq | hgt
      · exact absurd hlt hn1
      · subst heq
        have hcl : clexLt xs bs = false := by
          rcases hn2 with hc | hc
          · exfalso
            rw [beq_eq_false_iff_ne] at hc
            exact hc rfl
          · exact hc
        have hne : xs ≠ bs := by
          intro hc
          exact h2 (by rw [hc])
        simp [clexLt, ih hcl hne]
      · simp [clexLt, hgt]

theorem pairLtB_irrefl (a : Nat × String) : pairLtB a a = false := by
  simp [pairLtB, clexLt_irrefl]

theorem pairLtB_trans {a b c : Nat × String} (h1 : pairLtB a b = true)
    (h2 : pairLtB b c = true) : pairLtB a c = true := by
  simp only [pairLtB, Bool.or_eq_true, Bool.and_eq_true, beq_iff_eq,
    decide_eq_true_eq] at h1 h2 ⊢
  rcases h1 with h1 | ⟨h1e, h1r⟩
  · rcases h2 with h2 | ⟨h2e, h2r⟩
    · exact Or.inl (lt_trans h1 h2)
    · exact Or.inl (h2e ▸ h1)
  · rcases h2 with h2 | ⟨h2e, h2r⟩
    · exact Or.inl (h1e ▸ h2)
    · exact Or.inr ⟨h1e.trans h2e, clexLt_trans h1r h2r⟩

theorem listMin_foldl_isSome (l : List (Nat × String)) (m : Nat × String) :
    (l.foldl (fun acc x =>
      match acc with
      | none => some x
      | some m => if pairLtB x m then some x else some m) (some m)).isSome = true := by
  induction l generalizing m with
  | nil => rfl
  | cons hd tl ih =>
    simp only [List.foldl_cons]
    by_cases h : pairLtB hd m = true <;> simp [h, ih]

theorem listMin_eq_none {l : List (Nat × String)} :
    listMin l = none ↔ l = [] := by
  constructor
  · intro h
    cases l with
    | nil => rfl
    | cons hd tl =>
      exfalso
      have := listMin_foldl_isSome tl hd
      unfold listMin at h
      simp only [List.foldl_cons] at h
      rw [h] at this
      simp at this
  · rintro rfl
    rfl

theorem pairLtB_conn {a b : Nat × String} (h1 : pairLtB a b = false)
    (h2 : a ≠ b) : pairLtB b a = true := by
  unfold pairLtB at h1 ⊢
  rw [Bool.or_eq_false_iff, Bool.and_eq_false_iff] at h1
  obtain ⟨hn1, hn2⟩ := h1
  rw [decide_eq_false_iff_not] at hn1
  rcases lt_trichotomy a.1 b.1 with hlt | heq | hgt
  · exact absurd hlt hn1
  · have hcl : clexLt a.2.toList b.2.toList = false := by
      rcases hn2 with hc | hc
      · exfalso
        rw [beq_eq_false_iff_ne] at hc
        exact hc heq
      · exact hc
    have hs : a.2 ≠ b.2 := fun hc => h2 (Prod.ext heq hc)
    have hls : a.2.toList ≠ b.2.toList := by
      intro hc
      apply hs
      calc a.2 = String.mk a.2.toList := rfl
        _ = String.mk b.2.toList := by rw [hc]
        _ = b.2 := rfl
    simp [heq.symm]
    exact clexLt_conn hcl hls
  · simp [hgt]

theorem listMin_foldl_cases (l : List (Nat × String)) (m0 m : Nat × String)
    (h : l.foldl (fun acc x =>
      match acc with
      | none => some x
      | some m => if pairLtB x m then some x else some m) (some m0) = some m) :
    (m = m0 ∨ m ∈ l) ∧ pairLtB m0 m = false ∧ ∀ x ∈ l, pairLtB x m = false := by
  induction l generalizing m0 with
  | nil =>
    simp at h
    subst h
    exact ⟨Or.inl rfl, pairLtB_irrefl m0, by simp⟩
  | cons hd tl ih =>
    simp only [List.foldl_cons] at h
    by_cases hcmp : pairLtB hd m0 = true
    · rw [if_pos hcmp] at h
      obtain ⟨hmem, hle, hall⟩ := ih hd h
      refine ⟨?_, ?_, ?_⟩
      · rcases hmem with h1 | h1
        · exact Or.inr (h1 ▸ List.mem_cons_self _ _)
        · exact Or.inr (List.mem_cons_of_mem _ h1)
      · by_cases hc : pairLtB m0 m = true
        · exfalso
          have := pairLtB_trans hcmp hc
          rw [this] at hle
          cases hle
        · simpa using hc
      · intro x hx
        rcases List.mem_cons.mp hx with h1 | h1
        · subst h1
          exact hle
        · exact hall x h1
    · rw [if_neg hcmp] at h
      obtain ⟨hmem, hle, hall⟩ := ih m0 h
      have hcmpf : pairLtB hd m0 = false := by simpa using hcmp
      refine ⟨?_, hle, ?_⟩
      · rcases hmem with h1 | h1
        · exact Or.inl h1
        · exact Or.inr (List.mem_cons_of_mem _ h1)
      · intro x hx
        rcases List.mem_cons.mp hx with h1 | h1
        · subst h1
          by_cases hc : pairLtB x m = true
          · exfalso
            by_cases heq : x = m0
            · subst heq
              rw [hc] at hle
              cases hle
            · have hmx := pairLtB_conn hcmpf heq
              have := pairLtB_trans hmx hc
              rw [this] at hle
              cases hle
          · simpa using hc
        · exact hall x h1

theorem listMin_spec {l : List (Nat × String)} {m : Nat × String}
    (h : listMin l = some m) :
    m ∈ l ∧ ∀ x ∈ l, pairLtB x m = false := by
  cases l with
  | nil => cases h
  | cons hd tl =>
    unfold listMin at h
    simp only [List.foldl_cons] at h
    obtain ⟨hmem, hle, hall⟩ := listMin_foldl_cases tl hd m h
    refine ⟨?_, ?_⟩
    · rcases hmem with h1 | h1
      · exact h1 ▸ List.mem_cons_self _ _
      · exact List.mem_cons_of_mem _ h1
    · intro x hx
      rcases List.mem_cons.mp hx with h1 | h1
      · subst h1
        exact hle
      · exact hall x h1

theorem listMin_mem {l : List (Nat × String)} {m : Nat × String}
    (h : listMin l = some m) : m ∈ l :=
  (listMin_spec h).1

/-! ## removeFirst lemmas -/

theorem removeFirst_length {l : List (Nat × String)} {m : Nat × String}
    (h : m ∈ l) : (removeFirst l m).length + 1 = l.length := by
  induction l with
  | nil => cases h
  | cons hd tl ih =>
    by_cases hc : hd = m
    · simp [removeFirst, hc]
    · rcases List.mem_cons.mp h with h1 | h1
      · exact absurd h1.symm hc
      · simp [removeFirst, hc, ih h1]

theorem removeFirst_length_lt {l : List (Nat × String)} {m : Nat × String}
    (h : m ∈ l) : (removeFirst l m).length < l.length := by
  have := removeFirst_length h
  omega

theorem removeFirst_subset {l : List (Nat × String)} {m x : Nat × String}
    (h : x ∈ removeFirst l m) : x ∈ l := by
  induction l with
  | nil => cases h
  | cons hd tl ih =>
    by_cases hc : hd = m
    · simp [removeFirst, hc] at h
      exact List.mem_cons_of_mem _ h
    · simp only [removeFirst, if_neg hc] at h
      rcases List.mem_cons.mp h with h1 | h1
      · exact h1 ▸ List.mem_cons_self _ _
      · exact List.mem_cons_of_mem _ (ih h1)

theorem mem_removeFirst_of_ne {l : List (Nat × String)} {m x : Nat × String}
    (hx : x ∈ l) (hne : x ≠ m) : x ∈ removeFirst l m := by
  induction l with
  | nil => cases hx
  | cons hd tl ih =>
    by_cases hc : hd = m
    · subst hc
      simp only [removeFirst, if_pos rfl]
      rcases List.mem_cons.mp hx with h1 | h1
      · exact absurd h1 hne
      · exact h1
    · simp only [removeFirst, if_neg hc]
      rcases List.mem_cons.mp hx with h1 | h1
      · exact h1 ▸ List.mem_cons_self _ _
      · exact List.mem_cons_of_mem _ (ih h1)

theorem removeFirst_perm {l : List (Nat × String)} {m : Nat × String}
    (h : m ∈ l) : l.Perm (m :: removeFirst l m) := by
  induction l with
  | nil => cases h
  | cons hd tl ih =>
    by_cases hc : hd = m
    · subst hc
      simp [removeFirst]
    · rcases List.mem_cons.mp h with h1 | h1
      · exact absurd h1.symm hc
      · simp only [removeFirst, if_neg hc]
        exact List.Perm.trans (List.Perm.cons hd (ih h1))
          (List.Perm.swap m hd (removeFirst tl m))

/-! ## The Dijkstra main loop -/

/-- Main loop of dijkstra_multi_path: pop the least heap entry; discard it
when stale (strictly above the recorded distance), otherwise relax all
neighbors; stop when the heap is empty. -/
def dloop (g : NXGraph) (st : DState) : DState :=
  match hm : listMin st.pq with
  | none => st
  | some m =>
    if (m.1 : ℕ∞) > distOf st m.2 then
      dloop g { st with pq := removeFirst st.pq m }
    else
      dloop g (relaxAll g m.1 m.2 { st with pq := removeFirst st.pq m })
termination_by (countTopD g st.dist, sumFinD g st.dist, st.pq.length)
decreasing_by
  · have hmem := listMin_mem hm
    have hlen := removeFirst_length_lt hmem
    exact Prod.Lex.right _ (Prod.Lex.right _ hlen)
  · have hmem := listMin_mem hm
    have hlen := removeFirst_length_lt hmem
    have hms := relaxAll_measure g m.1 m.2 { st with pq := removeFirst st.pq m }
    rcases hms with hms | hms
    · rcases hms with hms | hms
      · exact Prod.Lex.left _ _ hms
      · rw [hms.1]
        exact Prod.Lex.right _ (Prod.Lex.left _ _ hms.2)
    · rw [hms.1, hms.2]
      exact Prod.Lex.right _ (Prod.Lex.right _ hlen)

/-- Fuel-indexed twin of the loop, used to evaluate concrete runs; it follows
exactly the same steps and returns none only when the fuel runs out. -/
def dloopFuel (g : NXGraph) : Nat → DState → Option DState
  | 0, _ => none
  | n + 1, st =>
    match listMin st.pq with
    | none => some st
    | some m =>
      if (m.1 : ℕ∞) > distOf st m.2 then
        dloopFuel g n { st with pq := removeFirst st.pq m }
      else
        dloopFuel g n (relaxAll g m.1 m.2 { st with pq := removeFirst st.pq m })

/-- A terminating fueled run computes the loop's value. -/
theorem dloopFuel_sound (g : NXGraph) :
    ∀ (n : Nat) (st res : DState), dloopFuel g n st = some res →
      dloop g st = res := by
  intro n
  induction n with
  | zero => intro st res h; cases h
  | succ n ih =>
    intro st res h
    unfold dloopFuel at h
    rw [dloop.eq_def]
    split
    · next heq =>
      rw [heq] at h
      simp at h
      exact h
    · next m heq =>
      rw [heq] at h
      simp only at h
      by_cases hc : (m.1 : ℕ∞) > distOf st m.2
      · rw [if_pos hc] at h ⊢
        exact ih _ _ h
      · rw [if_neg hc] at h ⊢
        exact ih _ _ h

/-- Embedding of dijkstra_multi_path: run the loop from the initial state.
The returned distances dict and paths dict are the dist and paths fields of
the final state. -/
def dijkstra_multi_path (g : NXGraph) (s : String) : DState :=
  dloop g (dinit g s)

/-- One iteration of the loop body as a relation (skip a stale entry, or pop
and relax).  Temporal invariance arguments are inductions along this
relation. -/
inductive DStep (g : NXGraph) : DState → DState → Prop where
  | skip (st : DState) (m : Nat × String) (hm : listMin st.pq = some m)
      (hstale : (m.1 : ℕ∞) > distOf st m.2) :
      DStep g st { st with pq := removeFirst st.pq m }
  | proc (st : DState) (m : Nat × String) (hm : listMin st.pq = some m)
      (hcur : ¬ (m.1 : ℕ∞) > distOf st m.2) :
      DStep g st (relaxAll g m.1 m.2 { st with pq := removeFirst st.pq m })

/-- The loop runs to its result via finitely many steps and drains the heap. -/
theorem dloop_run (g : NXGraph) (st : DState) :
    Relation.ReflTransGen (DStep g) st (dloop g st) ∧ (dloop g st).pq = [] := by
  induction st using dloop.induct g with
  | case1 st hm =>
    have hunf : dloop g st = st := by
      rw [dloop.eq_def]
      split
      · rfl
      · next m heq =>
        rw [hm] at heq
        cases heq
    rw [hunf]
    exact ⟨Relation.ReflTransGen.refl, listMin_eq_none.mp hm⟩
  | case2 st m hm hc ih =>
    have hunf : dloop g st = dloop g { st with pq := removeFirst st.pq m } := by
      rw [dloop.eq_def]
      split
      · next heq =>
        rw [hm] at heq
        cases heq
      · next m2 heq =>
        rw [hm] at heq
        cases heq
        rw [if_pos hc]
    rw [hunf]
    exact ⟨Relation.ReflTransGen.head (DStep.skip st m hm hc) ih.1, ih.2⟩
  | case3 st m hm hc ih =>
    have hunf : dloop g st =
        dloop g (relaxAll g m.1 m.2 { st with pq := removeFirst st.pq m }) := by
      rw [dloop.eq_def]
      split
      · next heq =>
        rw [hm] at heq
        cases heq
      · next m2 heq =>
        rw [hm] at heq
        cases heq
        rw [if_neg hc]
    rw [hunf]
    exact ⟨Relation.ReflTransGen.head (DStep.proc st m hm hc) ih.1, ih.2⟩

/-! ## Route classification and routing table synthesis -/

/-- Full topology object state after construction (the fields of OSPFTopology
that the routing logic reads). -/
structure OSPFTopologyState : Type where
  routers : List (String × OSPFRouter)
  areas : List String
  topology_type : String
  graph : NXGraph
deriving DecidableEq

/-- Embedding of the OSPFTopology constructor on an already parsed Config:
load, detect the topology type, build the graph. -/
def mkTopology (cfg : Config) : Except String OSPFTopologyState := do
  let lt ← load_configuration cfg
  pure { routers := lt.routers, areas := lt.areas,
         topology_type := detect_topology_type lt,
         graph := build_topology lt }

/-- Embedding of determine_route_type.  The dest_router argument of the
source is unused, as in the code. -/
def determine_route_type (topology_type : String) (source_router : OSPFRouter)
    (_dest_router : OSPFRouter) (dest_area : Nat) : String :=
  if topology_type = "single_area" ∨ topology_type = "single_area_ring" then "O"
  else if dest_area ∈ source_router.areas then "O"
  else "O IA"

/-- A default router value standing for the KeyError case of a dict access
that the analyzed call sites never hit. -/
def emptyRouter : OSPFRouter :=
  { router_id := "", name := "", router_type := "internal",
    interfaces := [], areas := [] }

/-- Embedding of find_next_hop_ip: the neighbor IP of the first source
interface connected to the next hop router (None when there is none, or when
that interface has no resolved neighbor IP). -/
def find_next_hop_ip (t : OSPFTopologyState) (source_router : String)
    (next_hop_router : String) : Option String :=
  let source := (alookup t.routers source_router).getD emptyRouter
  match source.interfaces.find?
      (fun ip => ip.2.connected_router == some next_hop_router) with
  | some ip => ip.2.neighbor_ip
  | none => none

/-- Embedding of find_outbound_interface: name of the first source interface
connected to the next hop router. -/
def find_outbound_interface (t : OSPFTopologyState) (source_router : String)
    (next_hop_router : String) : Option String :=
  let source := (alookup t.routers source_router).getD emptyRouter
  match source.interfaces.find?
      (fun ip => ip.2.connected_router == some next_hop_router) with
  | some ip => some ip.1
  | none => none

/-- One synthesized route entry. -/
structure RouteEntry : Type where
  network : String
  next_hop : String
  cost : Nat
  via_interface : String
  route_type : String
deriving DecidableEq

/-- Group the paths to a destination by their second element (the next hop),
keys in first-appearance order, as the defaultdict loop does; paths of length
one (the source itself) are skipped. -/
def groupByNextHop (paths_to_dest : List (List String)) :
    List (String × List (List String)) :=
  paths_to_dest.foldl (fun acc p =>
    match p with
    | _ :: nh :: _ => aextend acc nh p
    | _ => acc) []

/-- Routes appended for one destination network: one entry per next-hop group
of the destination's path set, provided the next hop has a resolvable
neighbor IP and outbound interface. -/
def routesForNetwork (t : OSPFTopologyState) (router_name : String) (st : DState)
    (dp : String × OSPFRouter) (ip : String × OSPFInterface)
    (paths_to_dest : List (List String)) (rs0 : List RouteEntry) : List RouteEntry :=
  (groupByNextHop paths_to_dest).foldl
    (fun (rs : List RouteEntry) nh =>
      let router := (alookup t.routers router_name).getD emptyRouter
      let path_cost := distOf st dp.1
      let total_cost := path_cost + (ip.2.cost : ℕ∞)
      let route_type := determine_route_type t.topology_type router dp.2 ip.2.area
      let next_hop_ip := find_next_hop_ip t router_name nh.1
      let outbound_interface := find_outbound_interface t router_name nh.1
      if truthy next_hop_ip && truthy outbound_interface then
        rs ++ [{ network := ip.2.network,
                 next_hop := next_hop_ip.getD "",
                 cost := total_cost.toNat,
                 via_interface := outbound_interface.getD "",
                 route_type := route_type }]
      else rs) rs0

/-- Body of the per-interface loop of generate_routing_table: skip processed
or directly-connected networks, then mark the network processed and append
the grouped routes when the destination has recorded paths. -/
def tableStepIntf (t : OSPFTopologyState) (router_name : String) (st : DState)
    (dp : String × OSPFRouter) (acc : List String × List RouteEntry)
    (ip : String × OSPFInterface) : List String × List RouteEntry :=
  let router := (alookup t.routers router_name).getD emptyRouter
  let network_str := ip.2.network
  if network_str ∈ acc.1 then acc
  else if router.interfaces.any (fun si => si.2.network == network_str) then acc
  else
    let processed := acc.1 ++ [network_str]
    match alookup st.paths dp.1 with
    | none => (processed, acc.2)
    | some paths_to_dest =>
      (processed, routesForNetwork t router_name st dp ip paths_to_dest acc.2)

/-- Body of generate_routing_table downstream of the Dijkstra call, taking the
final Dijkstra state explicitly (generate_routing_table instantiates it with
the run from the source router). -/
def generate_routing_table_from (t : OSPFTopologyState) (router_name : String)
    (st : DState) : List RouteEntry :=
  (t.routers.foldl (fun (acc : List String × List RouteEntry) dp =>
    if dp.1 = router_name then acc
    else dp.2.interfaces.foldl (tableStepIntf t router_name st dp) acc)
    ([], [])).2

/-- Embedding of generate_routing_table. -/
def generate_routing_table (t : OSPFTopologyState) (router_name : String) :
    List RouteEntry :=
  generate_routing_table_from t router_name
    (dijkstra_multi_path t.graph router_name)

/-! ## Walks in the graph -/

/-- Consecutive elements are connected by an edge of the graph. -/
def chainAdj (g : NXGraph) : List String → Bool
  | [] => true
  | [_] => true
  | a :: b :: rest => (edgeBetween g a b).isSome && chainAdj g (b :: rest)

/-- A walk from s to v: nonempty vertex sequence, starting at s, ending at v,
with every consecutive pair joined by an edge. -/
def walkOk (g : NXGraph) (s v : String) (p : List String) : Bool :=
  p.head? == some s && p.getLast? == some v && chainAdj g p

/-- Total weight of a walk: the sum of the weights of its consecutive edges. -/
def walkW (g : NXGraph) : List String → Nat
  | a :: b :: rest => weightBetween g a b + walkW g (b :: rest)
  | _ => 0

/-! ## Graph well-formedness and adjacency lemmas -/

/-- Well-formed graph state, as produced by repeated addNode/addEdge calls:
edge keys are pairwise distinct and stored in sorted orientation. -/
def NXGraph.WF (g : NXGraph) : Prop :=
  (g.edges.map Prod.fst).Nodup ∧ ∀ e ∈ g.edges, sortPair e.1.1 e.1.2 = e.1

theorem clexLt_asymm {a b : List Char} (h : clexLt a b = true) :
    clexLt b a = false := by
  by_cases hc : clexLt b a = true
  · exfalso
    have := clexLt_trans h hc
    rw [clexLt_irrefl] at this
    cases this
  · simpa using hc

theorem sortPair_comm (u v : String) : sortPair u v = sortPair v u := by
  unfold sortPair strLt
  by_cases h1 : clexLt v.toList u.toList = true
  · rw [if_pos h1, if_neg (by rw [clexLt_asymm h1]; simp)]
  · by_cases h2 : clexLt u.toList v.toList = true
    · rw [if_neg (by simpa using h1), if_pos h2]
    · have huv : u = v := by
        by_contra hne
        have hls : u.toList ≠ v.toList := by
          intro hc
          apply hne
          calc u = String.mk u.toList := rfl
            _ = String.mk v.toList := by rw [hc]
            _ = v := rfl
        have := clexLt_conn (by simpa using h2) hls
        exact h1 this
      subst huv
      rw [if_neg h1]

theorem sortPair_cases (u v : String) :
    sortPair u v = (u, v) ∨ sortPair u v = (v, u) := by
  unfold sortPair
  by_cases h : strLt v u = true
  · rw [if_pos h]
    exact Or.inr rfl
  · rw [if_neg h]
    exact Or.inl rfl

theorem elookup_mem {l : List ((String × String) × EdgeData)}
    {k : String × String} {d : EdgeData} (h : elookup l k = some d) :
    (k, d) ∈ l := by
  induction l with
  | nil => cases h
  | cons hd tl ih =>
    obtain ⟨k1, d1⟩ := hd
    by_cases hc : k1 = k
    · subst hc
      rw [elookup, if_pos rfl] at h
      cases h
      exact List.mem_cons_self _ _
    · rw [elookup, if_neg hc] at h
      exact List.mem_cons_of_mem _ (ih h)

theorem elookup_of_mem_nodup {l : List ((String × String) × EdgeData)}
    (hnd : (l.map Prod.fst).Nodup) {e : (String × String) × EdgeData}
    (he : e ∈ l) : elookup l e.1 = some e.2 := by
  induction l with
  | nil => cases he
  | cons hd tl ih =>
    rcases List.mem_cons.mp he with h | h
    · subst h
      rw [elookup, if_pos rfl]
    · have hne : hd.1 ≠ e.1 := by
        intro hc
        have : e.1 ∈ tl.map Prod.fst := List.mem_map_of_mem _ h
        rw [← hc] at this
        exact (List.nodup_cons.mp (by simpa using hnd)).1 this
      rw [elookup, if_neg hne]
      exact ih (List.nodup_cons.mp (by simpa using hnd)).2 h

/-- In a well-formed graph, each neighbor entry carries the weight of the
looked-up edge. -/
theorem nbrs_weight (g : NXGraph) (hwf : g.WF) (u : String)
    {vw : String × Nat} (h : vw ∈ nbrs g u) :
    ∃ dd : EdgeData, edgeBetween g u vw.1 = some dd ∧ dd.weight = vw.2 := by
  rcases List.mem_filterMap.mp h with ⟨e, he, hef⟩
  have hkey := hwf.2 e he
  have hlk : elookup g.edges e.1 = some e.2 := elookup_of_mem_nodup hwf.1 he
  by_cases h1 : e.1.1 = u
  · rw [if_pos h1] at hef
    have hv := Option.some.inj hef
    refine ⟨e.2, ?_, ?_⟩
    · unfold edgeBetween
      have hv1 : vw.1 = e.1.2 := by rw [← hv]
      rw [hv1, ← h1, hkey]
      exact hlk
    · rw [← hv]
  · by_cases h2 : e.1.2 = u
    · rw [if_neg h1, if_pos h2] at hef
      have hv := Option.some.inj hef
      refine ⟨e.2, ?_, ?_⟩
      · unfold edgeBetween
        have hv1 : vw.1 = e.1.1 := by rw [← hv]
        rw [hv1, ← h2, sortPair_comm, hkey]
        exact hlk
      · rw [← hv]
    · rw [if_neg h1, if_neg h2] at hef
      cases hef

/-- Every looked-up edge yields a neighbor entry with its weight. -/
theorem edge_mem_nbrs (g : NXGraph) {u v : String} {dd : EdgeData}
    (h : edgeBetween g u v = some dd) : (v, dd.weight) ∈ nbrs g u := by
  have hmem : (sortPair u v, dd) ∈ g.edges := elookup_mem h
  apply List.mem_filterMap.mpr
  refine ⟨(sortPair u v, dd), hmem, ?_⟩
  rcases sortPair_cases u v with hc | hc
  · rw [hc]
    simp
  · rw [hc]
    by_cases huv : v = u
    · subst huv
      simp
    · simp [huv]

/-! ## Walk lemmas -/

theorem chainAdj_cons_cons (g : NXGraph) (a b : String) (rest : List String) :
    chainAdj g (a :: b :: rest) =
      ((edgeBetween g a b).isSome && chainAdj g (b :: rest)) := rfl

theorem walkW_cons_cons (g : NXGraph) (a b : String) (rest : List String) :
    walkW g (a :: b :: rest) = weightBetween g a b + walkW g (b :: rest) := rfl

theorem chainAdj_snoc (g : NXGraph) (v : String) (p : List String) :
    ∀ u : String, chainAdj g p = true → p.getLast? = some u →
      (edgeBetween g u v).isSome = true → chainAdj g (p ++ [v]) = true := by
  induction p with
  | nil => intro u _ hl _; cases hl
  | cons a tl ih =>
    intro u hc hl he
    cases tl with
    | nil =>
      simp at hl
      subst hl
      simp [chainAdj_cons_cons, chainAdj, he]
    | cons b rest =>
      rw [chainAdj_cons_cons, Bool.and_eq_true] at hc
      rw [List.getLast?_cons_cons] at hl
      have hrec := ih u hc.2 hl he
      rw [List.cons_append] at hrec
      rw [List.cons_append, List.cons_append, chainAdj_cons_cons, Bool.and_eq_true]
      exact ⟨hc.1, hrec⟩

theorem walkW_snoc (g : NXGraph) (v : String) (p : List String) :
    ∀ u : String, p.getLast? = some u →
      walkW g (p ++ [v]) = walkW g p + weightBetween g u v := by
  induction p with
  | nil => intro u hl; cases hl
  | cons a tl ih =>
    intro u hl
    cases tl with
    | nil =>
      simp at hl
      subst hl
      simp [walkW_cons_cons, walkW]
    | cons b rest =>
      rw [List.getLast?_cons_cons] at hl
      have hrec := ih u hl
      rw [List.cons_append] at hrec
      rw [List.cons_append, List.cons_append, walkW_cons_cons, walkW_cons_cons, hrec]
      omega

theorem walkOk_snoc (g : NXGraph) (s u v : String) (p : List String)
    (hw : walkOk g s u p = true) (he : (edgeBetween g u v).isSome = true) :
    walkOk g s v (p ++ [v]) = true := by
  rw [walkOk, Bool.and_eq_true, Bool.and_eq_true] at hw
  obtain ⟨⟨hh, hlast⟩, hchain⟩ := hw
  rw [beq_iff_eq] at hh hlast
  rw [walkOk, Bool.and_eq_true, Bool.and_eq_true]
  refine ⟨⟨?_, ?_⟩, ?_⟩
  · rw [beq_iff_eq]
    have hne : p ≠ [] := by
      intro hc
      rw [hc] at hh
      cases hh
    rw [List.head?_append_of_ne_nil _ hne]
    exact hh
  · rw [beq_iff_eq]
    simp
  · exact chainAdj_snoc g v p u hchain hlast he

/-! ## Basic run invariants of the Dijkstra loop -/

theorem getD_alookup_aset {α : Type} (l : List (String × α)) (k : String)
    (v : α) (x : String) (dflt : α) :
    (alookup (aset l k v) x).getD dflt =
      if k = x then v else (alookup l x).getD dflt := by
  rw [alookup_aset]
  by_cases h : k = x <;> simp [h]

/-- The node has an up-to-date heap entry. -/
def liveAt (st : DState) (u : String) : Prop :=
  ∃ d : Nat, (d, u) ∈ st.pq ∧ (d : ℕ∞) = distOf st u

/-- All edges out of the node satisfy the relaxation inequality. -/
def relaxedAt (g : NXGraph) (st : DState) (u : String) : Prop :=
  ∀ vw ∈ nbrs g u, distOf st vw.1 ≤ distOf st u + (vw.2 : ℕ∞)

/-- Invariant bundle of the loop: heap entries dominate recorded distances;
the source is pinned at distance zero with its trivial path; every finite
node has an up-to-date heap entry or is fully relaxed; every recorded path is
a source walk whose weight equals the recorded distance; finite nodes have
nonempty path sets, infinite nodes have no paths key. -/
def InvB (g : NXGraph) (s : String) (st : DState) : Prop :=
  (∀ e ∈ st.pq, distOf st e.2 ≤ (e.1 : ℕ∞)) ∧
  alookup st.dist s = some 0 ∧
  [s] ∈ pathsOf st s ∧
  (∀ u, distOf st u ≠ ⊤ → liveAt st u ∨ relaxedAt g st u) ∧
  (∀ u p, p ∈ pathsOf st u → walkOk g s u p = true ∧ (walkW g p : ℕ∞) = distOf st u) ∧
  (∀ u, distOf st u ≠ ⊤ → pathsOf st u ≠ []) ∧
  (∀ u, distOf st u = ⊤ → alookup st.paths u = none)

/-- Invariant of the state threaded through one node's relaxation fold: the
InvB components with the live-or-relaxed disjunct weakened at the popped node,
plus the popped node's pinned distance. -/
def PInv (g : NXGraph) (s : String) (dval : Nat) (u : String) (c : DState) : Prop :=
  (∀ e ∈ c.pq, distOf c e.2 ≤ (e.1 : ℕ∞)) ∧
  alookup c.dist s = some 0 ∧
  [s] ∈ pathsOf c s ∧
  (∀ x, distOf c x ≠ ⊤ → liveAt c x ∨ relaxedAt g c x ∨ x = u) ∧
  (∀ x p, p ∈ pathsOf c x → walkOk g s x p = true ∧ (walkW g p : ℕ∞) = distOf c x) ∧
  (∀ x, distOf c x ≠ ⊤ → pathsOf c x ≠ []) ∧
  (∀ x, distOf c x = ⊤ → alookup c.paths x = none) ∧
  distOf c u = (dval : ℕ∞)

theorem relaxOne_PInv (g : NXGraph) (hwf : g.WF) (s : String) (d : Nat)
    (u : String) (c : DState) (vw : String × Nat) (hvw : vw ∈ nbrs g u)
    (hP : PInv g s d u c) :
    PInv g s d u (relaxOne d u c vw) ∧
    (∀ x, distOf (relaxOne d u c vw) x ≤ distOf c x) ∧
    (∀ e ∈ c.pq, e ∈ (relaxOne d u c vw).pq) ∧
    distOf (relaxOne d u c vw) vw.1 ≤ ((d + vw.2 : Nat) : ℕ∞) := by
  obtain ⟨hII, hS0a, hS0b, hC, hJ1, hJ2, hJ3, hdu⟩ := hP
  obtain ⟨dd, hdd, hddw⟩ := nbrs_weight g hwf u hvw
  have hedge : (edgeBetween g u vw.1).isSome = true := by rw [hdd]; rfl
  have hwb : weightBetween g u vw.1 = vw.2 := by
    unfold weightBetween
    rw [hdd, ← hddw]
    rfl
  have hnd_ne : ((d + vw.2 : Nat) : ℕ∞) ≠ ⊤ := by
    push_cast
    exact WithTop.add_ne_top.mpr ⟨WithTop.coe_ne_top, WithTop.coe_ne_top⟩
  have hd_le_nd : ((d : Nat) : ℕ∞) ≤ ((d + vw.2 : Nat) : ℕ∞) := by
    exact_mod_cast Nat.le_add_right d vw.2
  rcases lt_trichotomy ((d + vw.2 : Nat) : ℕ∞) (distOf c vw.1) with hlt | heq | hgt
  · -- strict improvement branch
    rw [relaxOne_strict d u c vw hlt]
    have hvu : vw.1 ≠ u := by
      intro hc
      rw [hc, hdu] at hlt
      exact absurd (lt_of_le_of_lt hd_le_nd hlt) (lt_irrefl _)
    have hdist : ∀ x,
        distOf { dist := aset c.dist vw.1 ((d + vw.2 : Nat) : ℕ∞),
                 paths := aset c.paths vw.1 ((pathsOf c u).map (fun p => p ++ [vw.1])),
                 pq := c.pq ++ [(d + vw.2, vw.1)] } x =
          if vw.1 = x then ((d + vw.2 : Nat) : ℕ∞) else distOf c x :=
      fun x => distOfD_aset c.dist vw.1 _ x
    have hpaths : ∀ x,
        pathsOf { dist := aset c.dist vw.1 ((d + vw.2 : Nat) : ℕ∞),
                  paths := aset c.paths vw.1 ((pathsOf c u).map (fun p => p ++ [vw.1])),
                  pq := c.pq ++ [(d + vw.2, vw.1)] } x =
          if vw.1 = x then (pathsOf c u).map (fun p => p ++ [vw.1]) else pathsOf c x :=
      fun x => getD_alookup_aset c.paths vw.1 _ x []
    have hvs : vw.1 ≠ s := by
      intro hc
      have h0 : distOf c s = 0 := by
        unfold distOf
        rw [hS0a]
        rfl
      rw [hc, h0] at hlt
      exact absurd hlt (by simp)
    have hmono : ∀ x,
        distOf { dist := aset c.dist vw.1 ((d + vw.2 : Nat) : ℕ∞),
                 paths := aset c.paths vw.1 ((pathsOf c u).map (fun p => p ++ [vw.1])),
                 pq := c.pq ++ [(d + vw.2, vw.1)] } x ≤ distOf c x := by
      intro x
      rw [hdist x]
      by_cases hx : vw.1 = x
      · rw [if_pos hx, ← hx]
        exact le_of_lt hlt
      · rw [if_neg hx]
    refine ⟨⟨?_, ?_, ?_, ?_, ?_, ?_, ?_, ?_⟩, hmono, ?_, ?_⟩
    · -- II
      intro e he
      rcases List.mem_append.mp he with he | he
      · calc distOf _ e.2 ≤ distOf c e.2 := hmono e.2
          _ ≤ (e.1 : ℕ∞) := hII e he
      · rw [List.mem_singleton] at he
        subst he
        exact le_of_eq ((hdist vw.1).trans (if_pos rfl))
    · -- S0a
      show alookup (aset c.dist vw.1 _) s = some 0
      rw [alookup_aset, if_neg hvs]
      exact hS0a
    · -- S0b
      rw [hpaths s, if_neg hvs]
      exact hS0b
    · -- C weakened
      intro x hx
      by_cases hxv : vw.1 = x
      · left
        refine ⟨d + vw.2, ?_, ?_⟩
        · show (d + vw.2, x) ∈ c.pq ++ [(d + vw.2, vw.1)]
          rw [← hxv]
          exact List.mem_append.mpr (Or.inr (List.mem_cons_self _ _))
        · rw [hdist x, if_pos hxv]
      · have hx0 : distOf c x ≠ ⊤ := by
          rw [hdist x, if_neg hxv] at hx
          exact hx
        rcases hC x hx0 with hcase | hcase | hcase
        · left
          obtain ⟨dx, hdx, hdxe⟩ := hcase
          refine ⟨dx, List.mem_append.mpr (Or.inl hdx), ?_⟩
          rw [hdist x, if_neg hxv]
          exact hdxe
        · right; left
          intro yw hyw
          calc distOf _ yw.1 ≤ distOf c yw.1 := hmono yw.1
            _ ≤ distOf c x + (yw.2 : ℕ∞) := hcase yw hyw
            _ = distOf _ x + (yw.2 : ℕ∞) := by rw [hdist x, if_neg hxv]
        · right; right
          exact hcase
    · -- J1
      intro x p hp
      by_cases hxv : vw.1 = x
      · rw [hpaths x, if_pos hxv] at hp
        rcases List.mem_map.mp hp with ⟨p0, hp0, rfl⟩
        obtain ⟨hp0w, hp0d⟩ := hJ1 u p0 hp0
        have hlast : p0.getLast? = some u := by
          rw [walkOk, Bool.and_eq_true, Bool.and_eq_true] at hp0w
          rw [← beq_iff_eq]
          exact hp0w.1.2
        constructor
        · rw [← hxv]
          exact walkOk_snoc g s u vw.1 p0 hp0w hedge
        · rw [walkW_snoc g vw.1 p0 u hlast, hwb]
          rw [hdist x, if_pos hxv]
          have hp0n : walkW g p0 = d := by
            rw [hdu] at hp0d
            exact_mod_cast hp0d
          rw [hp0n]
      · rw [hpaths x, if_neg hxv] at hp
        obtain ⟨hw, hd2⟩ := hJ1 x p hp
        refine ⟨hw, ?_⟩
        rw [hdist x, if_neg hxv]
        exact hd2
    · -- J2
      intro x hx
      by_cases hxv : vw.1 = x
      · rw [hpaths x, if_pos hxv]
        have : pathsOf c u ≠ [] := by
          apply hJ2 u
          rw [hdu]
          exact fun hc => absurd hc (by simp)
        simpa using this
      · rw [hpaths x, if_neg hxv]
        apply hJ2 x
        rw [hdist x, if_neg hxv] at hx
        exact hx
    · -- J3
      intro x hx
      by_cases hxv : vw.1 = x
      · exfalso
        rw [hdist x, if_pos hxv] at hx
        exact hnd_ne hx
      · rw [hdist x, if_neg hxv] at hx
        show alookup (aset c.paths vw.1 _) x = none
        rw [alookup_aset, if_neg hxv]
        exact hJ3 x hx
    · -- pinned distance of u
      rw [hdist u, if_neg hvu]
      exact hdu
    · -- pq superset
      intro e he
      exact List.mem_append.mpr (Or.inl he)
    · -- new distance below nd
      rw [hdist vw.1, if_pos rfl]
  · -- equal-distance branch
    rw [relaxOne_equal d u c vw (by rw [heq]; exact lt_irrefl _) heq]
    have hpaths : ∀ x,
        pathsOf { dist := c.dist,
                  paths := aset c.paths vw.1
                    (pathsOf c vw.1 ++ (pathsOf c u).map (fun p => p ++ [vw.1])),
                  pq := c.pq } x =
          if vw.1 = x then
            pathsOf c vw.1 ++ (pathsOf c u).map (fun p => p ++ [vw.1])
          else pathsOf c x :=
      fun x => getD_alookup_aset c.paths vw.1 _ x []
    have hvfin : distOf c vw.1 ≠ ⊤ := by
      rw [← heq]
      exact hnd_ne
    refine ⟨⟨hII, hS0a, ?_, hC, ?_, ?_, ?_, hdu⟩, fun x => le_refl _, fun e he => he, ?_⟩
    · -- S0b
      rw [hpaths s]
      by_cases hvs : vw.1 = s
      · rw [if_pos hvs]
        apply List.mem_append.mpr
        left
        rw [← hvs]
        rw [hvs] at hvfin ⊢
        exact hS0b
      · rw [if_neg hvs]
        exact hS0b
    · -- J1
      intro x p hp
      by_cases hxv : vw.1 = x
      · rw [hpaths x, if_pos hxv] at hp
        rcases List.mem_append.mp hp with hp | hp
        · rw [← hxv]
          exact hJ1 vw.1 p hp
        · rcases List.mem_map.mp hp with ⟨p0, hp0, rfl⟩
          obtain ⟨hp0w, hp0d⟩ := hJ1 u p0 hp0
          have hlast : p0.getLast? = some u := by
            rw [walkOk, Bool.and_eq_true, Bool.and_eq_true] at hp0w
            rw [← beq_iff_eq]
            exact hp0w.1.2
          constructor
          · rw [← hxv]
            exact walkOk_snoc g s u vw.1 p0 hp0w hedge
          · rw [walkW_snoc g vw.1 p0 u hlast, hwb]
            have hp0n : walkW g p0 = d := by
              rw [hdu] at hp0d
              exact_mod_cast hp0d
            rw [hp0n]
            show ((d + vw.2 : Nat) : ℕ∞) = distOf c x
            rw [← hxv]
            exact heq
      · rw [hpaths x, if_neg hxv] at hp
        exact hJ1 x p hp
    · -- J2
      intro x hx
      by_cases hxv : vw.1 = x
      · rw [hpaths x, if_pos hxv]
        have hnon := hJ2 vw.1 hvfin
        intro hc
        rw [List.append_eq_nil] at hc
        exact hnon hc.1
      · rw [hpaths x, if_neg hxv]
        exact hJ2 x hx
    · -- J3
      intro x hx
      by_cases hxv : vw.1 = x
      · exfalso
        rw [← hxv] at hx
        exact hvfin hx
      · show alookup (aset c.paths vw.1 _) x = none
        rw [alookup_aset, if_neg hxv]
        exact hJ3 x hx
    · -- distance stays at the tied value
      show distOf c vw.1 ≤ ((d + vw.2 : Nat) : ℕ∞)
      rw [← heq]
  · -- no-op branch
    rw [relaxOne_skip d u c vw (by rw [not_lt]; exact le_of_lt hgt)
      (fun hc => absurd hc (by rw [hc] at hgt; exact absurd hgt (lt_irrefl _)))]
    exact ⟨⟨hII, hS0a, hS0b, hC, hJ1, hJ2, hJ3, hdu⟩, fun x => le_refl _,
      fun e he => he, le_of_lt hgt⟩

theorem relaxFold_PInv (g : NXGraph) (hwf : g.WF) (s : String) (d : Nat)
    (u : String) (l : List (String × Nat)) (hl : ∀ vw ∈ l, vw ∈ nbrs g u) :
    ∀ c : DState, PInv g s d u c →
    PInv g s d u (l.foldl (relaxOne d u) c) ∧
    (∀ x, distOf (l.foldl (relaxOne d u) c) x ≤ distOf c x) ∧
    (∀ e ∈ c.pq, e ∈ (l.foldl (relaxOne d u) c).pq) ∧
    (∀ vw ∈ l, distOf (l.foldl (relaxOne d u) c) vw.1 ≤ ((d + vw.2 : Nat) : ℕ∞)) := by
  induction l with
  | nil =>
    intro c hP
    exact ⟨hP, fun x => le_refl _, fun e he => he, by simp⟩
  | cons hd tl ih =>
    intro c hP
    obtain ⟨hP2, hmono2, hpq2, hlow2⟩ :=
      relaxOne_PInv g hwf s d u c hd (hl hd (List.mem_cons_self _ _)) hP
    obtain ⟨hPf, hmonof, hpqf, hlowf⟩ :=
      ih (fun vw hvw => hl vw (List.mem_cons_of_mem _ hvw)) (relaxOne d u c hd) hP2
    rw [List.foldl_cons]
    refine ⟨hPf, ?_, ?_, ?_⟩
    · intro x
      exact le_trans (hmonof x) (hmono2 x)
    · intro e he
      exact hpqf e (hpq2 e he)
    · intro vw hvw
      rcases List.mem_cons.mp hvw with h1 | h1
      · subst h1
        exact le_trans (hmonof vw.1) hlow2
      · exact hlowf vw h1

theorem InvB_step (g : NXGraph) (hwf : g.WF) (s : String) {st st2 : DState}
    (hstep : DStep g st st2) (hinv : InvB g s st) : InvB g s st2 := by
  obtain ⟨hII, hS0a, hS0b, hC, hJ1, hJ2, hJ3⟩ := hinv
  cases hstep with
  | skip m hm hstale =>
    refine ⟨?_, hS0a, hS0b, ?_, hJ1, hJ2, hJ3⟩
    · intro e he
      exact hII e (removeFirst_subset he)
    · intro u hu
      rcases hC u hu with hcase | hcase
      · left
        obtain ⟨dx, hdx, hdxe⟩ := hcase
        refine ⟨dx, ?_, hdxe⟩
        apply mem_removeFirst_of_ne hdx
        intro hc
        subst hc
        have hst2 : ((dx : Nat) : ℕ∞) > distOf st u := hstale
        rw [← hdxe] at hst2
        exact absurd hst2 (lt_irrefl _)
      · right
        exact hcase
  | proc m hm hcur =>
    have hmmem := listMin_mem hm
    have hdm : distOf st m.2 = (m.1 : ℕ∞) := by
      apply le_antisymm (hII m hmmem)
      rw [not_lt] at hcur
      exact hcur
    have hbase : PInv g s m.1 m.2 { st with pq := removeFirst st.pq m } := by
      refine ⟨?_, hS0a, hS0b, ?_, hJ1, hJ2, hJ3, hdm⟩
      · intro e he
        exact hII e (removeFirst_subset he)
      · intro x hx
        rcases hC x hx with hcase | hcase
        · obtain ⟨dx, hdx, hdxe⟩ := hcase
          by_cases hcm : (dx, x) = m
          · right; right
            rw [← hcm]
          · left
            exact ⟨dx, mem_removeFirst_of_ne hdx hcm, hdxe⟩
        · right; left
          exact hcase
    rw [show relaxAll g m.1 m.2 { st with pq := removeFirst st.pq m } =
        (nbrs g m.2).foldl (relaxOne m.1 m.2) { st with pq := removeFirst st.pq m }
      from rfl]
    obtain ⟨hPf, hmonof, hpqf, hlowf⟩ :=
      relaxFold_PInv g hwf s m.1 m.2 (nbrs g m.2) (fun vw hvw => hvw)
        { st with pq := removeFirst st.pq m } hbase
    obtain ⟨hIIf, hS0af, hS0bf, hCf, hJ1f, hJ2f, hJ3f, hduf⟩ := hPf
    refine ⟨hIIf, hS0af, hS0bf, ?_, hJ1f, hJ2f, hJ3f⟩
    intro x hx
    rcases hCf x hx with hcase | hcase | hcase
    · left; exact hcase
    · right; exact hcase
    · right
      subst hcase
      intro vw hvw
      rw [hduf]
      refine le_trans (hlowf vw hvw) (le_of_eq ?_)
      push_cast
      rfl

theorem InvB_star (g : NXGraph) (hwf : g.WF) (s : String) {st st2 : DState}
    (h : Relation.ReflTransGen (DStep g) st st2) (hinv : InvB g s st) :
    InvB g s st2 := by
  induction h with
  | refl => exact hinv
  | tail hstar hstep ih => exact InvB_step g hwf s hstep ih

theorem alookup_map_top (l : List String) (x : String) :
    ((alookup (l.map (fun n => (n, (⊤ : ℕ∞)))) x).getD ⊤) = ⊤ := by
  induction l with
  | nil => rfl
  | cons hd tl ih =>
    by_cases h : hd = x
    · simp [alookup, h]
    · simp only [List.map_cons, alookup, if_neg h]
      exact ih

theorem dinit_dist (g : NXGraph) (s : String) (x : String) :
    distOf (dinit g s) x = if s = x then 0 else ⊤ := by
  unfold dinit distOf
  simp only
  rw [alookup_aset]
  by_cases h : s = x
  · simp [h]
  · rw [if_neg h, if_neg h]
    exact alookup_map_top g.nodes x

theorem dinit_paths (g : NXGraph) (s : String) (x : String) :
    alookup (dinit g s).paths x = if s = x then some [[s]] else none := by
  unfold dinit
  by_cases h : s = x <;> simp [alookup, h]

theorem InvB_init (g : NXGraph) (s : String) : InvB g s (dinit g s) := by
  have hd := dinit_dist g s
  have hp := dinit_paths g s
  have hps : ∀ x, pathsOf (dinit g s) x = if s = x then [[s]] else [] := by
    intro x
    unfold pathsOf
    rw [hp x]
    by_cases h : s = x <;> simp [h]
  refine ⟨?_, ?_, ?_, ?_, ?_, ?_, ?_⟩
  · intro e he
    simp only [dinit, List.mem_singleton] at he
    subst he
    show distOf (dinit g s) s ≤ ((0 : Nat) : ℕ∞)
    rw [hd s, if_pos rfl]
    simp
  · show alookup (aset (g.nodes.map (fun n => (n, (⊤ : ℕ∞)))) s 0) s = some 0
    rw [alookup_aset, if_pos rfl]
  · rw [hps s, if_pos rfl]
    exact List.mem_singleton.mpr rfl
  · intro u hu
    rw [hd u] at hu
    by_cases h : s = u
    · left
      refine ⟨0, ?_, ?_⟩
      · show (0, u) ∈ [(0, s)]
        rw [h]
        exact List.mem_singleton.mpr rfl
      · rw [hd u, if_pos h]
        simp
    · exact absurd (if_neg h) (fun hc => hu (by rw [hc]))
  · intro u p hpu
    rw [hps u] at hpu
    by_cases h : s = u
    · rw [if_pos h] at hpu
      rw [List.mem_singleton] at hpu
      subst hpu
      constructor
      · subst h
        simp [walkOk, chainAdj]
      · rw [hd u, if_pos h]
        simp [walkW]
    · rw [if_neg h] at hpu
      cases hpu
  · intro u hu
    rw [hd u] at hu
    by_cases h : s = u
    · rw [hps u, if_pos h]
      simp
    · exact absurd (if_neg h) (fun hc => hu (by rw [hc]))
  · intro u hu
    rw [hd u] at hu
    by_cases h : s = u
    · rw [if_pos h] at hu
      cases hu
    · rw [hp u, if_neg h]

/-- The invariants hold at the final state of the run, whose heap is empty. -/
theorem dijkstra_final_inv (g : NXGraph) (hwf : g.WF) (s : String) :
    InvB g s (dijkstra_multi_path g s) ∧ (dijkstra_multi_path g s).pq = [] := by
  obtain ⟨hstar, hpq⟩ := dloop_run g (dinit g s)
  exact ⟨InvB_star g hwf s hstar (InvB_init g s), hpq⟩

theorem walkOk_tail (g : NXGraph) (a b v : String) (rest : List String)
    (hw : walkOk g a v (a :: b :: rest) = true) :
    walkOk g b v (b :: rest) = true := by
  rw [walkOk, Bool.and_eq_true, Bool.and_eq_true] at hw
  obtain ⟨⟨_, hlast⟩, hchain⟩ := hw
  rw [chainAdj_cons_cons, Bool.and_eq_true] at hchain
  rw [walkOk, Bool.and_eq_true, Bool.and_eq_true]
  refine ⟨⟨by simp, ?_⟩, hchain.2⟩
  rw [beq_iff_eq] at hlast ⊢
  rw [← hlast, List.getLast?_cons_cons]

theorem walkOk_head_edge (g : NXGraph) (a b v : String) (rest : List String)
    (hw : walkOk g a v (a :: b :: rest) = true) :
    (edgeBetween g a b).isSome = true := by
  rw [walkOk, Bool.and_eq_true, Bool.and_eq_true] at hw
  obtain ⟨_, hchain⟩ := hw
  rw [chainAdj_cons_cons, Bool.and_eq_true] at hchain
  exact hchain.1

/-- Any walk bounds the recorded distance of its endpoint, once every finite
node is relaxed. -/
theorem dist_le_walk (g : NXGraph) (F : DState)
    (hrel : ∀ u, distOf F u ≠ ⊤ → relaxedAt g F u) :
    ∀ (p : List String) (a v : String), walkOk g a v p = true →
      distOf F v ≤ distOf F a + (walkW g p : ℕ∞) := by
  intro p
  induction p with
  | nil =>
    intro a v hw
    rw [walkOk] at hw
    simp at hw
  | cons x tl ih =>
    intro a v hw
    have hax : x = a := by
      rw [walkOk, Bool.and_eq_true, Bool.and_eq_true] at hw
      have := hw.1.1
      rw [List.head?_cons, beq_iff_eq] at this
      exact Option.some.inj this
    subst hax
    cases tl with
    | nil =>
      have hv : x = v := by
        rw [walkOk, Bool.and_eq_true, Bool.and_eq_true] at hw
        have := hw.1.2
        simp at this
        exact this
      subst hv
      rw [show walkW g [x] = 0 from rfl]
      simp
    | cons b rest =>
      have htail := walkOk_tail g x b v rest hw
      have hedge := walkOk_head_edge g x b v rest hw
      have hih := ih b v htail
      rcases Option.isSome_iff_exists.mp hedge with ⟨dd, hdd⟩
      have hwb : weightBetween g x b = dd.weight := by
        unfold weightBetween
        rw [hdd]
        rfl
      have hstep : distOf F b ≤ distOf F x + (dd.weight : ℕ∞) := by
        by_cases hfin : distOf F x = ⊤
        · rw [hfin]
          simp
        · exact hrel x hfin (b, dd.weight) (edge_mem_nbrs g hdd)
      calc distOf F v ≤ distOf F b + (walkW g (b :: rest) : ℕ∞) := hih
        _ ≤ (distOf F x + (dd.weight : ℕ∞)) + (walkW g (b :: rest) : ℕ∞) := by
            exact add_le_add_right hstep _
        _ = distOf F x + (walkW g (x :: b :: rest) : ℕ∞) := by
            rw [walkW_cons_cons, hwb]
            push_cast
            rw [add_assoc]

/-- Claim C1: dijkstra_multi_path pins the source at distance zero, every
recorded path is a walk from the source whose total edge weight equals the
recorded distance of its destination, and no walk from the source to any
destination has weight below the recorded distance (optimality). -/
theorem dijkstra_multi_path_correct (g : NXGraph) (hwf : g.WF) (s : String) :
    alookup (dijkstra_multi_path g s).dist s = some 0 ∧
    (∀ v p, p ∈ pathsOf (dijkstra_multi_path g s) v →
      walkOk g s v p = true ∧
      (walkW g p : ℕ∞) = distOf (dijkstra_multi_path g s) v) ∧
    (∀ v p, walkOk g s v p = true →
      distOf (dijkstra_multi_path g s) v ≤ (walkW g p : ℕ∞)) := by
  obtain ⟨⟨hII, hS0a, hS0b, hC, hJ1, hJ2, hJ3⟩, hpq⟩ := dijkstra_final_inv g hwf s
  have hrel : ∀ u, distOf (dijkstra_multi_path g s) u ≠ ⊤ →
      relaxedAt g (dijkstra_multi_path g s) u := by
    intro u hu
    rcases hC u hu with hlive | hrelax
    · exfalso
      obtain ⟨dx, hdx, _⟩ := hlive
      rw [hpq] at hdx
      cases hdx
    · exact hrelax
  refine ⟨hS0a, hJ1, ?_⟩
  intro v p hw
  have h0 : distOf (dijkstra_multi_path g s) s = 0 := by
    unfold distOf
    rw [hS0a]
    rfl
  have := dist_le_walk g (dijkstra_multi_path g s) hrel p s v hw
  rw [h0, zero_add] at this
  exact this

/-- A node unreachable from the source ends with infinite distance and no
entry in the paths dict. -/
theorem dijkstra_unreachable (g : NXGraph) (hwf : g.WF) (s v : String)
    (hunreach : ∀ p : List String, walkOk g s v p = false) :
    distOf (dijkstra_multi_path g s) v = ⊤ ∧
    alookup (dijkstra_multi_path g s).paths v = none := by
  obtain ⟨⟨hII, hS0a, hS0b, hC, hJ1, hJ2, hJ3⟩, hpq⟩ := dijkstra_final_inv g hwf s
  have htop : distOf (dijkstra_multi_path g s) v = ⊤ := by
    by_contra hfin
    have hne := hJ2 v hfin
    cases hps : pathsOf (dijkstra_multi_path g s) v with
    | nil => exact hne hps
    | cons p rest =>
      have hp : p ∈ pathsOf (dijkstra_multi_path g s) v := by
        rw [hps]
        exact List.mem_cons_self _ _
      have := (hJ1 v p hp).1
      rw [hunreach p] at this
      cases this
  exact ⟨htop, hJ3 v htop⟩

/-! ## Completeness of the returned path sets (strictly positive weights) -/

/-- All edge weights are at least one. -/
def posWeights (g : NXGraph) : Prop := ∀ e ∈ g.edges, 1 ≤ e.2.weight

theorem nbrs_weight_pos (g : NXGraph) (hwf : g.WF) (hpos : posWeights g)
    (u : String) {vw : String × Nat} (h : vw ∈ nbrs g u) : 1 ≤ vw.2 := by
  obtain ⟨dd, hdd, hddw⟩ := nbrs_weight g hwf u h
  have hmem := elookup_mem hdd
  have := hpos _ hmem
  rw [← hddw]
  exact this

theorem relaxOne_untouched (d : Nat) (u : String) (c : DState)
    (vw : String × Nat) (x : String) (hx : x ≠ vw.1) :
    distOf (relaxOne d u c vw) x = distOf c x ∧
    alookup (relaxOne d u c vw).paths x = alookup c.paths x ∧
    pathsOf (relaxOne d u c vw) x = pathsOf c x := by
  have hxv : ¬ vw.1 = x := fun hc => hx hc.symm
  rcases lt_trichotomy ((d + vw.2 : Nat) : ℕ∞) (distOf c vw.1) with hlt | heq | hgt
  · rw [relaxOne_strict d u c vw hlt]
    refine ⟨?_, ?_, ?_⟩
    · exact (distOfD_aset c.dist vw.1 _ x).trans (if_neg hxv)
    · show alookup (aset c.paths vw.1 _) x = _
      rw [alookup_aset, if_neg hxv]
    · exact (getD_alookup_aset c.paths vw.1 _ x []).trans (if_neg hxv)
  · rw [relaxOne_equal d u c vw (by rw [heq]; exact lt_irrefl _) heq]
    refine ⟨rfl, ?_, ?_⟩
    · show alookup (aset c.paths vw.1 _) x = _
      rw [alookup_aset, if_neg hxv]
    · exact (getD_alookup_aset c.paths vw.1 _ x []).trans (if_neg hxv)
  · rw [relaxOne_skip d u c vw (by rw [not_lt]; exact le_of_lt hgt)
      (fun hc => absurd hc (by rw [hc] at hgt; exact absurd hgt (lt_irrefl _)))]
    exact ⟨rfl, rfl, rfl⟩

theorem relaxOne_dist_le (d : Nat) (u : String) (c : DState)
    (vw : String × Nat) (x : String) :
    distOf (relaxOne d u c vw) x ≤ distOf c x := by
  rcases lt_trichotomy ((d + vw.2 : Nat) : ℕ∞) (distOf c vw.1) with hlt | heq | hgt
  · rw [relaxOne_strict d u c vw hlt]
    by_cases hx : vw.1 = x
    · exact le_of_eq_of_le ((distOfD_aset c.dist vw.1 _ x).trans (if_pos hx))
        (by rw [← hx]; exact le_of_lt hlt)
    · exact le_of_eq ((distOfD_aset c.dist vw.1 _ x).trans (if_neg hx))
  · rw [relaxOne_equal d u c vw (by rw [heq]; exact lt_irrefl _) heq]
    exact le_refl _
  · rw [relaxOne_skip d u c vw (by rw [not_lt]; exact le_of_lt hgt)
      (fun hc => absurd hc (by rw [hc] at hgt; exact absurd hgt (lt_irrefl _)))]

theorem relaxFold_dist_le (d : Nat) (u : String) (l : List (String × Nat)) :
    ∀ (c : DState) (x : String),
      distOf (l.foldl (relaxOne d u) c) x ≤ distOf c x := by
  induction l with
  | nil => intro c x; exact le_refl _
  | cons hd tl ih =>
    intro c x
    rw [List.foldl_cons]
    exact le_trans (ih (relaxOne d u c hd) x) (relaxOne_dist_le d u c hd x)

/-- A node whose distance is already at or below the popped value is
untouched by a relaxation of strictly positive weight. -/
theorem relaxOne_frozen (g : NXGraph) (hwf : g.WF) (hpos : posWeights g)
    (d : Nat) (u : String) (c : DState) (vw : String × Nat)
    (hvw : vw ∈ nbrs g u) (x : String) (hx : distOf c x ≤ (d : ℕ∞)) :
    distOf (relaxOne d u c vw) x = distOf c x ∧
    pathsOf (relaxOne d u c vw) x = pathsOf c x := by
  by_cases hxe : x = vw.1
  · subst hxe
    have hw1 := nbrs_weight_pos g hwf hpos u hvw
    have hdlt : (d : ℕ∞) < ((d + vw.2 : Nat) : ℕ∞) := by
      exact_mod_cast Nat.lt_add_of_pos_right hw1
    have hgt : distOf c vw.1 < ((d + vw.2 : Nat) : ℕ∞) := lt_of_le_of_lt hx hdlt
    rw [relaxOne_skip d u c vw (by rw [not_lt]; exact le_of_lt hgt)
      (fun hc => absurd hgt (by rw [hc]; exact lt_irrefl _))]
    exact ⟨rfl, rfl⟩
  · obtain ⟨h1, _, h3⟩ := relaxOne_untouched d u c vw x hxe
    exact ⟨h1, h3⟩

/-- Case-free description of the distances after one relaxation. -/
theorem relaxOne_dist_eq (d : Nat) (u : String) (c : DState) (vw : String × Nat)
    (x : String) :
    distOf (relaxOne d u c vw) x =
      if ((d + vw.2 : Nat) : ℕ∞) < distOf c vw.1 ∧ vw.1 = x
      then ((d + vw.2 : Nat) : ℕ∞) else distOf c x := by
  rcases lt_trichotomy ((d + vw.2 : Nat) : ℕ∞) (distOf c vw.1) with hlt | heq | hgt
  · rw [relaxOne_strict d u c vw hlt]
    by_cases hx : vw.1 = x
    · rw [if_pos ⟨hlt, hx⟩]
      exact (distOfD_aset c.dist vw.1 _ x).trans (if_pos hx)
    · rw [if_neg (fun hc => hx hc.2)]
      exact (distOfD_aset c.dist vw.1 _ x).trans (if_neg hx)
  · rw [relaxOne_equal d u c vw (by rw [heq]; exact lt_irrefl _) heq,
      if_neg (fun hc => absurd (heq ▸ hc.1) (lt_irrefl _))]
    rfl
  · rw [relaxOne_skip d u c vw (by rw [not_lt]; exact le_of_lt hgt)
      (fun hc => absurd hc (by rw [hc] at hgt; exact absurd hgt (lt_irrefl _))),
      if_neg (fun hc => absurd (lt_trans hc.1 hgt) (lt_irrefl _))]

/-- Case-free description of the path lists after one relaxation. -/
theorem relaxOne_paths_eq (d : Nat) (u : String) (c : DState) (vw : String × Nat)
    (x : String) :
    pathsOf (relaxOne d u c vw) x =
      if ((d + vw.2 : Nat) : ℕ∞) < distOf c vw.1 ∧ vw.1 = x
      then (pathsOf c u).map (fun p => p ++ [vw.1])
      else if ((d + vw.2 : Nat) : ℕ∞) = distOf c vw.1 ∧ vw.1 = x
      then pathsOf c vw.1 ++ (pathsOf c u).map (fun p => p ++ [vw.1])
      else pathsOf c x := by
  rcases lt_trichotomy ((d + vw.2 : Nat) : ℕ∞) (distOf c vw.1) with hlt | heq | hgt
  · rw [relaxOne_strict d u c vw hlt]
    by_cases hx : vw.1 = x
    · rw [if_pos ⟨hlt, hx⟩]
      exact (getD_alookup_aset c.paths vw.1 _ x []).trans (if_pos hx)
    · rw [if_neg (fun hc => hx hc.2), if_neg (fun hc => hx hc.2)]
      exact (getD_alookup_aset c.paths vw.1 _ x []).trans (if_neg hx)
  · rw [relaxOne_equal d u c vw (by rw [heq]; exact lt_irrefl _) heq,
      if_neg (fun hc => absurd (heq ▸ hc.1) (lt_irrefl _))]
    by_cases hx : vw.1 = x
    · rw [if_pos ⟨heq, hx⟩]
      exact (getD_alookup_aset c.paths vw.1 _ x []).trans (if_pos hx)
    · rw [if_neg (fun hc => hx hc.2)]
      exact (getD_alookup_aset c.paths vw.1 _ x []).trans (if_neg hx)
  · rw [relaxOne_skip d u c vw (by rw [not_lt]; exact le_of_lt hgt)
      (fun hc => absurd hc (by rw [hc] at hgt; exact absurd hgt (lt_irrefl _))),
      if_neg (fun hc => absurd (lt_trans hc.1 hgt) (lt_irrefl _)),
      if_neg (fun hc => absurd hc.1 (by rw [hc.1] at hgt; exact absurd hgt (lt_irrefl _)))]

/-- Case-free description of the heap after one relaxation. -/
theorem relaxOne_pq_eq (d : Nat) (u : String) (c : DState) (vw : String × Nat) :
    (relaxOne d u c vw).pq =
      if ((d + vw.2 : Nat) : ℕ∞) < distOf c vw.1
      then c.pq ++ [(d + vw.2, vw.1)] else c.pq := by
  rcases lt_trichotomy ((d + vw.2 : Nat) : ℕ∞) (distOf c vw.1) with hlt | heq | hgt
  · rw [relaxOne_strict d u c vw hlt, if_pos hlt]
  · rw [relaxOne_equal d u c vw (by rw [heq]; exact lt_irrefl _) heq,
      if_neg (fun hc => absurd (heq ▸ hc) (lt_irrefl _))]
  · rw [relaxOne_skip d u c vw (by rw [not_lt]; exact le_of_lt hgt)
      (fun hc => absurd hc (by rw [hc] at hgt; exact absurd hgt (lt_irrefl _))),
      if_neg (fun hc => absurd (lt_trans hc hgt) (lt_irrefl _))]

/-- A live heap entry stays live through any relaxation. -/
theorem relaxOne_live (d : Nat) (u : String) (c : DState) (vw : String × Nat)
    (x : String) (hl : liveAt c x) : liveAt (relaxOne d u c vw) x := by
  obtain ⟨dx, hdx, hdxe⟩ := hl
  by_cases hcase : ((d + vw.2 : Nat) : ℕ∞) < distOf c vw.1 ∧ vw.1 = x
  · refine ⟨d + vw.2, ?_, ?_⟩
    · rw [relaxOne_pq_eq, if_pos hcase.1]
      rw [hcase.2]
      exact List.mem_append.mpr (Or.inr (List.mem_singleton.mpr rfl))
    · rw [relaxOne_dist_eq, if_pos hcase]
  · refine ⟨dx, ?_, ?_⟩
    · rw [relaxOne_pq_eq]
      by_cases hlt : ((d + vw.2 : Nat) : ℕ∞) < distOf c vw.1
      · rw [if_pos hlt]
        exact List.mem_append.mpr (Or.inl hdx)
      · rw [if_neg hlt]
        exact hdx
    · rw [relaxOne_dist_eq, if_neg hcase]
      exact hdxe

/-- Live or undiscovered is preserved through a relaxation. -/
theorem relaxOne_live_or_top (d : Nat) (u : String) (c : DState)
    (vw : String × Nat) (x : String)
    (h : liveAt c x ∨ distOf c x = ⊤) :
    liveAt (relaxOne d u c vw) x ∨ distOf (relaxOne d u c vw) x = ⊤ := by
  rcases h with h | h
  · exact Or.inl (relaxOne_live d u c vw x h)
  · by_cases hcase : ((d + vw.2 : Nat) : ℕ∞) < distOf c vw.1 ∧ vw.1 = x
    · left
      refine ⟨d + vw.2, ?_, ?_⟩
      · rw [relaxOne_pq_eq, if_pos hcase.1]
        rw [hcase.2]
        exact List.mem_append.mpr (Or.inr (List.mem_singleton.mpr rfl))
      · rw [relaxOne_dist_eq, if_pos hcase]
    · right
      rw [relaxOne_dist_eq, if_neg hcase]
      exact h

theorem relaxFold_live_or_top (d : Nat) (u : String) (l : List (String × Nat)) :
    ∀ (c : DState) (x : String), (liveAt c x ∨ distOf c x = ⊤) →
      liveAt (l.foldl (relaxOne d u) c) x ∨
        distOf (l.foldl (relaxOne d u) c) x = ⊤ := by
  induction l with
  | nil => intro c x h; exact h
  | cons hd tl ih =>
    intro c x h
    rw [List.foldl_cons]
    exact ih (relaxOne d u c hd) x (relaxOne_live_or_top d u c hd x h)

/-- New heap entries pushed during a relaxation carry at least the popped
distance. -/
theorem relaxOne_pq_new (d : Nat) (u : String) (c : DState) (vw : String × Nat)
    (e : Nat × String) (he : e ∈ (relaxOne d u c vw).pq) :
    e ∈ c.pq ∨ d ≤ e.1 := by
  rw [relaxOne_pq_eq] at he
  by_cases hlt : ((d + vw.2 : Nat) : ℕ∞) < distOf c vw.1
  · rw [if_pos hlt] at he
    rcases List.mem_append.mp he with he | he
    · exact Or.inl he
    · rw [List.mem_singleton] at he
      subst he
      exact Or.inr (Nat.le_add_right d vw.2)
  · rw [if_neg hlt] at he
    exact Or.inl he

theorem relaxFold_pq_new (d : Nat) (u : String) (l : List (String × Nat)) :
    ∀ (c : DState) (e : Nat × String), e ∈ (l.foldl (relaxOne d u) c).pq →
      e ∈ c.pq ∨ d ≤ e.1 := by
  induction l with
  | nil => intro c e he; exact Or.inl he
  | cons hd tl ih =>
    intro c e he
    rw [List.foldl_cons] at he
    rcases ih (relaxOne d u c hd) e he with h | h
    · exact relaxOne_pq_new d u c hd e h
    · exact Or.inr h

/-- If a relaxation does not change the distance of a node, it can only grow
its path list. -/
theorem relaxOne_grow (d : Nat) (u : String) (c : DState) (vw : String × Nat)
    (x : String) (hx : distOf (relaxOne d u c vw) x = distOf c x) :
    ∀ q ∈ pathsOf c x, q ∈ pathsOf (relaxOne d u c vw) x := by
  intro q hq
  rw [relaxOne_paths_eq]
  by_cases h1 : ((d + vw.2 : Nat) : ℕ∞) < distOf c vw.1 ∧ vw.1 = x
  · exfalso
    rw [relaxOne_dist_eq, if_pos h1] at hx
    rw [← h1.2] at hx
    rw [hx] at h1
    exact absurd h1.1 (lt_irrefl _)
  · rw [if_neg h1]
    by_cases h2 : ((d + vw.2 : Nat) : ℕ∞) = distOf c vw.1 ∧ vw.1 = x
    · rw [if_pos h2, h2.2]
      exact List.mem_append.mpr (Or.inl hq)
    · rw [if_neg h2]
      exact hq

theorem relaxFold_grow (d : Nat) (u : String) (l : List (String × Nat)) :
    ∀ (c : DState) (x : String),
      distOf (l.foldl (relaxOne d u) c) x = distOf c x →
      ∀ q ∈ pathsOf c x, q ∈ pathsOf (l.foldl (relaxOne d u) c) x := by
  induction l with
  | nil => intro c x _ q hq; exact hq
  | cons hd tl ih =>
    intro c x hx q hq
    rw [List.foldl_cons] at hx ⊢
    have h1 : distOf (relaxOne d u c hd) x = distOf c x := by
      apply le_antisymm (relaxOne_dist_le d u c hd x)
      rw [← hx]
      exact relaxFold_dist_le d u tl (relaxOne d u c hd) x
    have h2 : distOf (tl.foldl (relaxOne d u) (relaxOne d u c hd)) x =
        distOf (relaxOne d u c hd) x := by
      rw [h1, hx]
    exact ih (relaxOne d u c hd) x h2 q (relaxOne_grow d u c hd x h1 q hq)

theorem relaxFold_frozen (g : NXGraph) (hwf : g.WF) (hpos : posWeights g)
    (d : Nat) (u : String) (l : List (String × Nat))
    (hl : ∀ vw ∈ l, vw ∈ nbrs g u) :
    ∀ (c : DState) (x : String), distOf c x ≤ (d : ℕ∞) →
      distOf (l.foldl (relaxOne d u) c) x = distOf c x ∧
      pathsOf (l.foldl (relaxOne d u) c) x = pathsOf c x := by
  induction l with
  | nil => intro c x _; exact ⟨rfl, rfl⟩
  | cons hd tl ih =>
    intro c x hx
    rw [List.foldl_cons]
    obtain ⟨h1, h2⟩ :=
      relaxOne_frozen g hwf hpos d u c hd (hl hd (List.mem_cons_self _ _)) x hx
    obtain ⟨h3, h4⟩ := ih (fun vw hvw => hl vw (List.mem_cons_of_mem _ hvw))
      (relaxOne d u c hd) x (by rw [h1]; exact hx)
    exact ⟨h3.trans h1, h4.trans h2⟩

theorem relaxFold_untouched (d : Nat) (u : String) (l : List (String × Nat)) :
    ∀ (c : DState) (x : String), (∀ vw ∈ l, x ≠ vw.1) →
      distOf (l.foldl (relaxOne d u) c) x = distOf c x ∧
      pathsOf (l.foldl (relaxOne d u) c) x = pathsOf c x := by
  induction l with
  | nil => intro c x _; exact ⟨rfl, rfl⟩
  | cons hd tl ih =>
    intro c x hx
    rw [List.foldl_cons]
    obtain ⟨h1, _, h2⟩ :=
      relaxOne_untouched d u c hd x (hx hd (List.mem_cons_self _ _))
    obtain ⟨h3, h4⟩ := ih (relaxOne d u c hd) x
      (fun vw hvw => hx vw (List.mem_cons_of_mem _ hvw))
    exact ⟨h3.trans h1, h4.trans h2⟩

/-- An edge that produces a neighbor entry for u is keyed by the sorted pair
of u and that neighbor. -/
theorem nbrs_key_eq {u : String} {vw : String × Nat}
    {e : (String × String) × EdgeData}
    (hkey : sortPair e.1.1 e.1.2 = e.1)
    (hf : (if e.1.1 = u then some (e.1.2, e.2.weight)
        else if e.1.2 = u then some (e.1.1, e.2.weight) else none) = some vw) :
    e.1 = sortPair u vw.1 := by
  by_cases h1 : e.1.1 = u
  · rw [if_pos h1] at hf
    have hv : e.1.2 = vw.1 := congrArg Prod.fst (Option.some.inj hf)
    rw [← h1, ← hv]
    exact hkey.symm
  · by_cases h2 : e.1.2 = u
    · rw [if_neg h1, if_pos h2] at hf
      have hv : e.1.1 = vw.1 := congrArg Prod.fst (Option.some.inj hf)
      rw [← h2, ← hv, sortPair_comm]
      exact hkey.symm
    · rw [if_neg h1, if_neg h2] at hf
      cases hf

theorem nbrsAux_fst_nodup (u : String) :
    ∀ (l : List ((String × String) × EdgeData)),
      (l.map Prod.fst).Nodup → (∀ e ∈ l, sortPair e.1.1 e.1.2 = e.1) →
      ((l.filterMap (fun e =>
        if e.1.1 = u then some (e.1.2, e.2.weight)
        else if e.1.2 = u then some (e.1.1, e.2.weight)
        else none)).map Prod.fst).Nodup := by
  intro l
  induction l with
  | nil => intro _ _; simp
  | cons e tl ih =>
    intro hnd hkeys
    rw [List.map_cons, List.nodup_cons] at hnd
    have ihtl := ih hnd.2 (fun e2 he2 => hkeys e2 (List.mem_cons_of_mem _ he2))
    cases hfe : (if e.1.1 = u then some (e.1.2, e.2.weight)
        else if e.1.2 = u then some (e.1.1, e.2.weight) else none) with
    | none =>
      simp only [List.filterMap_cons, hfe]
      exact ihtl
    | some vw =>
      simp only [List.filterMap_cons, hfe, List.map_cons, List.nodup_cons]
      refine ⟨?_, ihtl⟩
      intro hmem
      rcases List.mem_map.mp hmem with ⟨vw2, hvw2, hfst⟩
      rcases List.mem_filterMap.mp hvw2 with ⟨e2, he2, hfe2⟩
      have hk1 : e.1 = sortPair u vw.1 :=
        nbrs_key_eq (hkeys e (List.mem_cons_self _ _)) hfe
      have hk2 : e2.1 = sortPair u vw2.1 :=
        nbrs_key_eq (hkeys e2 (List.mem_cons_of_mem _ he2)) hfe2
      apply hnd.1
      rw [hk1, ← hfst, ← hk2]
      exact List.mem_map_of_mem _ he2

/-- In a well-formed graph each node appears at most once among the neighbor
entries of any node. -/
theorem nbrs_fst_nodup (g : NXGraph) (hwf : g.WF) (u : String) :
    ((nbrs g u).map Prod.fst).Nodup :=
  nbrsAux_fst_nodup u g.edges hwf.1 hwf.2

theorem chainAdj_unsnoc (g : NXGraph) (v : String) (q : List String) :
    ∀ u : String, q.getLast? = some u → chainAdj g (q ++ [v]) = true →
      chainAdj g q = true ∧ (edgeBetween g u v).isSome = true := by
  induction q with
  | nil => intro u hl _; cases hl
  | cons a tl ih =>
    intro u hl hc
    cases tl with
    | nil =>
      simp at hl
      subst hl
      rw [List.cons_append, List.nil_append, chainAdj_cons_cons,
        Bool.and_eq_true] at hc
      exact ⟨rfl, hc.1⟩
    | cons b rest =>
      rw [List.getLast?_cons_cons] at hl
      rw [List.cons_append, List.cons_append, chainAdj_cons_cons,
        Bool.and_eq_true] at hc
      have hrec := ih u hl (by rw [List.cons_append]; exact hc.2)
      rw [chainAdj_cons_cons, Bool.and_eq_true]
      exact ⟨⟨hc.1, hrec.1⟩, hrec.2⟩

/-- Splitting the last vertex off a walk leaves a walk to the second-to-last
vertex plus a closing edge. -/
theorem walkOk_unsnoc (g : NXGraph) (s v u : String) (q : List String)
    (hql : q.getLast? = some u) (hw : walkOk g s v (q ++ [v]) = true) :
    walkOk g s u q = true ∧ (edgeBetween g u v).isSome = true := by
  rw [walkOk, Bool.and_eq_true, Bool.and_eq_true] at hw
  obtain ⟨⟨hh, _⟩, hchain⟩ := hw
  rw [beq_iff_eq] at hh
  have hqne : q ≠ [] := by
    intro hc
    rw [hc] at hql
    cases hql
  rw [List.head?_append_of_ne_nil _ hqne] at hh
  obtain ⟨hc1, hc2⟩ := chainAdj_unsnoc g v q u hql hchain
  refine ⟨?_, hc2⟩
  rw [walkOk, Bool.and_eq_true, Bool.and_eq_true]
  exact ⟨⟨beq_iff_eq.mpr hh, beq_iff_eq.mpr hql⟩, hc1⟩

/-- A heap entry never goes below the popped minimum key. -/
theorem pairLtB_false_key {e m : Nat × String} (h : pairLtB e m = false) :
    m.1 ≤ e.1 := by
  rw [pairLtB, Bool.or_eq_false_iff] at h
  have := h.1
  rw [decide_eq_false_iff_not] at this
  omega

theorem relaxOne_pq_mono (d : Nat) (u : String) (c : DState)
    (vw : String × Nat) (e : Nat × String) (he : e ∈ c.pq) :
    e ∈ (relaxOne d u c vw).pq := by
  rw [relaxOne_pq_eq]
  by_cases hlt : ((d + vw.2 : Nat) : ℕ∞) < distOf c vw.1
  · rw [if_pos hlt]
    exact List.mem_append.mpr (Or.inl he)
  · rw [if_neg hlt]
    exact he

theorem relaxFold_pq_mono (d : Nat) (u : String) (l : List (String × Nat)) :
    ∀ (c : DState) (e : Nat × String), e ∈ c.pq →
      e ∈ (l.foldl (relaxOne d u) c).pq := by
  induction l with
  | nil => intro c e he; exact he
  | cons hd tl ih =>
    intro c e he
    rw [List.foldl_cons]
    exact ih (relaxOne d u c hd) e (relaxOne_pq_mono d u c hd e he)

/-- A node whose distance strictly improves during a relaxation fold over
distinct neighbors ends the fold with a live heap entry. -/
theorem relaxFold_strict_live (d : Nat) (u : String) (l : List (String × Nat)) :
    (l.map Prod.fst).Nodup →
    ∀ (c : DState) (x : String),
      distOf (l.foldl (relaxOne d u) c) x < distOf c x →
      liveAt (l.foldl (relaxOne d u) c) x := by
  induction l with
  | nil =>
    intro _ c x h
    exact absurd h (lt_irrefl _)
  | cons hd tl ih =>
    intro hnd c x h
    rw [List.map_cons, List.nodup_cons] at hnd
    rw [List.foldl_cons] at h ⊢
    by_cases hx : hd.1 = x
    · have huntl : ∀ vw ∈ tl, x ≠ vw.1 := by
        intro vw hvw hc
        apply hnd.1
        rw [hx, hc]
        exact List.mem_map_of_mem _ hvw
      obtain ⟨hde, hpe⟩ := relaxFold_untouched d u tl (relaxOne d u c hd) x huntl
      have h1 : distOf (relaxOne d u c hd) x < distOf c x := by
        rw [← hde]
        exact h
      have hcond : ((d + hd.2 : Nat) : ℕ∞) < distOf c hd.1 ∧ hd.1 = x := by
        constructor
        · by_contra hc
          have := relaxOne_dist_eq d u c hd x
          rw [if_neg (fun hcc => hc hcc.1)] at this
          rw [this] at h1
          exact absurd h1 (lt_irrefl _)
        · exact hx
      refine ⟨d + hd.2, ?_, ?_⟩
      · apply relaxFold_pq_mono
        rw [relaxOne_pq_eq, if_pos hcond.1, hx]
        exact List.mem_append.mpr (Or.inr (List.mem_singleton.mpr rfl))
      · rw [hde, relaxOne_dist_eq, if_pos hcond]
    · have hxv : x ≠ hd.1 := fun hc => hx hc.symm
      obtain ⟨hde, _, _⟩ := relaxOne_untouched d u c hd x hxv
      apply ih hnd.2
      rw [hde]
      exact h

/-- The node's minimal-path extensions have all been pushed into its
neighbors' path sets. -/
def propAt (g : NXGraph) (st : DState) (x : String) : Prop :=
  ∀ vw ∈ nbrs g x, distOf st vw.1 = distOf st x + (vw.2 : ℕ∞) →
    ∀ q ∈ pathsOf st x, q ++ [vw.1] ∈ pathsOf st vw.1

/-- During the relaxation fold of a popped node, every neighbor whose final
distance equals the popped distance plus the edge weight receives every
extension of the popped node's paths. -/
theorem relaxFold_prop (g : NXGraph) (hwf : g.WF) (hpos : posWeights g)
    (d : Nat) (u : String) (l : List (String × Nat)) :
    (l.map Prod.fst).Nodup → (∀ vw ∈ l, vw ∈ nbrs g u) →
    ∀ c : DState, distOf c u ≤ (d : ℕ∞) →
      ∀ vw ∈ l, distOf (l.foldl (relaxOne d u) c) vw.1 = ((d + vw.2 : Nat) : ℕ∞) →
        ∀ q ∈ pathsOf c u, q ++ [vw.1] ∈ pathsOf (l.foldl (relaxOne d u) c) vw.1 := by
  induction l with
  | nil =>
    intro _ _ c _ vw hvw
    cases hvw
  | cons hd tl ih =>
    intro hnd hl c hcu vw hvw hdist q hq
    rw [List.map_cons, List.nodup_cons] at hnd
    rw [List.foldl_cons] at hdist ⊢
    rcases List.mem_cons.mp hvw with hv | hv
    · subst hv
      have huntl : ∀ vw2 ∈ tl, vw.1 ≠ vw2.1 := by
        intro vw2 hvw2 hc
        apply hnd.1
        rw [hc]
        exact List.mem_map_of_mem _ hvw2
      obtain ⟨hde, hpe⟩ := relaxFold_untouched d u tl (relaxOne d u c vw) vw.1 huntl
      rw [hde] at hdist
      rw [hpe]
      rcases lt_trichotomy ((d + vw.2 : Nat) : ℕ∞) (distOf c vw.1) with hlt | heq | hgt
      · rw [relaxOne_paths_eq, if_pos ⟨hlt, rfl⟩]
        exact List.mem_map_of_mem _ hq
      · rw [relaxOne_paths_eq, if_neg (fun hc => absurd (heq ▸ hc.1) (lt_irrefl _)),
          if_pos ⟨heq, rfl⟩]
        exact List.mem_append.mpr (Or.inr (List.mem_map_of_mem _ hq))
      · exfalso
        rw [relaxOne_dist_eq,
          if_neg (fun hc => absurd (lt_trans hc.1 hgt) (lt_irrefl _))] at hdist
        rw [hdist] at hgt
        exact absurd hgt (lt_irrefl _)
    · have hcu2 : distOf (relaxOne d u c hd) u ≤ (d : ℕ∞) :=
        le_trans (relaxOne_dist_le d u c hd u) hcu
      have hq2 : q ∈ pathsOf (relaxOne d u c hd) u := by
        obtain ⟨_, hpe⟩ :=
          relaxOne_frozen g hwf hpos d u c hd (hl hd (List.mem_cons_self _ _)) u hcu
        rw [hpe]
        exact hq
      exact ih hnd.2 (fun vw2 h2 => hl vw2 (List.mem_cons_of_mem _ h2))
        (relaxOne d u c hd) hcu2 vw hv hdist q hq2

/-- Completeness invariant: every settled node (finite distance, no live heap
entry) sits at or below every heap key, and every finite node is live or has
already propagated its minimal-path extensions. -/
def InvC (g : NXGraph) (st : DState) : Prop :=
  (∀ x, distOf st x ≠ ⊤ → ¬ liveAt st x → ∀ e ∈ st.pq, distOf st x ≤ (e.1 : ℕ∞)) ∧
  (∀ x, distOf st x ≠ ⊤ → liveAt st x ∨ propAt g st x)

theorem InvC_init (g : NXGraph) (s : String) : InvC g (dinit g s) := by
  have hlv : ∀ x, s = x → liveAt (dinit g s) x := by
    intro x hx
    refine ⟨0, ?_, ?_⟩
    · rw [show (dinit g s).pq = [(0, s)] from rfl, hx]
      exact List.mem_singleton.mpr rfl
    · rw [dinit_dist, if_pos hx]
      simp
  constructor
  · intro x hxt hnl e he
    exfalso
    by_cases hx : s = x
    · exact hnl (hlv x hx)
    · apply hxt
      rw [dinit_dist, if_neg hx]
  · intro x hxt
    by_cases hx : s = x
    · exact Or.inl (hlv x hx)
    · exfalso
      apply hxt
      rw [dinit_dist, if_neg hx]

theorem InvC_step (g : NXGraph) (hwf : g.WF) (hpos : posWeights g) (s : String)
    {st st2 : DState} (hstep : DStep g st st2) (hB : InvB g s st)
    (hC : InvC g st) : InvC g st2 := by
  obtain ⟨hII, hS0a, hS0b, hCb, hJ1, hJ2, hJ3⟩ := hB
  obtain ⟨hE, hP⟩ := hC
  cases hstep with
  | skip m hm hstale =>
    have hlive : ∀ x, liveAt st x →
        liveAt { st with pq := removeFirst st.pq m } x := by
      intro x hl
      obtain ⟨dx, hdx, hdxe⟩ := hl
      refine ⟨dx, ?_, hdxe⟩
      apply mem_removeFirst_of_ne hdx
      intro hc
      rw [← hc] at hstale
      have hstale2 : (dx : ℕ∞) > distOf st x := hstale
      rw [hdxe] at hstale2
      exact absurd hstale2 (lt_irrefl _)
    constructor
    · intro x hxt hnl e he
      have hnl0 : ¬ liveAt st x := fun hl => hnl (hlive x hl)
      exact hE x hxt hnl0 e (removeFirst_subset he)
    · intro x hxt
      rcases hP x hxt with hl | hp
      · exact Or.inl (hlive x hl)
      · exact Or.inr hp
  | proc m hm hcur =>
    have hmmem := listMin_mem hm
    have hdm : distOf st m.2 = (m.1 : ℕ∞) := by
      apply le_antisymm (hII m hmmem)
      rw [not_lt] at hcur
      exact hcur
    have hmin : ∀ e ∈ st.pq, m.1 ≤ e.1 :=
      fun e he => pairLtB_false_key ((listMin_spec hm).2 e he)
    have hndn := nbrs_fst_nodup g hwf m.2
    have hnsub : ∀ vw ∈ nbrs g m.2, vw ∈ nbrs g m.2 := fun vw h => h
    rw [show relaxAll g m.1 m.2 { st with pq := removeFirst st.pq m } =
        (nbrs g m.2).foldl (relaxOne m.1 m.2) { st with pq := removeFirst st.pq m }
      from rfl]
    have hmono := relaxFold_dist_le m.1 m.2 (nbrs g m.2)
      { st with pq := removeFirst st.pq m }
    have hfrz := relaxFold_frozen g hwf hpos m.1 m.2 (nbrs g m.2) hnsub
      { st with pq := removeFirst st.pq m }
    have hkey : ∀ x, distOf ((nbrs g m.2).foldl (relaxOne m.1 m.2)
          { st with pq := removeFirst st.pq m }) x ≠ ⊤ →
        ¬ liveAt ((nbrs g m.2).foldl (relaxOne m.1 m.2)
          { st with pq := removeFirst st.pq m }) x →
        distOf st x ≤ (m.1 : ℕ∞) := by
      intro x hxt hnl
      by_contra hgtc
      rw [not_le] at hgtc
      rcases lt_or_eq_of_le (hmono x) with hlt | heqd
      · exact hnl (relaxFold_strict_live m.1 m.2 (nbrs g m.2) hndn _ x hlt)
      · have hxst : distOf st x ≠ ⊤ := by
          intro hc
          apply hxt
          exact heqd.trans hc
        have hlvst : liveAt st x := by
          by_contra hnlv
          have hle := hE x hxst hnlv m hmmem
          exact absurd hgtc (not_lt.mpr hle)
        obtain ⟨dx, hdx, hdxe⟩ := hlvst
        have hne : (dx, x) ≠ m := by
          intro hc
          have h1 : dx = m.1 := congrArg Prod.fst hc
          rw [h1] at hdxe
          rw [← hdxe] at hgtc
          exact absurd hgtc (lt_irrefl _)
        apply hnl
        refine ⟨dx, ?_, ?_⟩
        · exact relaxFold_pq_mono m.1 m.2 (nbrs g m.2) _ (dx, x)
            (mem_removeFirst_of_ne hdx hne)
        · rw [heqd]
          exact hdxe
    constructor
    · intro x hxt hnl e he
      have hxled := hkey x hxt hnl
      obtain ⟨hde, _⟩ := hfrz x hxled
      rw [hde]
      rcases relaxFold_pq_new m.1 m.2 (nbrs g m.2) _ e he with hold | hnew
      · exact le_trans hxled
          (by exact_mod_cast hmin e (removeFirst_subset hold))
      · exact le_trans hxled (by exact_mod_cast hnew)
    · intro x hxt
      by_cases hlv : liveAt ((nbrs g m.2).foldl (relaxOne m.1 m.2)
          { st with pq := removeFirst st.pq m }) x
      · exact Or.inl hlv
      right
      have hxled := hkey x hxt hlv
      obtain ⟨hde, hpe⟩ := hfrz x hxled
      by_cases hxu : x = m.2
      · subst hxu
        intro vw hvw heqd q hq
        have hdFx : distOf ((nbrs g m.2).foldl (relaxOne m.1 m.2)
            { st with pq := removeFirst st.pq m }) m.2 = (m.1 : ℕ∞) := by
          rw [hde]
          exact hdm
        rw [hdFx] at heqd
        have heqd2 : distOf ((nbrs g m.2).foldl (relaxOne m.1 m.2)
            { st with pq := removeFirst st.pq m }) vw.1 =
            ((m.1 + vw.2 : Nat) : ℕ∞) := by
          rw [heqd]
          push_cast
          rfl
        have hq0 : q ∈ pathsOf { st with pq := removeFirst st.pq m } m.2 :=
          hpe ▸ hq
        exact relaxFold_prop g hwf hpos m.1 m.2 (nbrs g m.2) hndn hnsub
          { st with pq := removeFirst st.pq m } (le_of_eq hdm) vw hvw heqd2 q hq0
      · have hxst : distOf st x ≠ ⊤ := by
          intro hc
          apply hxt
          exact hde.trans hc
        have hnlv : ¬ liveAt st x := by
          intro hlvst
          apply hlv
          obtain ⟨dx, hdx, hdxe⟩ := hlvst
          have hne : (dx, x) ≠ m := by
            intro hc
            exact hxu (congrArg Prod.snd hc)
          refine ⟨dx, ?_, ?_⟩
          · exact relaxFold_pq_mono m.1 m.2 (nbrs g m.2) _ (dx, x)
              (mem_removeFirst_of_ne hdx hne)
          · rw [hde]
            exact hdxe
        have hprop : propAt g st x := by
          rcases hP x hxst with h | h
          · exact absurd h hnlv
          · exact h
        have hrelx : relaxedAt g st x := by
          rcases hCb x hxst with h | h
          · exact absurd h hnlv
          · exact h
        intro vw hvw heqd q hq
        have hq0 : q ∈ pathsOf st x := hpe ▸ hq
        have heqd0 : distOf ((nbrs g m.2).foldl (relaxOne m.1 m.2)
            { st with pq := removeFirst st.pq m }) vw.1 =
            distOf st x + (vw.2 : ℕ∞) := by
          rw [heqd, hde]
          rfl
        rcases lt_or_eq_of_le (hmono vw.1) with hlt | heqv
        · exfalso
          have h1 : distOf st vw.1 ≤ distOf st x + (vw.2 : ℕ∞) := hrelx vw hvw
          rw [← heqd0] at h1
          exact absurd (lt_of_le_of_lt h1 hlt) (lt_irrefl _)
        · have hcond : distOf st vw.1 = distOf st x + (vw.2 : ℕ∞) := by
            rw [← heqd0, heqv]
            rfl
          have hmem := hprop vw hvw hcond q hq0
          exact relaxFold_grow m.1 m.2 (nbrs g m.2) _ vw.1 heqv (q ++ [vw.1]) hmem

theorem InvBC_star (g : NXGraph) (hwf : g.WF) (hpos : posWeights g) (s : String)
    {st st2 : DState} (h : Relation.ReflTransGen (DStep g) st st2)
    (hB : InvB g s st) (hC : InvC g st) : InvB g s st2 ∧ InvC g st2 := by
  induction h with
  | refl => exact ⟨hB, hC⟩
  | tail hstar hstep ih =>
    exact ⟨InvB_step g hwf s hstep ih.1, InvC_step g hwf hpos s hstep ih.1 ih.2⟩

/-- At the end of the run every finite node has propagated its minimal-path
extensions. -/
theorem dijkstra_final_prop (g : NXGraph) (hwf : g.WF) (hpos : posWeights g)
    (s : String) :
    ∀ x, distOf (dijkstra_multi_path g s) x ≠ ⊤ →
      propAt g (dijkstra_multi_path g s) x := by
  obtain ⟨hrun, hpq⟩ := dloop_run g (dinit g s)
  have hBC := InvBC_star g hwf hpos s hrun (InvB_init g s) (InvC_init g s)
  intro x hxt
  rcases hBC.2.2 x hxt with hl | hp
  · exfalso
    obtain ⟨dx, hdx, _⟩ := hl
    rw [hpq] at hdx
    exact absurd hdx (List.not_mem_nil _)
  · exact hp

/-- With strictly positive edge weights every walk whose weight equals the
recorded distance of its endpoint appears in the returned path set. -/
theorem dijkstra_complete (g : NXGraph) (hwf : g.WF) (hpos : posWeights g)
    (s : String) (p : List String) :
    ∀ v : String, walkOk g s v p = true →
      (walkW g p : ℕ∞) = distOf (dijkstra_multi_path g s) v →
      p ∈ pathsOf (dijkstra_multi_path g s) v := by
  obtain ⟨hB, hpq⟩ := dijkstra_final_inv g hwf s
  obtain ⟨hII, hS0a, hS0b, hCb, hJ1, hJ2, hJ3⟩ := hB
  have hrel : ∀ u, distOf (dijkstra_multi_path g s) u ≠ ⊤ →
      relaxedAt g (dijkstra_multi_path g s) u := by
    intro u hu
    rcases hCb u hu with hl | h
    · exfalso
      obtain ⟨dx, hdx, _⟩ := hl
      rw [hpq] at hdx
      exact absurd hdx (List.not_mem_nil _)
    · exact h
  have hprop := dijkstra_final_prop g hwf hpos s
  have hs0 : distOf (dijkstra_multi_path g s) s = 0 := by
    unfold distOf
    rw [hS0a]
    rfl
  induction p using List.reverseRecOn with
  | nil =>
    intro v hw
    rw [walkOk] at hw
    simp at hw
  | append_singleton q x ih =>
    intro v hw hdist
    have hvx : x = v := by
      rw [walkOk, Bool.and_eq_true, Bool.and_eq_true] at hw
      have h1 := hw.1.2
      rw [List.getLast?_concat, beq_iff_eq] at h1
      exact Option.some.inj h1
    subst hvx
    cases hq : q.getLast? with
    | none =>
      rw [List.getLast?_eq_none_iff] at hq
      subst hq
      rw [List.nil_append] at hw hdist ⊢
      have hxs : x = s := by
        rw [walkOk, Bool.and_eq_true, Bool.and_eq_true] at hw
        have h1 := hw.1.1
        rw [List.head?_cons, beq_iff_eq] at h1
        exact Option.some.inj h1
      subst hxs
      exact hS0b
    | some u =>
      obtain ⟨hwq, hedge⟩ := walkOk_unsnoc g s x u q hq hw
      obtain ⟨dd, hdd⟩ := Option.isSome_iff_exists.mp hedge
      have hwb : weightBetween g u x = dd.weight := by
        unfold weightBetween
        rw [hdd]
        rfl
      have hnb : (x, dd.weight) ∈ nbrs g u := edge_mem_nbrs g hdd
      have hWsnoc : walkW g (q ++ [x]) = walkW g q + dd.weight := by
        rw [walkW_snoc g x q u hq, hwb]
      have hdu_le : distOf (dijkstra_multi_path g s) u ≤ ((walkW g q : Nat) : ℕ∞) := by
        have h1 := dist_le_walk g (dijkstra_multi_path g s) hrel q s u hwq
        rw [hs0] at h1
        simpa using h1
      have hdx : distOf (dijkstra_multi_path g s) x =
          ((walkW g q + dd.weight : Nat) : ℕ∞) := by
        rw [← hdist, hWsnoc]
      have hfin : distOf (dijkstra_multi_path g s) u ≠ ⊤ := by
        intro hc
        rw [hc] at hdu_le
        exact absurd (lt_of_le_of_lt hdu_le (ENat.coe_lt_top _)) (lt_irrefl _)
      have hrelu := hrel u hfin (x, dd.weight) hnb
      lift distOf (dijkstra_multi_path g s) u to ℕ using hfin with du hdu
      have hle1 : du ≤ walkW g q := by exact_mod_cast hdu_le
      have hle2 : walkW g q + dd.weight ≤ du + dd.weight := by
        have h2 : ((walkW g q + dd.weight : Nat) : ℕ∞) ≤
            ((du + dd.weight : Nat) : ℕ∞) := by
          calc ((walkW g q + dd.weight : Nat) : ℕ∞)
              = distOf (dijkstra_multi_path g s) x := hdx.symm
            _ ≤ (du : ℕ∞) + (dd.weight : ℕ∞) := hrelu
            _ = ((du + dd.weight : Nat) : ℕ∞) := by push_cast; rfl
        exact_mod_cast h2
      have hqw : walkW g q = du := by omega
      have hqmem : q ∈ pathsOf (dijkstra_multi_path g s) u := by
        apply ih u hwq
        rw [hqw]
        exact hdu
      have hufin : distOf (dijkstra_multi_path g s) u ≠ ⊤ := by
        rw [← hdu]
        exact ENat.coe_ne_top du
      have hcond : distOf (dijkstra_multi_path g s) x =
          distOf (dijkstra_multi_path g s) u + (dd.weight : ℕ∞) := by
        rw [hdx, ← hdu, ← hqw]
        push_cast
        rfl
      exact hprop u hufin (x, dd.weight) hnb hcond q hqmem

/-! ## Well-formedness of built topologies -/

theorem sortPair_idem (u v : String) :
    sortPair (sortPair u v).1 (sortPair u v).2 = sortPair u v := by
  rcases sortPair_cases u v with h | h
  · rw [h]
    exact h
  · rw [h]
    exact (sortPair_comm v u).trans h

theorem mem_keys_eset (l : List ((String × String) × EdgeData))
    (k : String × String) (d : EdgeData) (x : String × String)
    (hx : x ∈ (eset l k d).map Prod.fst) : x ∈ l.map Prod.fst ∨ x = k := by
  induction l with
  | nil =>
    rw [eset] at hx
    simp at hx
    exact Or.inr hx
  | cons hd tl ih =>
    rw [eset] at hx
    by_cases hc : hd.1 = k
    · rw [show hd = (hd.1, hd.2) from rfl, if_pos hc] at hx
      simp only [List.map_cons] at hx ⊢
      rcases List.mem_cons.mp hx with h | h
      · subst h
        exact Or.inl (List.mem_cons_self _ _)
      · exact Or.inl (List.mem_cons_of_mem _ h)
    · rw [show hd = (hd.1, hd.2) from rfl, if_neg hc] at hx
      simp only [List.map_cons] at hx ⊢
      rcases List.mem_cons.mp hx with h | h
      · exact Or.inl (List.mem_cons.mpr (Or.inl h))
      · rcases ih h with h2 | h2
        · exact Or.inl (List.mem_cons_of_mem _ h2)
        · exact Or.inr h2

theorem eset_keys_nodup (l : List ((String × String) × EdgeData))
    (k : String × String) (d : EdgeData) (hnd : (l.map Prod.fst).Nodup) :
    ((eset l k d).map Prod.fst).Nodup := by
  induction l with
  | nil =>
    rw [eset]
    simp
  | cons hd tl ih =>
    rw [List.map_cons, List.nodup_cons] at hnd
    rw [eset]
    by_cases hc : hd.1 = k
    · rw [show hd = (hd.1, hd.2) from rfl, if_pos hc]
      rw [List.map_cons, List.nodup_cons]
      exact ⟨hnd.1, hnd.2⟩
    · rw [show hd = (hd.1, hd.2) from rfl, if_neg hc]
      rw [List.map_cons, List.nodup_cons]
      refine ⟨?_, ih hnd.2⟩
      intro hmem
      rcases mem_keys_eset tl k d hd.1 hmem with h | h
      · exact hnd.1 h
      · exact hc h

theorem eset_keys_sorted (l : List ((String × String) × EdgeData))
    (k : String × String) (d : EdgeData)
    (hs : ∀ e ∈ l, sortPair e.1.1 e.1.2 = e.1)
    (hk : sortPair k.1 k.2 = k) :
    ∀ e ∈ eset l k d, sortPair e.1.1 e.1.2 = e.1 := by
  induction l with
  | nil =>
    intro e he
    rw [eset] at he
    rw [List.mem_singleton] at he
    subst he
    exact hk
  | cons hd tl ih =>
    intro e he
    rw [eset] at he
    by_cases hc : hd.1 = k
    · rw [show hd = (hd.1, hd.2) from rfl, if_pos hc] at he
      rcases List.mem_cons.mp he with h | h
      · subst h
        exact hs hd (List.mem_cons_self _ _)
      · exact hs e (List.mem_cons_of_mem _ h)
    · rw [show hd = (hd.1, hd.2) from rfl, if_neg hc] at he
      rcases List.mem_cons.mp he with h | h
      · subst h
        exact hs hd (List.mem_cons_self _ _)
      · exact ih (fun e2 h2 => hs e2 (List.mem_cons_of_mem _ h2)) e h

theorem addNode_edges (g : NXGraph) (n : String) : (addNode g n).edges = g.edges := by
  unfold addNode
  by_cases h : n ∈ g.nodes
  · rw [if_pos h]
  · rw [if_neg h]

theorem addEdge_WF (g : NXGraph) (u v : String) (d : EdgeData) (hwf : g.WF) :
    (addEdge g u v d).WF := by
  constructor
  · show ((eset (addNode (addNode g u) v).edges (sortPair u v) d).map Prod.fst).Nodup
    rw [addNode_edges, addNode_edges]
    exact eset_keys_nodup g.edges (sortPair u v) d hwf.1
  · show ∀ e ∈ eset (addNode (addNode g u) v).edges (sortPair u v) d,
      sortPair e.1.1 e.1.2 = e.1
    rw [addNode_edges, addNode_edges]
    exact eset_keys_sorted g.edges (sortPair u v) d hwf.2 (sortPair_idem u v)

theorem addNode_WF (g : NXGraph) (n : String) (hwf : g.WF) : (addNode g n).WF := by
  constructor
  · rw [addNode_edges]
    exact hwf.1
  · rw [addNode_edges]
    exact hwf.2

theorem addNode_fold_edges (l : List (String × OSPFRouter)) :
    ∀ g : NXGraph, (l.foldl (fun g rp => addNode g rp.1) g).edges = g.edges := by
  induction l with
  | nil => intro g; rfl
  | cons hd tl ih =>
    intro g
    rw [List.foldl_cons, ih, addNode_edges]

/-- The edge-materializing fold of build_topology preserves graph
well-formedness. -/
theorem buildFold_WF (l : List (String × OSPFRouter)) :
    ∀ acc : NXGraph × List ((String × String) × Nat), acc.1.WF →
      ((l.foldl (fun (acc : NXGraph × List ((String × String) × Nat)) rp =>
        rp.2.interfaces.foldl (fun acc ip =>
          if truthy ip.2.connected_router then
            let cr := ip.2.connected_router.getD ""
            let key := (sortPair rp.1 cr, ip.2.area)
            if key ∈ acc.2 then acc
            else (addEdge acc.1 rp.1 cr ⟨ip.2.cost, ip.2.area, ip.2.network⟩,
                  key :: acc.2)
          else acc) acc) acc).1).WF := by
  have hinner : ∀ (rn : String) (il : List (String × OSPFInterface))
      (acc : NXGraph × List ((String × String) × Nat)), acc.1.WF →
      ((il.foldl (fun acc ip =>
        if truthy ip.2.connected_router then
          let cr := ip.2.connected_router.getD ""
          let key := (sortPair rn cr, ip.2.area)
          if key ∈ acc.2 then acc
          else (addEdge acc.1 rn cr ⟨ip.2.cost, ip.2.area, ip.2.network⟩,
                key :: acc.2)
        else acc) acc).1).WF := by
    intro rn il
    induction il with
    | nil => intro acc h; exact h
    | cons hd tl ih =>
      intro acc h
      rw [List.foldl_cons]
      apply ih
      by_cases h1 : truthy hd.2.connected_router = true
      · rw [if_pos h1]
        by_cases h2 : (sortPair rn (hd.2.connected_router.getD ""), hd.2.area) ∈ acc.2
        · simp only [if_pos h2]
          exact h
        · simp only [if_neg h2]
          exact addEdge_WF acc.1 rn (hd.2.connected_router.getD "") _ h
      · rw [if_neg h1]
        exact h
  induction l with
  | nil => intro acc h; exact h
  | cons hd tl ih =>
    intro acc h
    rw [List.foldl_cons]
    exact ih _ (hinner hd.1 hd.2.interfaces acc h)

/-- Every built topology graph is well-formed: one edge record per unordered
router pair, keyed by the sorted pair. -/
theorem build_topology_WF (t : LoadedTopo) : (build_topology t).WF := by
  apply buildFold_WF
  show NXGraph.WF _
  constructor
  · rw [addNode_fold_edges]
    exact List.nodup_nil
  · rw [addNode_fold_edges]
    intro e he
    cases he

/-! ## Provenance of routing table entries -/

/-- Provenance of a synthesized route entry: its network is not directly
attached to the source router, and some other router owning the network has
a recorded path set. -/
def entryProvenance (t : OSPFTopologyState) (router_name : String)
    (st : DState) (e : RouteEntry) : Prop :=
  (∀ si ∈ ((alookup t.routers router_name).getD emptyRouter).interfaces,
      ¬ si.2.network = e.network) ∧
  ∃ dp ∈ t.routers, ¬ dp.1 = router_name ∧
    (∃ ipp ∈ dp.2.interfaces, ipp.2.network = e.network) ∧
    alookup st.paths dp.1 ≠ none

theorem foldl_grow_mem {α β : Type} (Q : α → Prop) (step : List α → β → List α)
    (hstep : ∀ rs b e, e ∈ step rs b → e ∈ rs ∨ Q e) :
    ∀ (l : List β) (rs : List α) (e : α), e ∈ l.foldl step rs → e ∈ rs ∨ Q e := by
  intro l
  induction l with
  | nil => intro rs e he; exact Or.inl he
  | cons hd tl ih =>
    intro rs e he
    rw [List.foldl_cons] at he
    rcases ih (step rs hd) e he with h | h
    · exact hstep rs hd e h
    · exact Or.inr h

theorem routesForNetwork_mem (t : OSPFTopologyState) (rn : String) (st : DState)
    (dp : String × OSPFRouter) (ip : String × OSPFInterface)
    (paths_to_dest : List (List String)) (rs0 : List RouteEntry) :
    ∀ e ∈ routesForNetwork t rn st dp ip paths_to_dest rs0,
      e ∈ rs0 ∨ e.network = ip.2.network := by
  intro e he
  refine foldl_grow_mem (fun e => e.network = ip.2.network) _ ?_
    (groupByNextHop paths_to_dest) rs0 e he
  intro rs nh e2 he2
  simp only at he2
  by_cases hc : (truthy (find_next_hop_ip t rn nh.1) &&
      truthy (find_outbound_interface t rn nh.1)) = true
  · rw [if_pos hc] at he2
    rcases List.mem_append.mp he2 with h | h
    · exact Or.inl h
    · rw [List.mem_singleton] at h
      subst h
      exact Or.inr rfl
  · rw [if_neg hc] at he2
    exact Or.inl he2

theorem tableStepIntf_prov (t : OSPFTopologyState) (rn : String) (st : DState)
    (dp : String × OSPFRouter) (hdp : dp ∈ t.routers) (hne : ¬ dp.1 = rn)
    (acc : List String × List RouteEntry) (ip : String × OSPFInterface)
    (hip : ip ∈ dp.2.interfaces)
    (hacc : ∀ e ∈ acc.2, entryProvenance t rn st e) :
    ∀ e ∈ (tableStepIntf t rn st dp acc ip).2, entryProvenance t rn st e := by
  intro e he
  unfold tableStepIntf at he
  by_cases h1 : ip.2.network ∈ acc.1
  · simp only [if_pos h1] at he
    exact hacc e he
  · simp only [if_neg h1] at he
    by_cases h2 : ((alookup t.routers rn).getD emptyRouter).interfaces.any
        (fun si => si.2.network == ip.2.network) = true
    · simp only [if_pos h2] at he
      exact hacc e he
    · simp only [if_neg h2] at he
      cases hlk : alookup st.paths dp.1 with
      | none =>
        rw [hlk] at he
        exact hacc e he
      | some paths_to_dest =>
        rw [hlk] at he
        rcases routesForNetwork_mem t rn st dp ip paths_to_dest acc.2 e he with h | h
        · exact hacc e h
        · constructor
          · intro si hsi hcc
            rw [Bool.not_eq_true, List.any_eq_false] at h2
            apply h2 si hsi
            rw [beq_iff_eq]
            rw [h] at hcc
            exact hcc
          · refine ⟨dp, hdp, hne, ⟨ip, hip, h.symm⟩, ?_⟩
            rw [hlk]
            intro hc
            cases hc

theorem tableIntfFold_prov (t : OSPFTopologyState) (rn : String) (st : DState)
    (dp : String × OSPFRouter) (hdp : dp ∈ t.routers) (hne : ¬ dp.1 = rn)
    (il : List (String × OSPFInterface)) (hil : ∀ ip ∈ il, ip ∈ dp.2.interfaces) :
    ∀ acc : List String × List RouteEntry,
      (∀ e ∈ acc.2, entryProvenance t rn st e) →
      ∀ e ∈ (il.foldl (tableStepIntf t rn st dp) acc).2,
        entryProvenance t rn st e := by
  induction il with
  | nil => intro acc hacc e he; exact hacc e he
  | cons hd tl ih =>
    intro acc hacc e he
    rw [List.foldl_cons] at he
    exact ih (fun ip h => hil ip (List.mem_cons_of_mem _ h)) _
      (tableStepIntf_prov t rn st dp hdp hne acc hd
        (hil hd (List.mem_cons_self _ _)) hacc) e he

theorem tableOuter_prov (t : OSPFTopologyState) (rn : String) (st : DState)
    (rl : List (String × OSPFRouter)) (hrl : ∀ dp ∈ rl, dp ∈ t.routers) :
    ∀ acc : List String × List RouteEntry,
      (∀ e ∈ acc.2, entryProvenance t rn st e) →
      ∀ e ∈ (rl.foldl (fun (acc : List String × List RouteEntry) dp =>
          if dp.1 = rn then acc
          else dp.2.interfaces.foldl (tableStepIntf t rn st dp) acc) acc).2,
        entryProvenance t rn st e := by
  induction rl with
  | nil => intro acc hacc e he; exact hacc e he
  | cons hd tl ih =>
    intro acc hacc e he
    rw [List.foldl_cons] at he
    by_cases hc : hd.1 = rn
    · rw [if_pos hc] at he
      exact ih (fun dp h => hrl dp (List.mem_cons_of_mem _ h)) acc hacc e he
    · rw [if_neg hc] at he
      exact ih (fun dp h => hrl dp (List.mem_cons_of_mem _ h)) _
        (tableIntfFold_prov t rn st hd (hrl hd (List.mem_cons_self _ _)) hc
          hd.2.interfaces (fun ip h => h) acc hacc) e he

/-- Every synthesized route entry has full provenance. -/
theorem generate_routing_table_from_prov (t : OSPFTopologyState) (rn : String)
    (st : DState) :
    ∀ e ∈ generate_routing_table_from t rn st, entryProvenance t rn st e := by
  intro e he
  exact tableOuter_prov t rn st t.routers (fun dp h => h) ([], [])
    (fun e2 h2 => absurd h2 (List.not_mem_nil _)) e he

/-! ## Next-hop grouping lemmas -/

theorem mem_keys_aextend_self {α : Type} (l : List (String × List α)) (k : String)
    (v : α) : k ∈ (aextend l k v).map Prod.fst := by
  induction l with
  | nil =>
    rw [aextend]
    exact List.mem_singleton.mpr rfl
  | cons hd tl ih =>
    rw [aextend]
    by_cases hc : hd.1 = k
    · rw [show hd = (hd.1, hd.2) from rfl, if_pos hc]
      rw [List.map_cons]
      exact hc ▸ List.mem_cons_self _ _
    · rw [show hd = (hd.1, hd.2) from rfl, if_neg hc]
      rw [List.map_cons]
      exact List.mem_cons_of_mem _ ih

theorem mem_keys_aextend_mono {α : Type} (l : List (String × List α)) (k : String)
    (v : α) (x : String) (hx : x ∈ l.map Prod.fst) :
    x ∈ (aextend l k v).map Prod.fst := by
  induction l with
  | nil => cases hx
  | cons hd tl ih =>
    rw [List.map_cons] at hx
    rw [aextend]
    by_cases hc : hd.1 = k
    · rw [show hd = (hd.1, hd.2) from rfl, if_pos hc]
      rw [List.map_cons]
      exact hx
    · rw [show hd = (hd.1, hd.2) from rfl, if_neg hc]
      rw [List.map_cons]
      rcases List.mem_cons.mp hx with h | h
      · exact List.mem_cons.mpr (Or.inl h)
      · exact List.mem_cons_of_mem _ (ih h)

theorem groupFold_keys_mono (l : List (List String)) :
    ∀ (acc : List (String × List (List String))) (x : String),
      x ∈ acc.map Prod.fst →
      x ∈ (l.foldl (fun acc p =>
        match p with
        | _ :: nh :: _ => aextend acc nh p
        | _ => acc) acc).map Prod.fst := by
  induction l with
  | nil => intro acc x hx; exact hx
  | cons hd tl ih =>
    intro acc x hx
    rw [List.foldl_cons]
    apply ih
    match hd with
    | [] => exact hx
    | [a] => exact hx
    | a :: nh :: rest => exact mem_keys_aextend_mono acc nh (a :: nh :: rest) x hx

/-- Every path with at least two vertices contributes its second vertex as a
key of the next-hop grouping. -/
theorem groupByNextHop_key (paths : List (List String)) (a nh : String)
    (rest : List String) (hp : a :: nh :: rest ∈ paths) :
    nh ∈ (groupByNextHop paths).map Prod.fst := by
  unfold groupByNextHop
  generalize hacc : ([] : List (String × List (List String))) = acc
  clear hacc
  induction paths generalizing acc with
  | nil => cases hp
  | cons hd tl ih =>
    rw [List.foldl_cons]
    rcases List.mem_cons.mp hp with h | h
    · subst h
      apply groupFold_keys_mono
      exact mem_keys_aextend_self acc nh (a :: nh :: rest)
    · exact ih h _

/-! ## Decimal rendering of canonical IPv4 octets -/

/-- Decimal digit character. -/
def digitChar (n : Nat) : Char := Char.ofNat (48 + n)

/-- Decimal rendering of an octet value (at most three digits). -/
def octChars (n : Nat) : List Char :=
  if n < 10 then [digitChar n]
  else if n < 100 then [digitChar (n / 10), digitChar (n % 10)]
  else [digitChar (n / 100), digitChar (n / 10 % 10), digitChar (n % 10)]

/-- Canonical dotted-quad rendering of an IPv4 address. -/
def renderQuad (a b c d : Nat) : String :=
  String.mk (octChars a ++ dotChar ::
    (octChars b ++ dotChar :: (octChars c ++ dotChar :: octChars d)))

theorem digitChar_ne_dot (k : Nat) (hk : k ≤ 9) : ¬ digitChar k = dotChar := by
  interval_cases k <;> decide

theorem octChars_no_dot (n : Nat) (hn : n ≤ 999) :
    ∀ c ∈ octChars n, ¬ c = dotChar := by
  unfold octChars
  by_cases h1 : n < 10
  · rw [if_pos h1]
    intro c hc
    rw [List.mem_singleton] at hc
    subst hc
    exact digitChar_ne_dot n (by omega)
  · rw [if_neg h1]
    by_cases h2 : n < 100
    · rw [if_pos h2]
      intro c hc
      rcases List.mem_cons.mp hc with h | h
      · subst h
        exact digitChar_ne_dot _ (by omega)
      · rw [List.mem_singleton] at h
        subst h
        exact digitChar_ne_dot _ (by omega)
    · rw [if_neg h2]
      intro c hc
      rcases List.mem_cons.mp hc with h | h
      · subst h
        exact digitChar_ne_dot _ (by omega)
      · rcases List.mem_cons.mp h with h3 | h3
        · subst h3
          exact digitChar_ne_dot _ (by omega)
        · rw [List.mem_singleton] at h3
          subst h3
          exact digitChar_ne_dot _ (by omega)

theorem dropWhile_all_append (p : Char → Bool) (l1 l2 : List Char)
    (h : ∀ c ∈ l1, p c = true) :
    (l1 ++ l2).dropWhile p = l2.dropWhile p := by
  induction l1 with
  | nil => rfl
  | cons hd tl ih =>
    rw [List.cons_append, List.dropWhile_cons, h hd (List.mem_cons_self _ _)]
    exact ih (fun c hc => h c (List.mem_cons_of_mem _ hc))

theorem takeWhile_all_append (p : Char → Bool) (l1 l2 : List Char) (c0 : Char)
    (h : ∀ c ∈ l1, p c = true) (hc0 : p c0 = false) :
    (l1 ++ c0 :: l2).takeWhile p = l1 := by
  induction l1 with
  | nil => simp [List.takeWhile_cons, hc0]
  | cons hd tl ih =>
    rw [List.cons_append, List.takeWhile_cons, h hd (List.mem_cons_self _ _)]
    simp only [if_pos]
    rw [ih (fun c hc => h c (List.mem_cons_of_mem _ hc))]

/-- rsplit by the last dot keeps everything before it. -/
theorem beforeLastDot_append (xs ds : List Char)
    (hds : ∀ c ∈ ds, ¬ c = dotChar) :
    beforeLastDot (xs ++ dotChar :: ds) = xs := by
  unfold beforeLastDot
  rw [if_pos (by simp [dotChar])]
  rw [List.reverse_append, List.reverse_cons]
  rw [List.append_assoc, List.singleton_append]
  rw [dropWhile_all_append _ ds.reverse _ (by
    intro c hc
    rw [List.mem_reverse] at hc
    simp [hds c hc])]
  rw [List.dropWhile_cons]
  simp only [beq_self_eq_true, Bool.not_true, if_neg (by simp : ¬ false = true)]
  rw [List.drop_one, List.tail_cons, List.reverse_reverse]

/-- split by the first dot keeps everything before it. -/
theorem beforeFirstDot_append (xs rest : List Char)
    (hxs : ∀ c ∈ xs, ¬ c = dotChar) :
    beforeFirstDot (xs ++ dotChar :: rest) = xs := by
  unfold beforeFirstDot
  exact takeWhile_all_append _ xs rest dotChar
    (by intro c hc; simp [hxs c hc]) (by simp)

theorem one_beq_digitChar (k : Nat) (hk : k ≤ 9) :
    (('1' : Char) == digitChar k) = decide (k = 1) := by
  interval_cases k <;> decide

theorem zero_beq_digitChar (k : Nat) (hk : k ≤ 9) :
    (('0' : Char) == digitChar k) = decide (k = 0) := by
  interval_cases k <;> decide

theorem dot_beq_digitChar (k : Nat) (hk : k ≤ 9) :
    (('.' : Char) == digitChar k) = false := by
  interval_cases k <;> decide

theorem ten_prefix_octet (a : Nat) (hne : ¬ a = 10) (rest : List Char) :
    List.isPrefixOf ("10.".toList) (octChars a ++ dotChar :: rest) = false := by
  show List.isPrefixOf ['1','0','.'] (octChars a ++ dotChar :: rest) = false
  unfold octChars
  by_cases h1 : a < 10
  · rw [if_pos h1, List.singleton_append]
    simp [List.isPrefixOf, dotChar]
  · rw [if_neg h1]
    by_cases h2 : a < 100
    · rw [if_pos h2, List.cons_append, List.cons_append, List.nil_append]
      simp [List.isPrefixOf, one_beq_digitChar _ (by omega : a / 10 ≤ 9),
        zero_beq_digitChar _ (by omega : a % 10 ≤ 9)]
      omega
    · rw [if_neg h2, List.cons_append, List.cons_append, List.cons_append,
        List.nil_append]
      simp [List.isPrefixOf, dotChar]
      intro _ _
      have h := dot_beq_digitChar (a % 10) (by omega)
      rw [beq_eq_false_iff_ne] at h
      exact h

theorem oneninetwo_prefix_ten (rest : List Char) :
    List.isPrefixOf ("192.168".toList) ('1' :: '0' :: rest) = false := by
  show List.isPrefixOf ['1','9','2','.','1','6','8'] ('1' :: '0' :: rest) = false
  simp [List.isPrefixOf]

theorem ten_prefix_self (rest : List Char) :
    List.isPrefixOf ("10.".toList) ('1' :: '0' :: dotChar :: rest) = true := by
  show List.isPrefixOf ['1','0','.'] ('1' :: '0' :: dotChar :: rest) = true
  simp [List.isPrefixOf, dotChar]

theorem derive_network_eq (ip : String) :
    derive_network ip =
      if List.isPrefixOf ("192.168".toList) ip.toList then
        String.mk (beforeLastDot ip.toList) ++ ".0/24"
      else if List.isPrefixOf ("10.".toList) ip.toList then
        String.mk (beforeFirstDot ip.toList) ++ ".0.0.0/8"
      else String.mk (beforeLastDot ip.toList) ++ ".0/24" := rfl

theorem renderQuad_toList (a b c d : Nat) :
    (renderQuad a b c d).toList =
      octChars a ++ dotChar ::
        (octChars b ++ dotChar :: (octChars c ++ dotChar :: octChars d)) := rfl

/-- The network-derivation heuristic on a canonical dotted quad: the 10.x.y.z
space collapses to its /8, everything else keeps its first three octets with
a /24 suffix (the 192.168 branch and the default branch of the source produce
the same string). -/
theorem derive_network_quad (a b c d : Nat) (ha : a ≤ 255) (hb : b ≤ 255)
    (hc : c ≤ 255) (hd255 : d ≤ 255) :
    derive_network (renderQuad a b c d) =
      if a = 10 then "10.0.0.0/8"
      else String.mk (octChars a ++ dotChar ::
        (octChars b ++ dotChar :: octChars c)) ++ ".0/24" := by
  rw [derive_network_eq, renderQuad_toList]
  by_cases h10 : a = 10
  · subst h10
    rw [if_pos rfl]
    rw [show octChars 10 = ['1', '0'] from by decide]
    rw [show (['1', '0'] : List Char) ++ dotChar ::
        (octChars b ++ dotChar :: (octChars c ++ dotChar :: octChars d)) =
      '1' :: '0' :: dotChar ::
        (octChars b ++ dotChar :: (octChars c ++ dotChar :: octChars d)) from rfl]
    rw [if_neg (by rw [oneninetwo_prefix_ten]; simp)]
    rw [if_pos (ten_prefix_self _)]
    rw [show ('1' :: '0' :: dotChar ::
        (octChars b ++ dotChar :: (octChars c ++ dotChar :: octChars d)) : List Char) =
      ['1', '0'] ++ dotChar ::
        (octChars b ++ dotChar :: (octChars c ++ dotChar :: octChars d)) from rfl]
    rw [beforeFirstDot_append ['1', '0'] _ (by decide)]
    decide
  · rw [if_neg h10]
    have hLre : octChars a ++ dotChar ::
          (octChars b ++ dotChar :: (octChars c ++ dotChar :: octChars d)) =
        (octChars a ++ dotChar :: (octChars b ++ dotChar :: octChars c)) ++
          dotChar :: octChars d := by
      simp [List.append_assoc]
    have hX : String.mk (beforeLastDot (octChars a ++ dotChar ::
          (octChars b ++ dotChar :: (octChars c ++ dotChar :: octChars d)))) ++
        ".0/24" =
        String.mk (octChars a ++ dotChar ::
          (octChars b ++ dotChar :: octChars c)) ++ ".0/24" := by
      rw [hLre, beforeLastDot_append _ (octChars d) (octChars_no_dot d (by omega))]
    by_cases h192 : List.isPrefixOf ("192.168".toList) (octChars a ++ dotChar ::
        (octChars b ++ dotChar :: (octChars c ++ dotChar :: octChars d))) = true
    · rw [if_pos h192]
      exact hX
    · rw [if_neg h192, if_neg (by rw [ten_prefix_octet a h10]; simp)]
      exact hX

/-! ## Error behavior of interface loading -/

/-- An interface configuration without any accepted IP key makes
_get_interface_ip raise the KeyError with the fixed message shape; the
message names the available and expected keys but not the interface. -/
theorem get_interface_ip_noip (raw : IntfConfig)
    (h : ∀ k ∈ ipKeys, (alookup raw k).isSome = false) :
    get_interface_ip raw = .error (noIpMessage (raw.map Prod.fst)) := by
  unfold get_interface_ip
  have hf : ipKeys.find? (fun k => (alookup raw k).isSome) = none := by
    rw [List.find?_eq_none]
    intro k hk
    rw [h k hk]
    simp
  rw [hf]

theorem loadInterface_noip (name : String) (raw : IntfConfig)
    (h : ∀ k ∈ ipKeys, (alookup raw k).isSome = false) :
    loadInterface name raw = .error (noIpMessage (raw.map Prod.fst)) := by
  unfold loadInterface
  rw [get_interface_ip_noip raw h]
  rfl

/-- An interface with a resolvable IP but no network field gets its network
from the derivation heuristic applied to that IP. -/
theorem loadInterface_derives_network (name : String) (raw : IntfConfig)
    (i : OSPFInterface) (hok : loadInterface name raw = .ok i)
    (hnet : alookup raw "network" = none) :
    i.network = derive_network i.ip_address := by
  unfold loadInterface at hok
  cases hip : get_interface_ip raw with
  | error e =>
    rw [hip] at hok
    cases hok
  | ok ip =>
    rw [hip] at hok
    rcases hpc : parseConnectedTo (alookup raw "connected_to") with ⟨cr, nip⟩
    rw [hpc] at hok
    simp only [bind, Except.bind, pure, Except.pure] at hok
    rw [hnet] at hok
    cases hok
    rfl

/-! ## Silent handling of unresolvable neighbors -/

/-- Claim C6 (amended): a connected_to naming a router absent from the router
map leaves the interface untouched during neighbor resolution: no error is
raised and the link is silently left unresolved. -/
theorem resolveIntf_missing (routers : List (String × OSPFRouter)) (rn : String)
    (i : OSPFInterface)
    (h : alookup routers (i.connected_router.getD "") = none) :
    resolveIntf routers rn i = i := by
  unfold resolveIntf
  by_cases hc : (truthy i.connected_router && !(truthy i.neighbor_ip)) = true
  · rw [if_pos hc, h]
  · rw [if_neg hc]

/-! ## Route classification characterization -/

theorem determine_route_type_eq (tt : String) (src dst : OSPFRouter) (a : Nat) :
    determine_route_type tt src dst a =
      if tt = "single_area" ∨ tt = "single_area_ring" then "O"
      else if a ∈ src.areas then "O" else "O IA" := rfl

/-- With at most one declared area and no metadata override, the detected
type is one of the two single-area variants and classification is always
intra-area. -/
theorem single_area_always_intra (t : LoadedTopo) (src dst : OSPFRouter)
    (a : Nat) (hmeta : t.metadata_type = none) (hle : t.areas.length ≤ 1) :
    determine_route_type (detect_topology_type t) src dst a = "O" := by
  unfold detect_topology_type
  rw [hmeta]
  simp only
  rw [if_pos hle]
  by_cases h4 : t.routers.length = 4
  · rw [if_pos h4]
    rfl
  · rw [if_neg h4]
    rfl

theorem detect_multi_area (t : LoadedTopo) (hmeta : t.metadata_type = none)
    (hgt : 1 < t.areas.length) (h0 : t.areas.contains "0" = true)
    (habr : 0 < t.routers.countP (fun rp => 1 < rp.2.areas.length)) :
    detect_topology_type t = "multi_area" := by
  unfold detect_topology_type
  rw [hmeta]
  simp only
  rw [if_neg (by omega)]
  rw [if_pos]
  rw [h0]
  simp [habr]

theorem route_type_other (tt : String) (src dst : OSPFRouter) (a : Nat)
    (h1 : ¬ tt = "single_area") (h2 : ¬ tt = "single_area_ring") :
    determine_route_type tt src dst a =
      if a ∈ src.areas then "O" else "O IA" := by
  rw [determine_route_type_eq, if_neg (by rw [not_or]; exact ⟨h1, h2⟩)]

/-! ## Node set of the built topology -/

/-- A name mentioned by the loaded topology: a router name or the target of a
connected interface. -/
def nodeMentioned (t : LoadedTopo) (n : String) : Prop :=
  (∃ rp ∈ t.routers, rp.1 = n) ∨
  (∃ rp ∈ t.routers, ∃ ip ∈ rp.2.interfaces,
    truthy ip.2.connected_router = true ∧ ip.2.connected_router.getD "" = n)

theorem mem_addNode (g : NXGraph) (m n : String) :
    n ∈ (addNode g m).nodes ↔ n ∈ g.nodes ∨ n = m := by
  unfold addNode
  by_cases h : m ∈ g.nodes
  · rw [if_pos h]
    constructor
    · exact Or.inl
    · intro hc
      rcases hc with hc | hc
      · exact hc
      · subst hc
        exact h
  · rw [if_neg h]
    show n ∈ g.nodes ++ [m] ↔ _
    simp [List.mem_append]

theorem mem_addEdge_nodes (g : NXGraph) (u v : String) (d : EdgeData)
    (n : String) :
    n ∈ (addEdge g u v d).nodes ↔ n ∈ g.nodes ∨ n = u ∨ n = v := by
  show n ∈ (addNode (addNode g u) v).nodes ↔ _
  rw [mem_addNode, mem_addNode]
  tauto

theorem addNodeFold_nodes (l : List (String × OSPFRouter)) :
    ∀ (g : NXGraph) (n : String),
      n ∈ (l.foldl (fun g rp => addNode g rp.1) g).nodes ↔
        n ∈ g.nodes ∨ ∃ rp ∈ l, rp.1 = n := by
  induction l with
  | nil =>
    intro g n
    simp
  | cons hd tl ih =>
    intro g n
    rw [List.foldl_cons, ih, mem_addNode]
    constructor
    · rintro (⟨h | h⟩ | ⟨rp, hrp, h⟩)
      · exact Or.inl h
      · exact Or.inr ⟨hd, List.mem_cons_self _ _, h.symm⟩
      · exact Or.inr ⟨rp, List.mem_cons_of_mem _ hrp, h⟩
    · rintro (h | ⟨rp, hrp, h⟩)
      · exact Or.inl (Or.inl h)
      · rcases List.mem_cons.mp hrp with h2 | h2
        · subst h2
          exact Or.inl (Or.inr h.symm)
        · exact Or.inr ⟨rp, h2, h⟩

/-- Invariant of the edge-materializing fold: both endpoints of every
processed key are already nodes. -/
def keyInv (acc : NXGraph × List ((String × String) × Nat)) : Prop :=
  ∀ k ∈ acc.2, k.1.1 ∈ acc.1.nodes ∧ k.1.2 ∈ acc.1.nodes

theorem edgeStep_nodes (rn : String) (ip : String × OSPFInterface)
    (acc : NXGraph × List ((String × String) × Nat)) (hinv : keyInv acc) :
    keyInv (if truthy ip.2.connected_router then
        (if (sortPair rn (ip.2.connected_router.getD ""), ip.2.area) ∈ acc.2
         then acc
         else (addEdge acc.1 rn (ip.2.connected_router.getD "")
                 ⟨ip.2.cost, ip.2.area, ip.2.network⟩,
               (sortPair rn (ip.2.connected_router.getD ""), ip.2.area) :: acc.2))
      else acc) ∧
    ∀ n, n ∈ (if truthy ip.2.connected_router then
        (if (sortPair rn (ip.2.connected_router.getD ""), ip.2.area) ∈ acc.2
         then acc
         else (addEdge acc.1 rn (ip.2.connected_router.getD "")
                 ⟨ip.2.cost, ip.2.area, ip.2.network⟩,
               (sortPair rn (ip.2.connected_router.getD ""), ip.2.area) :: acc.2))
      else acc).1.nodes ↔
      n ∈ acc.1.nodes ∨ (truthy ip.2.connected_router = true ∧
        (n = rn ∨ n = ip.2.connected_router.getD "")) := by
  by_cases htr : truthy ip.2.connected_router = true
  · rw [if_pos htr]
    by_cases hk : (sortPair rn (ip.2.connected_router.getD ""), ip.2.area) ∈ acc.2
    · rw [if_pos hk]
      refine ⟨hinv, ?_⟩
      intro n
      constructor
      · exact Or.inl
      · rintro (h | ⟨_, h⟩)
        · exact h
        · obtain ⟨h1, h2⟩ := hinv _ hk
          rcases sortPair_cases rn (ip.2.connected_router.getD "") with hs | hs
          · rw [hs] at h1 h2
            rcases h with h | h
            · subst h
              exact h1
            · subst h
              exact h2
          · rw [hs] at h1 h2
            rcases h with h | h
            · subst h
              exact h2
            · subst h
              exact h1
    · rw [if_neg hk]
      constructor
      · intro k hkm
        rcases List.mem_cons.mp hkm with h | h
        · subst h
          rcases sortPair_cases rn (ip.2.connected_router.getD "") with hs | hs
          · rw [hs]
            exact ⟨(mem_addEdge_nodes _ _ _ _ _).mpr (Or.inr (Or.inl rfl)),
                   (mem_addEdge_nodes _ _ _ _ _).mpr (Or.inr (Or.inr rfl))⟩
          · rw [hs]
            exact ⟨(mem_addEdge_nodes _ _ _ _ _).mpr (Or.inr (Or.inr rfl)),
                   (mem_addEdge_nodes _ _ _ _ _).mpr (Or.inr (Or.inl rfl))⟩
        · obtain ⟨h1, h2⟩ := hinv k h
          exact ⟨(mem_addEdge_nodes _ _ _ _ _).mpr (Or.inl h1),
                 (mem_addEdge_nodes _ _ _ _ _).mpr (Or.inl h2)⟩
      · intro n
        rw [show (addEdge acc.1 rn (ip.2.connected_router.getD "")
              ⟨ip.2.cost, ip.2.area, ip.2.network⟩,
            (sortPair rn (ip.2.connected_router.getD ""), ip.2.area) :: acc.2).1 =
          addEdge acc.1 rn (ip.2.connected_router.getD "")
            ⟨ip.2.cost, ip.2.area, ip.2.network⟩ from rfl]
        rw [mem_addEdge_nodes]
        constructor
        · rintro (h | h | h)
          · exact Or.inl h
          · exact Or.inr ⟨htr, Or.inl h⟩
          · exact Or.inr ⟨htr, Or.inr h⟩
        · rintro (h | ⟨_, h | h⟩)
          · exact Or.inl h
          · exact Or.inr (Or.inl h)
          · exact Or.inr (Or.inr h)
  · rw [if_neg htr]
    refine ⟨hinv, ?_⟩
    intro n
    constructor
    · exact Or.inl
    · rintro (h | ⟨hc, _⟩)
      · exact h
      · exact absurd hc htr

theorem edgeIntfFold_nodes (rn : String) (il : List (String × OSPFInterface)) :
    ∀ acc : NXGraph × List ((String × String) × Nat), keyInv acc →
      keyInv (il.foldl (fun acc ip =>
        if truthy ip.2.connected_router then
          let cr := ip.2.connected_router.getD ""
          let key := (sortPair rn cr, ip.2.area)
          if key ∈ acc.2 then acc
          else (addEdge acc.1 rn cr ⟨ip.2.cost, ip.2.area, ip.2.network⟩,
                key :: acc.2)
        else acc) acc) ∧
      ∀ n, n ∈ (il.foldl (fun acc ip =>
        if truthy ip.2.connected_router then
          let cr := ip.2.connected_router.getD ""
          let key := (sortPair rn cr, ip.2.area)
          if key ∈ acc.2 then acc
          else (addEdge acc.1 rn cr ⟨ip.2.cost, ip.2.area, ip.2.network⟩,
                key :: acc.2)
        else acc) acc).1.nodes ↔
        n ∈ acc.1.nodes ∨ ∃ ip ∈ il, truthy ip.2.connected_router = true ∧
          (n = rn ∨ n = ip.2.connected_router.getD "") := by
  induction il with
  | nil =>
    intro acc hinv
    refine ⟨hinv, ?_⟩
    intro n
    simp
  | cons hd tl ih =>
    intro acc hinv
    rw [List.foldl_cons]
    obtain ⟨hinv2, hmem2⟩ := edgeStep_nodes rn hd acc hinv
    obtain ⟨hinvf, hmemf⟩ := ih _ hinv2
    refine ⟨hinvf, ?_⟩
    intro n
    rw [hmemf n, hmem2 n]
    constructor
    · rintro (⟨h | h⟩ | ⟨ip2, hip2, h⟩)
      · exact Or.inl h
      · exact Or.inr ⟨hd, List.mem_cons_self _ _, h⟩
      · exact Or.inr ⟨ip2, List.mem_cons_of_mem _ hip2, h⟩
    · rintro (h | ⟨ip2, hip2, h⟩)
      · exact Or.inl (Or.inl h)
      · rcases List.mem_cons.mp hip2 with h2 | h2
        · subst h2
          exact Or.inl (Or.inr h)
        · exact Or.inr ⟨ip2, h2, h⟩

theorem edgeOuterFold_nodes (l : List (String × OSPFRouter)) :
    ∀ acc : NXGraph × List ((String × String) × Nat), keyInv acc →
      keyInv (l.foldl (fun (acc : NXGraph × List ((String × String) × Nat)) rp =>
        rp.2.interfaces.foldl (fun acc ip =>
          if truthy ip.2.connected_router then
            let cr := ip.2.connected_router.getD ""
            let key := (sortPair rp.1 cr, ip.2.area)
            if key ∈ acc.2 then acc
            else (addEdge acc.1 rp.1 cr ⟨ip.2.cost, ip.2.area, ip.2.network⟩,
                  key :: acc.2)
          else acc) acc) acc) ∧
      ∀ n, n ∈ (l.foldl (fun (acc : NXGraph × List ((String × String) × Nat)) rp =>
        rp.2.interfaces.foldl (fun acc ip =>
          if truthy ip.2.connected_router then
            let cr := ip.2.connected_router.getD ""
            let key := (sortPair rp.1 cr, ip.2.area)
            if key ∈ acc.2 then acc
            else (addEdge acc.1 rp.1 cr ⟨ip.2.cost, ip.2.area, ip.2.network⟩,
                  key :: acc.2)
          else acc) acc) acc).1.nodes ↔
        n ∈ acc.1.nodes ∨ ∃ rp ∈ l, ∃ ip ∈ rp.2.interfaces,
          truthy ip.2.connected_router = true ∧
          (n = rp.1 ∨ n = ip.2.connected_router.getD "") := by
  induction l with
  | nil =>
    intro acc hinv
    refine ⟨hinv, ?_⟩
    intro n
    simp
  | cons hd tl ih =>
    intro acc hinv
    rw [List.foldl_cons]
    obtain ⟨hinv2, hmem2⟩ := edgeIntfFold_nodes hd.1 hd.2.interfaces acc hinv
    obtain ⟨hinvf, hmemf⟩ := ih _ hinv2
    refine ⟨hinvf, ?_⟩
    intro n
    rw [hmemf n, hmem2 n]
    constructor
    · rintro (⟨h | ⟨ip2, hip2, h⟩⟩ | ⟨rp, hrp, hrest⟩)
      · exact Or.inl h
      · exact Or.inr ⟨hd, List.mem_cons_self _ _, ip2, hip2, h⟩
      · exact Or.inr ⟨rp, List.mem_cons_of_mem _ hrp, hrest⟩
    · rintro (h | ⟨rp, hrp, hrest⟩)
      · exact Or.inl (Or.inl h)
      · rcases List.mem_cons.mp hrp with h2 | h2
        · subst h2
          exact Or.inl (Or.inr hrest)
        · exact Or.inr ⟨rp, h2, hrest⟩

/-- Characterization of the node set of the built graph: exactly the router
names plus the targets of connected interfaces (ghost nodes included). -/
theorem build_topology_nodes (t : LoadedTopo) (n : String) :
    n ∈ (build_topology t).nodes ↔ nodeMentioned t n := by
  unfold build_topology nodeMentioned
  obtain ⟨_, hmem⟩ := edgeOuterFold_nodes t.routers
    (t.routers.foldl (fun g rp => addNode g rp.1) { nodes := [], edges := [] }, [])
    (fun k hk => absurd hk (List.not_mem_nil _))
  rw [hmem n]
  rw [show (t.routers.foldl (fun g rp => addNode g rp.1) { nodes := [], edges := [] },
      ([] : List ((String × String) × Nat))).1 =
    t.routers.foldl (fun g rp => addNode g rp.1) { nodes := [], edges := [] } from rfl]
  rw [addNodeFold_nodes]
  constructor
  · rintro (⟨h | h⟩ | ⟨rp, hrp, ip, hip, htr, h | h⟩)
    · cases h
    · exact Or.inl h
    · exact Or.inl ⟨rp, hrp, h.symm⟩
    · exact Or.inr ⟨rp, hrp, ip, hip, htr, h.symm⟩
  · rintro (⟨rp, hrp, h⟩ | ⟨rp, hrp, ip, hip, htr, h⟩)
    · exact Or.inl (Or.inr ⟨rp, hrp, h⟩)
    · exact Or.inr ⟨rp, hrp, ip, hip, htr, Or.inr h.symm⟩

/-- Node membership of the built graph is invariant under reordering of the
routers mapping. -/
theorem build_topology_nodes_perm (t1 t2 : LoadedTopo)
    (hp : t1.routers.Perm t2.routers) :
    ∀ n, n ∈ (build_topology t1).nodes ↔ n ∈ (build_topology t2).nodes := by
  intro n
  rw [build_topology_nodes, build_topology_nodes]
  unfold nodeMentioned
  constructor
  · rintro (⟨rp, hrp, h⟩ | ⟨rp, hrp, hrest⟩)
    · exact Or.inl ⟨rp, hp.subset hrp, h⟩
    · exact Or.inr ⟨rp, hp.subset hrp, hrest⟩
  · rintro (⟨rp, hrp, h⟩ | ⟨rp, hrp, hrest⟩)
    · exact Or.inl ⟨rp, hp.symm.subset hrp, h⟩
    · exact Or.inr ⟨rp, hp.symm.subset hrp, hrest⟩

/-! ## Edge-key set of the built topology -/

theorem mem_keys_eset_self (l : List ((String × String) × EdgeData))
    (k : String × String) (d : EdgeData) :
    k ∈ (eset l k d).map Prod.fst := by
  induction l with
  | nil =>
    rw [eset]
    exact List.mem_singleton.mpr rfl
  | cons hd tl ih =>
    rw [eset]
    by_cases hc : hd.1 = k
    · rw [show hd = (hd.1, hd.2) from rfl, if_pos hc]
      rw [List.map_cons]
      exact hc ▸ List.mem_cons_self _ _
    · rw [show hd = (hd.1, hd.2) from rfl, if_neg hc]
      rw [List.map_cons]
      exact List.mem_cons_of_mem _ ih

theorem mem_keys_eset_mono (l : List ((String × String) × EdgeData))
    (k : String × String) (d : EdgeData) (x : String × String)
    (hx : x ∈ l.map Prod.fst) : x ∈ (eset l k d).map Prod.fst := by
  induction l with
  | nil => cases hx
  | cons hd tl ih =>
    rw [List.map_cons] at hx
    rw [eset]
    by_cases hc : hd.1 = k
    · rw [show hd = (hd.1, hd.2) from rfl, if_pos hc]
      rw [List.map_cons]
      exact hx
    · rw [show hd = (hd.1, hd.2) from rfl, if_neg hc]
      rw [List.map_cons]
      rcases List.mem_cons.mp hx with h | h
      · exact List.mem_cons.mpr (Or.inl h)
      · exact List.mem_cons_of_mem _ (ih h)

theorem addEdge_edges (g : NXGraph) (u v : String) (d : EdgeData) :
    (addEdge g u v d).edges = eset g.edges (sortPair u v) d := by
  show eset (addNode (addNode g u) v).edges (sortPair u v) d = _
  rw [addNode_edges, addNode_edges]

theorem mem_addEdge_keys (g : NXGraph) (u v : String) (d : EdgeData)
    (k : String × String) :
    k ∈ (addEdge g u v d).edges.map Prod.fst ↔
      k ∈ g.edges.map Prod.fst ∨ k = sortPair u v := by
  rw [addEdge_edges]
  constructor
  · intro h
    exact mem_keys_eset g.edges (sortPair u v) d k h
  · rintro (h | h)
    · exact mem_keys_eset_mono _ _ _ _ h
    · subst h
      exact mem_keys_eset_self _ _ _

/-- An unordered router pair joined by the loaded topology: the sorted pair of
a router and the target of one of its connected interfaces. -/
def keyMentioned (t : LoadedTopo) (k : String × String) : Prop :=
  ∃ rp ∈ t.routers, ∃ ip ∈ rp.2.interfaces,
    truthy ip.2.connected_router = true ∧
    k = sortPair rp.1 (ip.2.connected_router.getD "")

/-- Invariant of the edge-materializing fold: every processed key's sorted
pair is already an edge key. -/
def keyInv2 (acc : NXGraph × List ((String × String) × Nat)) : Prop :=
  ∀ pk ∈ acc.2, pk.1 ∈ acc.1.edges.map Prod.fst

theorem edgeStep_keys (rn : String) (ip : String × OSPFInterface)
    (acc : NXGraph × List ((String × String) × Nat)) (hinv : keyInv2 acc) :
    keyInv2 (if truthy ip.2.connected_router then
        (if (sortPair rn (ip.2.connected_router.getD ""), ip.2.area) ∈ acc.2
         then acc
         else (addEdge acc.1 rn (ip.2.connected_router.getD "")
                 ⟨ip.2.cost, ip.2.area, ip.2.network⟩,
               (sortPair rn (ip.2.connected_router.getD ""), ip.2.area) :: acc.2))
      else acc) ∧
    ∀ k, k ∈ (if truthy ip.2.connected_router then
        (if (sortPair rn (ip.2.connected_router.getD ""), ip.2.area) ∈ acc.2
         then acc
         else (addEdge acc.1 rn (ip.2.connected_router.getD "")
                 ⟨ip.2.cost, ip.2.area, ip.2.network⟩,
               (sortPair rn (ip.2.connected_router.getD ""), ip.2.area) :: acc.2))
      else acc).1.edges.map Prod.fst ↔
      k ∈ acc.1.edges.map Prod.fst ∨ (truthy ip.2.connected_router = true ∧
        k = sortPair rn (ip.2.connected_router.getD "")) := by
  by_cases htr : truthy ip.2.connected_router = true
  · rw [if_pos htr]
    by_cases hk : (sortPair rn (ip.2.connected_router.getD ""), ip.2.area) ∈ acc.2
    · rw [if_pos hk]
      refine ⟨hinv, ?_⟩
      intro k
      constructor
      · exact Or.inl
      · rintro (h | ⟨_, h⟩)
        · exact h
        · subst h
          exact hinv _ hk
    · rw [if_neg hk]
      constructor
      · intro pk hpk
        rcases List.mem_cons.mp hpk with h | h
        · subst h
          exact (mem_addEdge_keys _ _ _ _ _).mpr (Or.inr rfl)
        · exact (mem_addEdge_keys _ _ _ _ _).mpr (Or.inl (hinv pk h))
      · intro k
        rw [show (addEdge acc.1 rn (ip.2.connected_router.getD "")
              ⟨ip.2.cost, ip.2.area, ip.2.network⟩,
            (sortPair rn (ip.2.connected_router.getD ""), ip.2.area) :: acc.2).1 =
          addEdge acc.1 rn (ip.2.connected_router.getD "")
            ⟨ip.2.cost, ip.2.area, ip.2.network⟩ from rfl]
        rw [mem_addEdge_keys]
        constructor
        · rintro (h | h)
          · exact Or.inl h
          · exact Or.inr ⟨htr, h⟩
        · rintro (h | ⟨_, h⟩)
          · exact Or.inl h
          · exact Or.inr h
  · rw [if_neg htr]
    refine ⟨hinv, ?_⟩
    intro k
    constructor
    · exact Or.inl
    · rintro (h | ⟨hc, _⟩)
      · exact h
      · exact absurd hc htr

theorem edgeIntfFold_keys (rn : String) (il : List (String × OSPFInterface)) :
    ∀ acc : NXGraph × List ((String × String) × Nat), keyInv2 acc →
      keyInv2 (il.foldl (fun acc ip =>
        if truthy ip.2.connected_router then
          let cr := ip.2.connected_router.getD ""
          let key := (sortPair rn cr, ip.2.area)
          if key ∈ acc.2 then acc
          else (addEdge acc.1 rn cr ⟨ip.2.cost, ip.2.area, ip.2.network⟩,
                key :: acc.2)
        else acc) acc) ∧
      ∀ k, k ∈ (il.foldl (fun acc ip =>
        if truthy ip.2.connected_router then
          let cr := ip.2.connected_router.getD ""
          let key := (sortPair rn cr, ip.2.area)
          if key ∈ acc.2 then acc
          else (addEdge acc.1 rn cr ⟨ip.2.cost, ip.2.area, ip.2.network⟩,
                key :: acc.2)
        else acc) acc).1.edges.map Prod.fst ↔
        k ∈ acc.1.edges.map Prod.fst ∨ ∃ ip ∈ il,
          truthy ip.2.connected_router = true ∧
          k = sortPair rn (ip.2.connected_router.getD "") := by
  induction il with
  | nil =>
    intro acc hinv
    refine ⟨hinv, ?_⟩
    intro k
    simp
  | cons hd tl ih =>
    intro acc hinv
    rw [List.foldl_cons]
    obtain ⟨hinv2, hmem2⟩ := edgeStep_keys rn hd acc hinv
    obtain ⟨hinvf, hmemf⟩ := ih _ hinv2
    refine ⟨hinvf, ?_⟩
    intro k
    rw [hmemf k, hmem2 k]
    constructor
    · rintro (⟨h | h⟩ | ⟨ip2, hip2, h⟩)
      · exact Or.inl h
      · exact Or.inr ⟨hd, List.mem_cons_self _ _, h⟩
      · exact Or.inr ⟨ip2, List.mem_cons_of_mem _ hip2, h⟩
    · rintro (h | ⟨ip2, hip2, h⟩)
      · exact Or.inl (Or.inl h)
      · rcases List.mem_cons.mp hip2 with h2 | h2
        · subst h2
          exact Or.inl (Or.inr h)
        · exact Or.inr ⟨ip2, h2, h⟩

theorem edgeOuterFold_keys (l : List (String × OSPFRouter)) :
    ∀ acc : NXGraph × List ((String × String) × Nat), keyInv2 acc →
      keyInv2 (l.foldl (fun (acc : NXGraph × List ((String × String) × Nat)) rp =>
        rp.2.interfaces.foldl (fun acc ip =>
          if truthy ip.2.connected_router then
            let cr := ip.2.connected_router.getD ""
            let key := (sortPair rp.1 cr, ip.2.area)
            if key ∈ acc.2 then acc
            else (addEdge acc.1 rp.1 cr ⟨ip.2.cost, ip.2.area, ip.2.network⟩,
                  key :: acc.2)
          else acc) acc) acc) ∧
      ∀ k, k ∈ (l.foldl (fun (acc : NXGraph × List ((String × String) × Nat)) rp =>
        rp.2.interfaces.foldl (fun acc ip =>
          if truthy ip.2.connected_router then
            let cr := ip.2.connected_router.getD ""
            let key := (sortPair rp.1 cr, ip.2.area)
            if key ∈ acc.2 then acc
            else (addEdge acc.1 rp.1 cr ⟨ip.2.cost, ip.2.area, ip.2.network⟩,
                  key :: acc.2)
          else acc) acc) acc).1.edges.map Prod.fst ↔
        k ∈ acc.1.edges.map Prod.fst ∨ ∃ rp ∈ l, ∃ ip ∈ rp.2.interfaces,
          truthy ip.2.connected_router = true ∧
          k = sortPair rp.1 (ip.2.connected_router.getD "") := by
  induction l with
  | nil =>
    intro acc hinv
    refine ⟨hinv, ?_⟩
    intro k
    simp
  | cons hd tl ih =>
    intro acc hinv
    rw [List.foldl_cons]
    obtain ⟨hinv2, hmem2⟩ := edgeIntfFold_keys hd.1 hd.2.interfaces acc hinv
    obtain ⟨hinvf, hmemf⟩ := ih _ hinv2
    refine ⟨hinvf, ?_⟩
    intro k
    rw [hmemf k, hmem2 k]
    constructor
    · rintro (⟨h | ⟨ip2, hip2, h⟩⟩ | ⟨rp, hrp, hrest⟩)
      · exact Or.inl h
      · exact Or.inr ⟨hd, List.mem_cons_self _ _, ip2, hip2, h⟩
      · exact Or.inr ⟨rp, List.mem_cons_of_mem _ hrp, hrest⟩
    · rintro (h | ⟨rp, hrp, hrest⟩)
      · exact Or.inl (Or.inl h)
      · rcases List.mem_cons.mp hrp with h2 | h2
        · subst h2
          exact Or.inl (Or.inr hrest)
        · exact Or.inr ⟨rp, h2, hrest⟩

/-- Characterization of the edge-key set of the built graph: exactly the
sorted pairs of a router and one of its connected targets. -/
theorem build_topology_keys (t : LoadedTopo) (k : String × String) :
    k ∈ (build_topology t).edges.map Prod.fst ↔ keyMentioned t k := by
  unfold build_topology keyMentioned
  obtain ⟨_, hmem⟩ := edgeOuterFold_keys t.routers
    (t.routers.foldl (fun g rp => addNode g rp.1) { nodes := [], edges := [] }, [])
    (fun pk hpk => absurd hpk (List.not_mem_nil _))
  rw [hmem k]
  rw [show (t.routers.foldl (fun g rp => addNode g rp.1) { nodes := [], edges := [] },
      ([] : List ((String × String) × Nat))).1 =
    t.routers.foldl (fun g rp => addNode g rp.1) { nodes := [], edges := [] } from rfl]
  rw [addNode_fold_edges]
  constructor
  · rintro (h | h)
    · cases h
    · exact h
  · intro h
    exact Or.inr h

/-- Membership in the edge-key set of the built graph is invariant under
reordering of the routers mapping. -/
theorem build_topology_keys_perm (t1 t2 : LoadedTopo)
    (hp : t1.routers.Perm t2.routers) :
    ∀ k, k ∈ (build_topology t1).edges.map Prod.fst ↔
      k ∈ (build_topology t2).edges.map Prod.fst := by
  intro k
  rw [build_topology_keys, build_topology_keys]
  unfold keyMentioned
  constructor
  · rintro ⟨rp, hrp, hrest⟩
    exact ⟨rp, hp.subset hrp, hrest⟩
  · rintro ⟨rp, hrp, hrest⟩
    exact ⟨rp, hp.symm.subset hrp, hrest⟩

/-! ## Evaluation bridge for concrete runs -/

/-- A terminating fueled run read off with a default: bridge for evaluating
concrete Dijkstra runs. -/
theorem dloopFuel_getD (g : NXGraph) (n : Nat) (st : DState)
    (h : (dloopFuel g n st).isSome = true) :
    dloop g st = (dloopFuel g n st).getD st := by
  obtain ⟨res, hres⟩ := Option.isSome_iff_exists.mp h
  rw [hres]
  exact dloopFuel_sound g n st res hres

/-! ## Executable substring check (for inspecting error messages) -/

def startsList : List Char → List Char → Bool
  | [], _ => true
  | _ :: _, [] => false
  | a :: as, b :: bs => a == b && startsList as bs

def hasSubChars (needle : List Char) : List Char → Bool
  | [] => startsList needle []
  | c :: rest => startsList needle (c :: rest) || hasSubChars needle rest

/-- Whether the first string occurs as a contiguous substring of the second. -/
def containsStr (needle hay : String) : Bool :=
  hasSubChars needle.toList hay.toList

deriving instance DecidableEq for Except

/-! ## Concrete topologies and configurations used as test inputs -/

/-- Zero-weight graph on which the path enumeration misses a minimal walk. -/
def gZ : NXGraph :=
  { nodes := ["S", "A", "B", "C"],
    edges := [ (("A", "S"), ⟨1, 0, "n1"⟩)
             , (("B", "S"), ⟨1, 0, "n2"⟩)
             , (("A", "B"), ⟨0, 0, "n3"⟩)
             , (("A", "C"), ⟨1, 0, "n4"⟩) ] }

/-- Diamond with two equal-cost paths from S to T. -/
def gE : NXGraph :=
  { nodes := ["S", "A", "B", "T"],
    edges := [ (("A", "S"), ⟨1, 0, "n1"⟩)
             , (("B", "S"), ⟨1, 0, "n2"⟩)
             , (("A", "T"), ⟨1, 0, "n3"⟩)
             , (("B", "T"), ⟨1, 0, "n4"⟩) ] }

/-- Two routers joined by two interface pairs in different areas with
different costs. -/
def tC3 : LoadedTopo :=
  { routers :=
      [ ("A", { router_id := "1.1.1.1", name := "A", router_type := "internal",
                interfaces :=
                  [ ("eth0", { name := "eth0", ip_address := "10.0.0.1",
                               network := "N0", cost := 5, area := 0,
                               connected_router := some "B", neighbor_ip := none })
                  , ("eth1", { name := "eth1", ip_address := "10.0.1.1",
                               network := "N1", cost := 7, area := 1,
                               connected_router := some "B", neighbor_ip := none }) ],
                areas := [0, 1] })
      , ("B", { router_id := "2.2.2.2", name := "B", router_type := "internal",
                interfaces :=
                  [ ("eth0", { name := "eth0", ip_address := "10.0.0.2",
                               network := "N0", cost := 5, area := 0,
                               connected_router := some "A", neighbor_ip := none })
                  , ("eth1", { name := "eth1", ip_address := "10.0.1.2",
                               network := "N1", cost := 7, area := 1,
                               connected_router := some "A", neighbor_ip := none }) ],
                areas := [0, 1] }) ],
    areas := ["0", "1"],
    metadata_type := none }

/-- Asymmetrically priced link, routers listed A first. -/
def tC4a : LoadedTopo :=
  { routers :=
      [ ("A", { router_id := "1.1.1.1", name := "A", router_type := "internal",
                interfaces :=
                  [ ("eth0", { name := "eth0", ip_address := "10.0.0.1",
                               network := "NA", cost := 1, area := 0,
                               connected_router := some "B", neighbor_ip := none }) ],
                areas := [0] })
      , ("B", { router_id := "2.2.2.2", name := "B", router_type := "internal",
                interfaces :=
                  [ ("eth0", { name := "eth0", ip_address := "10.0.0.2",
                               network := "NA", cost := 2, area := 0,
                               connected_router := some "A", neighbor_ip := none }) ],
                areas := [0] }) ],
    areas := ["0"],
    metadata_type := none }

/-- The same routers mapping iterated in the opposite order. -/
def tC4b : LoadedTopo :=
  { routers := tC4a.routers.reverse,
    areas := ["0"],
    metadata_type := none }

/-- Interface configuration with no recognized IP key. -/
def rawC5 : IntfConfig := [("name", .str "eth0"), ("cost", .num 5)]

/-- Configuration whose only interface lacks every accepted IP key. -/
def cfgC5 : Config :=
  { areas := ["0"],
    routers := [ ("R1", { router_id := "1.1.1.1", router_type := none,
                          interfaces := [("eth0", rawC5)] }) ],
    metadata_type := none }

/-- Configuration with a connected_to naming a router that does not exist. -/
def cfgC6 : Config :=
  { areas := ["0"],
    routers := [ ("A", { router_id := "1.1.1.1", router_type := none,
                         interfaces :=
                           [ ("eth0", [ ("ip", .str "10.0.0.1")
                                      , ("connected_to", .str "X") ]) ] }) ],
    metadata_type := none }

/-- Four routers with a single declared area. -/
def tRing : LoadedTopo :=
  { routers :=
      [ ("R1", { router_id := "1.1.1.1", name := "R1", router_type := "internal",
                 interfaces := [], areas := [0] })
      , ("R2", { router_id := "2.2.2.2", name := "R2", router_type := "internal",
                 interfaces := [], areas := [0] })
      , ("R3", { router_id := "3.3.3.3", name := "R3", router_type := "internal",
                 interfaces := [], areas := [0] })
      , ("R4", { router_id := "4.4.4.4", name := "R4", router_type := "internal",
                 interfaces := [], areas := [0] }) ],
    areas := ["0"],
    metadata_type := none }

/-- Two areas with one area border router. -/
def tMulti : LoadedTopo :=
  { routers :=
      [ ("R1", { router_id := "1.1.1.1", name := "R1", router_type := "abr",
                 interfaces := [], areas := [0, 1] }) ],
    areas := ["0", "1"],
    metadata_type := none }

/-- Source S, reachable R, and unreachable U sharing network N with R. -/
def cfgT : Config :=
  { areas := ["0"],
    routers :=
      [ ("S", { router_id := "1.1.1.1", router_type := none,
                interfaces :=
                  [ ("eth0", [ ("ip", .str "192.168.1.1")
                             , ("network", .str "M")
                             , ("cost", .num 1)
                             , ("connected_to", .obj [("router", .str "R")]) ]) ] })
      , ("R", { router_id := "2.2.2.2", router_type := none,
                interfaces :=
                  [ ("eth0", [ ("ip", .str "192.168.1.2")
                             , ("network", .str "M")
                             , ("cost", .num 1)
                             , ("connected_to", .obj [("router", .str "S")]) ])
                  , ("eth1", [ ("ip", .str "192.168.2.1")
                             , ("network", .str "N")
                             , ("cost", .num 1) ]) ] })
      , ("U", { router_id := "3.3.3.3", router_type := none,
                interfaces :=
                  [ ("eth0", [ ("ip", .str "192.168.2.2")
                             , ("network", .str "N")
                             , ("cost", .num 1) ]) ] }) ],
    metadata_type := none }

/-- The topology object built from cfgT. -/
def tT : OSPFTopologyState :=
  (mkTopology cfgT).toOption.getD
    { routers := [], areas := [], topology_type := "",
      graph := { nodes := [], edges := [] } }

/-- Interface configuration with an IP but no explicit network. -/
def rawC10 : IntfConfig := [("ip", .str "172.16.5.9")]

/-- The interface loaded from rawC10. -/
def iC10 : OSPFInterface :=
  (loadInterface "eth9" rawC10).toOption.getD
    { name := "", ip_address := "", network := "", cost := 0, area := 0,
      connected_router := none, neighbor_ip := none }

/-- A node with no incident edges that is not the source has no walk from the
source. -/
theorem no_edge_unreachable (g : NXGraph) (s v : String) (hsv : ¬ v = s)
    (hno : ∀ e ∈ g.edges, ¬ e.1.1 = v ∧ ¬ e.1.2 = v) :
    ∀ p : List String, walkOk g s v p = false := by
  intro p
  by_contra hcb
  rw [Bool.not_eq_false] at hcb
  rcases List.eq_nil_or_concat p with rfl | ⟨q, x, rfl⟩
  · rw [walkOk] at hcb
    simp at hcb
  · rw [List.concat_eq_append] at hcb
    have hvx : x = v := by
      rw [walkOk, Bool.and_eq_true, Bool.and_eq_true] at hcb
      have h1 := hcb.1.2
      rw [List.getLast?_concat, beq_iff_eq] at h1
      exact Option.some.inj h1
    subst hvx
    cases hq : q.getLast? with
    | none =>
      rw [List.getLast?_eq_none_iff] at hq
      subst hq
      rw [List.nil_append] at hcb
      rw [walkOk, Bool.and_eq_true, Bool.and_eq_true] at hcb
      have h1 := hcb.1.1
      rw [List.head?_cons, beq_iff_eq] at h1
      exact hsv (Option.some.inj h1)
    | some u =>
      obtain ⟨_, hedge⟩ := walkOk_unsnoc g s x u q hq hcb
      obtain ⟨dd, hdd⟩ := Option.isSome_iff_exists.mp hedge
      have hmem : (sortPair u x, dd) ∈ g.edges := elookup_mem hdd
      have hx := hno _ hmem
      rcases sortPair_cases u x with hs | hs
      · rw [hs] at hx
        exact hx.2 rfl
      · rw [hs] at hx
        exact hx.1 rfl

theorem detect_single_variants (t : LoadedTopo) (hmeta : t.metadata_type = none)
    (hle : t.areas.length ≤ 1) :
    detect_topology_type t =
      if t.routers.length = 4 then "single_area_ring" else "single_area" := by
  unfold detect_topology_type
  rw [hmeta]
  simp only
  rw [if_pos hle]

theorem detect_fallback_single (t : LoadedTopo) (hmeta : t.metadata_type = none)
    (hgt : 1 < t.areas.length)
    (hc : (t.areas.contains "0" &&
      decide (0 < t.routers.countP (fun rp => 1 < rp.2.areas.length))) = false) :
    detect_topology_type t = "single_area" := by
  unfold detect_topology_type
  rw [hmeta]
  simp only
  rw [if_neg (by omega), if_neg (by rw [hc]; simp)]

theorem determine_single_O (src dst : OSPFRouter) (a : Nat) :
    determine_route_type "single_area" src dst a = "O" := by
  rw [determine_route_type_eq, if_pos (Or.inl rfl)]

/-! ## Claim theorems, witnesses and counterexamples -/

theorem dijkstra_multi_path_correct_witness :
    alookup (dijkstra_multi_path gE "S").dist "S" = some 0 ∧
    (∀ v p, p ∈ pathsOf (dijkstra_multi_path gE "S") v →
      walkOk gE "S" v p = true ∧
      (walkW gE p : ℕ∞) = distOf (dijkstra_multi_path gE "S") v) ∧
    (∀ v p, walkOk gE "S" v p = true →
      distOf (dijkstra_multi_path gE "S") v ≤ (walkW gE p : ℕ∞)) :=
  dijkstra_multi_path_correct gE (by unfold NXGraph.WF; decide) "S"

/-- Claim C2 (amended): with strictly positive edge weights, the returned
path set of every destination contains every walk of minimal weight, and the
second vertex of every such walk appears as a next-hop key of the grouping
the routing table builder performs. -/
theorem dijkstra_complete_ecmp (g : NXGraph) (hwf : g.WF) (hpos : posWeights g)
    (s v : String) (p : List String) (hw : walkOk g s v p = true)
    (hmin : (walkW g p : ℕ∞) = distOf (dijkstra_multi_path g s) v) :
    p ∈ pathsOf (dijkstra_multi_path g s) v ∧
    ∀ a nh rest, p = a :: nh :: rest →
      nh ∈ (groupByNextHop (pathsOf (dijkstra_multi_path g s) v)).map Prod.fst := by
  have h1 := dijkstra_complete g hwf hpos s p v hw hmin
  refine ⟨h1, ?_⟩
  intro a nh rest hshape
  subst hshape
  exact groupByNextHop_key _ a nh rest h1

theorem dijkstra_complete_ecmp_witness :
    ["S", "A", "T"] ∈ pathsOf (dijkstra_multi_path gE "S") "T" ∧
    ∀ a nh rest, (["S", "A", "T"] : List String) = a :: nh :: rest →
      nh ∈ (groupByNextHop (pathsOf (dijkstra_multi_path gE "S") "T")).map Prod.fst :=
  dijkstra_complete_ecmp gE (by unfold NXGraph.WF; decide)
    (by unfold posWeights; decide) "S" "T" ["S", "A", "T"]
    (by decide)
    (by
      have hD : dijkstra_multi_path gE "S" =
          (dloopFuel gE 20 (dinit gE "S")).getD (dinit gE "S") :=
        dloopFuel_getD gE 20 (dinit gE "S") (by decide)
      rw [hD]
      decide)

/-- Claim C2 counterexample: on a graph with a zero-weight edge the walk
S-B-A-C has exactly the minimal recorded weight to C yet is missing from the
returned path set. -/
theorem dijkstra_complete_ecmp_cex :
    gZ.WF ∧
    walkOk gZ "S" "C" ["S", "B", "A", "C"] = true ∧
    (walkW gZ ["S", "B", "A", "C"] : ℕ∞) = distOf (dijkstra_multi_path gZ "S") "C" ∧
    ["S", "B", "A", "C"] ∉ pathsOf (dijkstra_multi_path gZ "S") "C" := by
  have hD : dijkstra_multi_path gZ "S" =
      (dloopFuel gZ 50 (dinit gZ "S")).getD (dinit gZ "S") :=
    dloopFuel_getD gZ 50 (dinit gZ "S") (by decide)
  refine ⟨by unfold NXGraph.WF; decide, by decide, ?_, ?_⟩
  · rw [hD]
    decide
  · rw [hD]
    decide

/-- Claim C3 (amended): the built graph holds exactly one edge record per
unordered router pair, keyed by the sorted pair; a second interface pair for
the same routers does not add a second edge. -/
theorem build_topology_edges_unique (t : LoadedTopo) :
    (((build_topology t).edges.map Prod.fst).Nodup) ∧
    ∀ e ∈ (build_topology t).edges, sortPair e.1.1 e.1.2 = e.1 :=
  build_topology_WF t

/-- Claim C3 counterexample: two interface pairs between A and B in areas 0
(cost 5, seen first) and 1 (cost 7, seen second) leave a single edge carrying
the attributes of the later interface, not the first. -/
theorem build_topology_last_wins_cex :
    weightBetween (build_topology tC3) "A" "B" = 7 ∧
    (build_topology tC3).edges = [(("A", "B"), ⟨7, 1, "N1"⟩)] ∧
    ((alookup tC3.routers "A").getD emptyRouter).interfaces.map
      (fun ip => (ip.2.cost, ip.2.area)) = [(5, 0), (7, 1)] := by
  refine ⟨by decide, by decide, by decide⟩

/-- Claim C4 (amended): membership in the node set and in the edge-key set
(the joined unordered router pairs) of the built graph is invariant under
reordering of the routers mapping; only the edge attributes depend on the
iteration order. -/
theorem build_topology_nodes_order (t1 t2 : LoadedTopo) (n : String)
    (k : String × String) (hp : t1.routers.Perm t2.routers) :
    (n ∈ (build_topology t1).nodes ↔ n ∈ (build_topology t2).nodes) ∧
    (k ∈ (build_topology t1).edges.map Prod.fst ↔
      k ∈ (build_topology t2).edges.map Prod.fst) :=
  ⟨build_topology_nodes_perm t1 t2 hp n, build_topology_keys_perm t1 t2 hp k⟩

theorem build_topology_nodes_order_witness :
    ("B" ∈ (build_topology tC4a).nodes ↔ "B" ∈ (build_topology tC4b).nodes) ∧
    (("A", "B") ∈ (build_topology tC4a).edges.map Prod.fst ↔
      ("A", "B") ∈ (build_topology tC4b).edges.map Prod.fst) :=
  build_topology_nodes_order tC4a tC4b "B" ("A", "B") (by decide)

/-- Claim C4 counterexample: presenting the same routers mapping in two
iteration orders yields different weights on the same edge, so the built
graphs are not structurally identical. -/
theorem build_topology_order_cex :
    tC4a.routers.Perm tC4b.routers ∧
    weightBetween (build_topology tC4a) "A" "B" = 1 ∧
    weightBetween (build_topology tC4b) "A" "B" = 2 ∧
    ¬ build_topology tC4a = build_topology tC4b := by
  refine ⟨by decide, by decide, by decide, by decide⟩

/-- Claim C5 (amended): an interface configuration without any accepted IP
key aborts construction with the KeyError whose message lists the available
keys and the accepted key set; the message does not depend on the interface
name. -/
theorem missing_ip_key_error (name : String) (raw : IntfConfig)
    (h : ∀ k ∈ ipKeys, (alookup raw k).isSome = false) :
    get_interface_ip raw = .error (noIpMessage (raw.map Prod.fst)) ∧
    loadInterface name raw = .error (noIpMessage (raw.map Prod.fst)) :=
  ⟨get_interface_ip_noip raw h, loadInterface_noip name raw h⟩

theorem missing_ip_key_error_witness :
    get_interface_ip rawC5 = .error (noIpMessage (rawC5.map Prod.fst)) ∧
    loadInterface "eth0" rawC5 = .error (noIpMessage (rawC5.map Prod.fst)) :=
  missing_ip_key_error "eth0" rawC5 (by decide)

/-- Claim C5 counterexample: the whole configuration load aborts with the
KeyError message, and that message does not contain the interface name
eth0. -/
theorem missing_ip_key_error_cex :
    load_configuration cfgC5 = .error (noIpMessage ["name", "cost"]) ∧
    containsStr "eth0" (noIpMessage ["name", "cost"]) = false ∧
    containsStr "eth0" "interface eth0" = true := by
  refine ⟨by decide, by decide, by decide⟩

/-- An interface pointing at a router name that is not in the map. -/
def iX : OSPFInterface :=
  { name := "eth7", ip_address := "10.9.9.1", network := "NX", cost := 1,
    area := 0, connected_router := some "X", neighbor_ip := none }

theorem resolveIntf_missing_witness :
    resolveIntf tC4a.routers "A" iX = iX :=
  resolveIntf_missing tC4a.routers "A" iX (by decide)

/-- The topology loaded from cfgC6. -/
def ltC6 : LoadedTopo :=
  (load_configuration cfgC6).toOption.getD
    { routers := [], areas := [], metadata_type := none }

/-- Claim C6 counterexample: a dangling connected_to loads without error, and
topology construction silently materializes a ghost node and an edge to
it. -/
theorem dangling_neighbor_materialized_cex :
    load_configuration cfgC6 = .ok ltC6 ∧
    "X" ∈ (build_topology ltC6).nodes ∧
    edgeBetween (build_topology ltC6) "A" "X" = some ⟨1, 0, "10.0.0.0/8"⟩ := by
  refine ⟨by decide, by decide, by decide⟩

/-- Claim C7 (amended): with at most one declared area and no metadata
override, detection yields single_area_ring for exactly four routers and
single_area otherwise, and route classification is always intra-area; with
several declared areas, detection yields multi_area when area 0 is declared
and some router belongs to more than one area, and otherwise falls back to
single_area with classification again always intra-area; for any topology
type other than the two single-area variants, classification is intra-area
exactly when the destination area is among the source router's areas. -/
theorem single_area_detection_and_classification :
    (∀ t : LoadedTopo, t.metadata_type = none → t.areas.length ≤ 1 →
      detect_topology_type t =
        if t.routers.length = 4 then "single_area_ring" else "single_area") ∧
    (∀ (t : LoadedTopo) (src dst : OSPFRouter) (a : Nat),
      t.metadata_type = none → t.areas.length ≤ 1 →
      determine_route_type (detect_topology_type t) src dst a = "O") ∧
    (∀ t : LoadedTopo, t.metadata_type = none → 1 < t.areas.length →
      t.areas.contains "0" = true →
      0 < t.routers.countP (fun rp => 1 < rp.2.areas.length) →
      detect_topology_type t = "multi_area") ∧
    (∀ (t : LoadedTopo) (src dst : OSPFRouter) (a : Nat),
      t.metadata_type = none → 1 < t.areas.length →
      (t.areas.contains "0" &&
        decide (0 < t.routers.countP (fun rp => 1 < rp.2.areas.length))) = false →
      detect_topology_type t = "single_area" ∧
      determine_route_type (detect_topology_type t) src dst a = "O") ∧
    (∀ (tt : String) (src dst : OSPFRouter) (a : Nat),
      ¬ tt = "single_area" → ¬ tt = "single_area_ring" →
      determine_route_type tt src dst a =
        if a ∈ src.areas then "O" else "O IA") :=
  ⟨fun t hmeta hle => detect_single_variants t hmeta hle,
   fun t src dst a hmeta hle => single_area_always_intra t src dst a hmeta hle,
   fun t hmeta hgt h0 habr => detect_multi_area t hmeta hgt h0 habr,
   fun t src dst a hmeta hgt hc =>
     ⟨detect_fallback_single t hmeta hgt hc,
      by rw [detect_fallback_single t hmeta hgt hc]
         exact determine_single_O src dst a⟩,
   fun tt src dst a h1 h2 => route_type_other tt src dst a h1 h2⟩

/-- Claim C7 counterexample: four routers in a single declared area are
auto-detected as single_area_ring, not single_area, yet classification still
returns intra-area even for an area outside the source router's
memberships. -/
theorem single_area_ring_cex :
    detect_topology_type tRing = "single_area_ring" ∧
    ¬ ("single_area_ring" : String) = "single_area" ∧
    tRing.metadata_type = none ∧ tRing.areas.length ≤ 1 ∧
    determine_route_type (detect_topology_type tRing)
      ((alookup tRing.routers "R1").getD emptyRouter) emptyRouter 5 = "O" ∧
    ¬ 5 ∈ ((alookup tRing.routers "R1").getD emptyRouter).areas := by
  refine ⟨by decide, by decide, by decide, by decide, by decide, by decide⟩

/-- Claim C8 (amended): an unreachable node keeps distance infinity and no
paths entry, and every synthesized route entry's network is owned by some
destination router that has recorded paths; unreachability raises no
error. -/
theorem unreachable_no_route (t : OSPFTopologyState) (rn : String)
    (hwf : t.graph.WF) (v : String)
    (hunreach : ∀ p : List String, walkOk t.graph rn v p = false) :
    distOf (dijkstra_multi_path t.graph rn) v = ⊤ ∧
    alookup (dijkstra_multi_path t.graph rn).paths v = none ∧
    ∀ e ∈ generate_routing_table t rn,
      ∃ dp ∈ t.routers, ¬ dp.1 = rn ∧
        (∃ ipp ∈ dp.2.interfaces, ipp.2.network = e.network) ∧
        alookup (dijkstra_multi_path t.graph rn).paths dp.1 ≠ none := by
  obtain ⟨h1, h2⟩ := dijkstra_unreachable t.graph hwf rn v hunreach
  refine ⟨h1, h2, ?_⟩
  intro e he
  exact (generate_routing_table_from_prov t rn (dijkstra_multi_path t.graph rn)
    e he).2

theorem unreachable_no_route_witness :
    distOf (dijkstra_multi_path tT.graph "S") "U" = ⊤ ∧
    alookup (dijkstra_multi_path tT.graph "S").paths "U" = none ∧
    ∀ e ∈ generate_routing_table tT "S",
      ∃ dp ∈ tT.routers, ¬ dp.1 = "S" ∧
        (∃ ipp ∈ dp.2.interfaces, ipp.2.network = e.network) ∧
        alookup (dijkstra_multi_path tT.graph "S").paths dp.1 ≠ none :=
  unreachable_no_route tT "S" (by unfold NXGraph.WF; decide) "U"
    (no_edge_unreachable tT.graph "S" "U" (by decide) (by decide))

/-- Claim C8 counterexample: network N is owned by the unreachable router U
(shared with the reachable router R), and the routing table for S contains
an entry for N. -/
theorem shared_network_route_cex :
    distOf (dijkstra_multi_path tT.graph "S") "U" = ⊤ ∧
    (∃ ipp ∈ ((alookup tT.routers "U").getD emptyRouter).interfaces,
      ipp.2.network = "N") ∧
    (∃ e ∈ generate_routing_table tT "S", e.network = "N") := by
  have hD : dijkstra_multi_path tT.graph "S" =
      (dloopFuel tT.graph 20 (dinit tT.graph "S")).getD (dinit tT.graph "S") :=
    dloopFuel_getD tT.graph 20 (dinit tT.graph "S") (by decide)
  refine ⟨?_, by decide, ?_⟩
  · rw [hD]
    decide
  · rw [show generate_routing_table tT "S" =
      generate_routing_table_from tT "S" (dijkstra_multi_path tT.graph "S")
      from rfl, hD]
    decide

/-- Claim C9: no synthesized route entry's destination network equals the
network of any interface of the source router. -/
theorem no_direct_network_routes (t : OSPFTopologyState) (rn : String)
    (e : RouteEntry) (he : e ∈ generate_routing_table t rn) :
    ∀ si ∈ ((alookup t.routers rn).getD emptyRouter).interfaces,
      ¬ si.2.network = e.network :=
  (generate_routing_table_from_prov t rn (dijkstra_multi_path t.graph rn) e he).1

/-- The single route entry of tT's table for S. -/
def eN : RouteEntry :=
  { network := "N", next_hop := "192.168.1.2", cost := 2,
    via_interface := "eth0", route_type := "O" }

theorem no_direct_network_routes_witness :
    eN ∈ generate_routing_table tT "S" ∧
    ∀ si ∈ ((alookup tT.routers "S").getD emptyRouter).interfaces,
      ¬ si.2.network = eN.network := by
  have hD : dijkstra_multi_path tT.graph "S" =
      (dloopFuel tT.graph 20 (dinit tT.graph "S")).getD (dinit tT.graph "S") :=
    dloopFuel_getD tT.graph 20 (dinit tT.graph "S") (by decide)
  have hm : eN ∈ generate_routing_table tT "S" := by
    rw [show generate_routing_table tT "S" =
      generate_routing_table_from tT "S" (dijkstra_multi_path tT.graph "S")
      from rfl, hD]
    decide
  exact ⟨hm, no_direct_network_routes tT "S" eN hm⟩

/-- Claim C10: on canonical dotted quads the derived network is 10.0.0.0/8
for addresses in the 10.0.0.0/8 space and the first three octets with a /24
suffix otherwise (the 192.168 branch and the default branch agree), and a
loaded interface without an explicit network field carries exactly the
derived network of its IP. -/
theorem derive_network_heuristic :
    (∀ a b c d : Nat, a ≤ 255 → b ≤ 255 → c ≤ 255 → d ≤ 255 →
      derive_network (renderQuad a b c d) =
        if a = 10 then "10.0.0.0/8"
        else String.mk (octChars a ++ dotChar ::
          (octChars b ++ dotChar :: octChars c)) ++ ".0/24") ∧
    (∀ (name : String) (raw : IntfConfig) (i : OSPFInterface),
      loadInterface name raw = .ok i → alookup raw "network" = none →
      i.network = derive_network i.ip_address) :=
  ⟨fun a b c d ha hb hc hd255 => derive_network_quad a b c d ha hb hc hd255,
   fun name raw i hok hnet => loadInterface_derives_network name raw i hok hnet⟩

end OSPFSim
